import Mathlib

/-!
# BITS packet decoder (`part16/main.go`)

A shallow embedding of the bit reader, the literal decoder, the recursive
packet decoder/evaluator and the operator table of `part16/main.go`,
followed by theorems about them.

Modelling conventions.

* A Go `int` value is a Lean `Int` in the range `[-2^63, 2^63)`; every
  arithmetic step that can leave the range is followed by `wrap64`
  (two's-complement wrap-around).
* The byte source (`io.ByteReader`) is the list of bytes not yet pulled;
  `ReadByte` on the empty list gives `io.EOF`.
* `balance` and the bit count passed to `readBits` are natural numbers
  (the loop guard `bits > 0` treats a negative count as zero; a negative
  `balance` cannot arise).
* The field `offset` of the model is the number of bits consumed, kept as an
  unbounded integer; the Go field, a 64-bit `int`, is that count wrapped
  (`goOffset`). The two agree, and the guard `r.offset < begin+length` of the
  length-mode loop compares the same numbers in Go and in the model, as long
  as no count reaches `2^63` (`NoOverflow`), which takes an input of `2^59`
  bytes; at `math.MaxInt` the Go field wraps to `-2^63`.
* A Go call returns the pair `(int, error)` or panics: `Outcome`.
* The loops of `readLiteral` and `readPacket` and the recursion of
  `readPacket` are bounded by a fuel argument; `none` means out of fuel.
-/

namespace Part16

/-! ## Go integers -/

/-- Two's-complement wrap-around of an integer into the range of a Go `int`. -/
def wrap64 (x : Int) : Int := (x + 2 ^ 63) % 2 ^ 64 - 2 ^ 63

/-- Go `x << k` on `int`. -/
def shl (x : Int) (k : Nat) : Int := wrap64 (x * 2 ^ k)

/-- Go `math.MaxInt`. -/
def MaxInt : Int := 2 ^ 63 - 1

/-! ## Packet type codes (`const ( TypeSum = iota ... )`) -/

def TypeSum : Int := 0
def TypeProduct : Int := 1
def TypeMinimum : Int := 2
def TypeMaximum : Int := 3
def TypeLiteral : Int := 4
def TypeGreaterThan : Int := 5
def TypeLessThan : Int := 6
def TypeEqualTo : Int := 7

/-! ## Operator table -/

/-- The entry `ops[TypeSum]`. -/
def opSum (v : List Int) : Int := v.foldl (fun s n => wrap64 (s + n)) 0

/-- The entry `ops[TypeProduct]`. -/
def opProduct (v : List Int) : Int := v.foldl (fun s n => wrap64 (s * n)) 1

/-- The entry `ops[TypeMinimum]`. -/
def opMinimum (v : List Int) : Int := v.foldl (fun s n => if n < s then n else s) MaxInt

/-- The entry `ops[TypeMaximum]`. -/
def opMaximum (v : List Int) : Int := v.foldl (fun s n => if n > s then n else s) 0

/-- The entry `ops[TypeGreaterThan]`; `none` is the index-out-of-range panic of
`v[0]` or `v[1]`. -/
def opGreaterThan (v : List Int) : Option Int :=
  match v[0]?, v[1]? with
  | some a, some b => some (if a > b then 1 else 0)
  | _, _ => none

/-- The entry `ops[TypeLessThan]`; `none` is the index-out-of-range panic. -/
def opLessThan (v : List Int) : Option Int :=
  match v[0]?, v[1]? with
  | some a, some b => some (if a < b then 1 else 0)
  | _, _ => none

/-- The entry `ops[TypeEqualTo]`; `none` is the index-out-of-range panic. -/
def opEqualTo (v : List Int) : Option Int :=
  match v[0]?, v[1]? with
  | some a, some b => some (if a = b then 1 else 0)
  | _, _ => none

/-- The array `ops`, of length 8. The outer `none` is an index outside the
array, the inner `none` is the nil entry (index `TypeLiteral`, which the
composite literal does not set). An operator returns `none` when it panics. -/
def ops (packetType : Int) : Option (Option (List Int → Option Int)) :=
  if packetType = TypeSum then some (some (fun v => some (opSum v)))
  else if packetType = TypeProduct then some (some (fun v => some (opProduct v)))
  else if packetType = TypeMinimum then some (some (fun v => some (opMinimum v)))
  else if packetType = TypeMaximum then some (some (fun v => some (opMaximum v)))
  else if packetType = TypeLiteral then some none
  else if packetType = TypeGreaterThan then some (some opGreaterThan)
  else if packetType = TypeLessThan then some (some opLessThan)
  else if packetType = TypeEqualTo then some (some opEqualTo)
  else none

/-! ## Errors and outcomes -/

/-- The error values the program can produce. -/
inductive Error where
  /-- The value `io.EOF`. -/
  | eof
  /-- The value `errors.Wrap(cause, msg)`. -/
  | wrapped (cause : Error) (msg : String)
  /-- The value `fmt.Errorf("operator %X not found", packetType)`. -/
  | opNotFound (packetType : Int)
  deriving DecidableEq, Repr

/-- The innermost error of a chain of `errors.Wrap` (`errors.Cause`). -/
def Error.rootCause : Error → Error
  | .wrapped cause _ => cause.rootCause
  | e => e

/-- What a call of type `(int, error)` does: it returns a pair, or panics. -/
inductive Outcome where
  | ret (val : Int) (err : Option Error)
  | panic
  deriving DecidableEq, Repr

/-! ## The bit reader -/

abbrev Byte := Fin 256

/-- The struct `bitReader`; `src` is what the embedded `io.ByteReader` still
holds, and `offset` is the bit count that the Go field `offset` holds modulo
`2^64` (see `goOffset`). -/
structure bitReader where
  src : List Byte
  buf : Byte
  balance : Nat
  offset : Int
  deriving DecidableEq, Repr

/-- The reader `&bitReader{bufreader, 0, 0, 0}` of `main`. -/
def fresh (bs : List Byte) : bitReader := ⟨bs, 0, 0, 0⟩

/-- The test `(r.buf & (1 << (r.balance - 1))) != 0`, on bytes. -/
def bufBit (buf : Byte) (balance : Nat) : Bool :=
  (buf.val &&& ((1 <<< (balance - 1)) % 256)) != 0

/-- The body of the loop of `readBits` after the refill; `r.offset++` adds one
to the bit count (on the Go field: `goOffset_step`). -/
def readBitsStep (ret : Int) (r : bitReader) : Int × bitReader :=
  let ret1 := shl ret 1
  let ret2 := if bufBit r.buf r.balance then Int.lor ret1 1 else ret1
  (ret2, { r with balance := r.balance - 1, offset := r.offset + 1 })

/-- The loop `for bits > 0` of `readBits`, with the accumulator `ret`. -/
def readBitsLoop : Nat → Int → bitReader → Outcome × bitReader
  | 0, ret, r => (.ret ret none, r)
  | bits + 1, ret, r =>
    if r.balance = 0 then
      match r.src with
      | [] => (.ret 0 (some .eof), r)
      | b :: rest =>
        let (ret1, r1) := readBitsStep ret { r with src := rest, buf := b, balance := 8 }
        readBitsLoop bits ret1 r1
    else
      let (ret1, r1) := readBitsStep ret r
      readBitsLoop bits ret1 r1

/-- The method `(r *bitReader) readBits(bits int) (int, error)`. -/
def readBits (bits : Nat) (r : bitReader) : Outcome × bitReader :=
  readBitsLoop bits 0 r

/-! ## Literals -/

/-- The loop `for cont` of `readLiteral`, entered with `cont = true` and the
accumulator `val`. -/
def readLiteralLoop : Nat → Int → bitReader → Option (Outcome × bitReader)
  | 0, _, _ => none
  | fuel + 1, val, r =>
    match readBits 5 r with
    | (.ret word none, r1) =>
      let cont := Int.land word 0b10000 != 0
      let val1 := Int.lor (shl val 4) (Int.land word 0b01111)
      if cont then readLiteralLoop fuel val1 r1 else some (.ret val1 none, r1)
    | (.ret _ (some err), r1) => some (.ret 0 (some err), r1)
    | (.panic, r1) => some (.panic, r1)

/-- The function `readLiteral`. -/
def readLiteral (fuel : Nat) (r : bitReader) : Option (Outcome × bitReader) :=
  readLiteralLoop fuel 0 r

/-! ## Packets -/

/-- Lines 196-200 of `readPacket`: look the operator up and apply it. -/
def applyOp (packetType : Int) (subvalues : List Int) : Outcome :=
  match ops packetType with
  | none => .panic
  | some none => .ret 0 (some (.opNotFound packetType))
  | some (some op) =>
    match op subvalues with
    | none => .panic
    | some v => .ret v none

/-- How a sub-packet loop ends: it falls through with the collected
`subvalues`, or `readPacket` leaves from inside the loop. -/
inductive LoopEnd where
  | done (subvalues : List Int) (r : bitReader)
  | leave (o : Outcome) (r : bitReader)
  deriving DecidableEq, Repr

/-- The loop `for i := 0; i < subpackets; i++`, with `n` iterations to go;
`rp` is the recursive call. -/
def countLoop (rp : bitReader → Option (Outcome × bitReader)) :
    Nat → bitReader → List Int → Option LoopEnd
  | 0, r, subvalues => some (.done subvalues r)
  | n + 1, r, subvalues =>
    match rp r with
    | none => none
    | some (.ret subval none, r1) => countLoop rp n r1 (subvalues ++ [subval])
    | some (.ret _ (some err), r1) =>
      some (.leave (.ret 0 (some (.wrapped err "read subpacket"))) r1)
    | some (.panic, r1) => some (.leave .panic r1)

/-- The loop `for begin := r.offset; r.offset < begin+length; ` with
`limit = begin + length`, on bit counts; `rp` is the recursive call. -/
def lengthLoop (rp : bitReader → Option (Outcome × bitReader)) :
    Nat → Int → bitReader → List Int → Option LoopEnd
  | 0, limit, r, subvalues =>
    if r.offset < limit then none else some (.done subvalues r)
  | fuel + 1, limit, r, subvalues =>
    if r.offset < limit then
      match rp r with
      | none => none
      | some (.ret subval none, r1) => lengthLoop rp fuel limit r1 (subvalues ++ [subval])
      | some (.ret _ (some err), r1) =>
        some (.leave (.ret 0 (some (.wrapped err "read subpacket"))) r1)
      | some (.panic, r1) => some (.leave .panic r1)
    else some (.done subvalues r)

/-- The end of `readPacket` after a sub-packet loop. -/
def finish (packetType : Int) : Option LoopEnd → Option (Outcome × bitReader)
  | none => none
  | some (.done subvalues r) => some (applyOp packetType subvalues, r)
  | some (.leave o r) => some (o, r)

/-- The function `readPacket`. -/
def readPacket : Nat → bitReader → Option (Outcome × bitReader)
  | 0, _ => none
  | fuel + 1, r =>
    match readBits 3 r with
    | (.panic, r1) => some (.panic, r1)
    | (.ret _ (some err), r1) => some (.ret 0 (some err), r1)
    | (.ret _ none, r1) =>
    match readBits 3 r1 with
    | (.panic, r2) => some (.panic, r2)
    | (.ret _ (some err), r2) => some (.ret 0 (some err), r2)
    | (.ret packetType none, r2) =>
    if packetType = TypeLiteral then
      match readLiteral fuel r2 with
      | none => none
      | some (.panic, r3) => some (.panic, r3)
      | some (.ret _ (some err), r3) =>
        some (.ret 0 (some (.wrapped err "reading literal")), r3)
      | some (.ret lit none, r3) => some (.ret lit none, r3)
    else
    match readBits 1 r2 with
    | (.panic, r3) => some (.panic, r3)
    | (.ret _ (some err), r3) => some (.ret 0 (some err), r3)
    | (.ret lengthFlag none, r3) =>
    if lengthFlag = 1 then
      match readBits 11 r3 with
      | (.panic, r4) => some (.panic, r4)
      | (.ret _ (some err), r4) => some (.ret 0 (some err), r4)
      | (.ret subpackets none, r4) =>
        finish packetType (countLoop (readPacket fuel) subpackets.toNat r4 [])
    else if lengthFlag = 0 then
      match readBits 15 r3 with
      | (.panic, r4) => some (.panic, r4)
      | (.ret _ (some err), r4) => some (.ret 0 (some err), r4)
      | (.ret length none, r4) =>
        finish packetType (lengthLoop (readPacket fuel) fuel (r4.offset + length) r4 [])
    else some (applyOp packetType [], r3)

/-! ## The bit stream a reader stands for -/

/-- The bits of a byte from bit `n - 1` down to bit `0`. -/
def lowBits (b : Byte) : Nat → List Bool
  | 0 => []
  | n + 1 => b.val.testBit n :: lowBits b n

/-- The bits of a byte sequence: bytes in order, most-significant bit first. -/
def streamBits : List Byte → List Bool
  | [] => []
  | b :: bs => lowBits b 8 ++ streamBits bs

/-- The bits a reader has not returned yet. -/
def unread (r : bitReader) : List Bool := lowBits r.buf r.balance ++ streamBits r.src

/-- The natural number with the given big-endian binary expansion. -/
def ofBits (bits : List Bool) : Nat := bits.foldl (fun a b => 2 * a + b.toNat) 0

/-- One turn of the accumulator of `readBits`: shift, then or the bit in. -/
def pushBit (ret : Int) (b : Bool) : Int :=
  if b then Int.lor (shl ret 1) 1 else shl ret 1

/-- The reader states reached from the fresh reader over `bs` by successful
calls of `readBits`. -/
inductive Reached (bs : List Byte) : bitReader → Prop where
  | start : Reached bs (fresh bs)
  | read (n : Nat) (v : Int) (r r1 : bitReader) :
      Reached bs r → readBits n r = (.ret v none, r1) → Reached bs r1

/-- Eight bytes `FF`. -/
def allOnes : List Byte := [0xFF, 0xFF, 0xFF, 0xFF, 0xFF, 0xFF, 0xFF, 0xFF]

/-- The bytes of a hexadecimal message. -/
def hexD2FE28 : List Byte := [0xD2, 0xFE, 0x28]

/-- The reader state a sub-packet loop ends in. -/
def LoopEnd.reader : LoopEnd → bitReader
  | .done _ r => r
  | .leave _ r => r

/-- The next `n` bits of the stream `bs` at the position of the reader `r`. -/
def nextBits (bs : List Byte) (r : bitReader) (n : Nat) : List Bool :=
  ((streamBits bs).drop r.offset.toNat).take n

/-- The four payload bits of a literal group, most-significant first. -/
def nibbleBits (d : Nat) : List Bool := [d.testBit 3, d.testBit 2, d.testBit 1, d.testBit 0]

/-- The encoding of `x` as `k` literal groups: the `k` base-16 digits of `x`,
most-significant first, each preceded by a continuation bit that is 1 on all
groups but the last. -/
def encLiteral : Nat → Nat → List Bool
  | 0, _ => []
  | k + 1, x => decide (k ≠ 0) :: nibbleBits (x / 16 ^ k % 16) ++ encLiteral k x

/-- The `w`-bit big-endian binary expansion of `n` (of `n mod 2^w`). -/
def natBits : Nat → Nat → List Bool
  | 0, _ => []
  | w + 1, n => n.testBit w :: natBits w n

/-- The bit string `b` is a packet of value `v`: started at any bit offset on
a stream that begins with `b`, `readPacket` (with some fuel) succeeds with
value `v` and consumes exactly the bits of `b`. -/
def Decodes (b : List Bool) (v : Int) : Prop :=
  ∀ (r : bitReader) (tail : List Bool), unread r = b ++ tail →
    ∃ fuel r1, readPacket fuel r = some (.ret v none, r1) ∧
      unread r1 = tail ∧ r1.offset = r.offset + b.length

/-- The bytes of the message `C200B40A82`. -/
def hexC200B40A82 : List Byte := [0xC2, 0x00, 0xB4, 0x0A, 0x82]

/-- The bytes of the message `04005AC33890`. -/
def hex04005AC33890 : List Byte := [0x04, 0x00, 0x5A, 0xC3, 0x38, 0x90]

/-- The bytes of the message `9C0141080250320F1802104A08`. -/
def hex9C0141080250320F1802104A08 : List Byte :=
  [0x9C, 0x01, 0x41, 0x08, 0x02, 0x50, 0x32, 0x0F, 0x18, 0x02, 0x10, 0x4A, 0x08]

/-- The reader over `D2 FE 28` after the six header bits. -/
def afterHeader : bitReader := ⟨[0xFE, 0x28], 0xD2, 2, 6⟩

/-- The concatenation of a list of bit strings. -/
def concatBits : List (List Bool) → List Bool
  | [] => []
  | b :: bs => b ++ concatBits bs

/-- An operator packet in count mode: version, type code `t`, flag 1, the
number of sub-packets in 11 bits, then the sub-packets. -/
def encCount (ver : List Bool) (t : Nat) (bs : List (List Bool)) : List Bool :=
  ver ++ (natBits 3 t ++ ([true] ++ (natBits 11 bs.length ++ concatBits bs)))

/-- An operator packet in length mode: version, type code `t`, flag 0, the
total bit length of the sub-packets in 15 bits, then the sub-packets. -/
def encLength (ver : List Bool) (t : Nat) (bs : List (List Bool)) : List Bool :=
  ver ++ (natBits 3 t ++ ([false] ++ (natBits 15 (concatBits bs).length ++ concatBits bs)))

/-- The two sub-packets of `C200B40A82`, the literals 1 and 2, with their values. -/
def sumSubs : List (List Bool × Int) :=
  [([true, true, false] ++ ([true, false, false] ++ encLiteral 1 1), ((1 : Nat) : Int)),
   ([false, true, false] ++ ([true, false, false] ++ encLiteral 1 2), ((2 : Nat) : Int))]

/-- The bytes `00 00 04 40 80`: version 0, type 0 (sum), flag 0, length field 1,
then the 11-bit literal packet of value 1. -/
def lengthOvershoot : List Byte := [0x00, 0x00, 0x04, 0x40, 0x80]

/-- The bytes `C0 00 5B 40 A8 20`: the sub-packets of `C200B40A82` under the
same version and type code, in length mode. -/
def sumLengthMode : List Byte := [0xC0, 0x00, 0x5B, 0x40, 0xA8, 0x20]

/-- The reader `rp` runs on a truncated copy of the input of `r`: same bit
position, the unread bits of `r` are those of `rp` followed by the cut-off
bits `t`, and `rp` has `N` bits in all (read and unread). -/
def Sim (t : List Bool) (N : Int) (rp r : bitReader) : Prop :=
  rp.offset = r.offset ∧ unread r = unread rp ++ t ∧ rp.offset + ((unread rp).length : Int) = N

/-- A decoding step that, on the truncated input, either does what it does on
the full input or fails with an error rooted in `io.EOF`. -/
def SimStep (t : List Bool) (N : Int) (f : bitReader → Option (Outcome × bitReader)) : Prop :=
  ∀ (rp r : bitReader) (v : Int) (r1 : bitReader), Sim t N rp r →
    f r = some (.ret v none, r1) →
      (∃ rp1, f rp = some (.ret v none, rp1) ∧ Sim t N rp1 r1) ∨
      (∃ e rp1, f rp = some (.ret 0 (some e), rp1) ∧ e.rootCause = .eof)

/-- The bytes `16 00 00`: version 0, type 5 (greater-than), flag 1, count 0. -/
def comparisonNoOperand : List Byte := [0x16, 0x00, 0x00]

/-- The bytes `D6 00 B4 0A 82`: the sub-packets of `C200B40A82` under the
greater-than operator, in count mode. -/
def hexD600B40A82 : List Byte := [0xD6, 0x00, 0xB4, 0x0A, 0x82]

/-- The bytes `D4 00 5B 40 A8 20`: the same packet as `D600B40A82`, in length mode. -/
def hexD4005B40A820 : List Byte := [0xD4, 0x00, 0x5B, 0x40, 0xA8, 0x20]

/-- The bytes `FF FF FF FF FF FF FF FF FF EF`: sixteen literal groups whose
payload bits are all 1. -/
def literalAllOnes : List Byte :=
  [0xFF, 0xFF, 0xFF, 0xFF, 0xFF, 0xFF, 0xFF, 0xFF, 0xFF, 0xEF]

/-- The bytes `0E 00 44 FF FF FF FF FF FF FF FF FF EF`: a maximum packet in
count mode with one sub-packet, the literal of sixteen groups of payload 1s. -/
def maximumOfNegative : List Byte :=
  [0x0E, 0x00, 0x44, 0xFF, 0xFF, 0xFF, 0xFF, 0xFF, 0xFF, 0xFF, 0xFF, 0xFF, 0xEF]

/-- The buffer invariant of a reader over `bs`: the source holds a suffix of
`bs`, at most 7 bits of the current byte are unread, the bit position plus
these is 8 times the number of bytes pulled, and `buf` is the last byte
pulled while some of its bits are unread. -/
def Inv (bs : List Byte) (r : bitReader) : Prop :=
  ∃ pulled : List Byte, bs = pulled ++ r.src ∧ r.balance ≤ 7 ∧
    r.offset + (r.balance : Int) = 8 * (pulled.length : Int) ∧
    (0 < r.balance → pulled.getLast? = some r.buf)

/-- The bytes `1E 00 44 08`: version 0, type 7 (equal-to), flag 1, count 1,
then the literal packet of value 1. -/
def equalToOneOperand : List Byte := [0x1E, 0x00, 0x44, 0x08]

/-- Two readers at the same bit position whose unread bits agree up to the
absolute bit position `M`. -/
def Agree (M : Int) (ra rb : bitReader) : Prop :=
  ra.offset = rb.offset ∧
    (unread ra).take (M - ra.offset).toNat = (unread rb).take (M - rb.offset).toNat

/-- A decoding step whose successful runs that stay below position `M` do the
same on every reader that agrees up to `M`. -/
def AgreeStep (M : Int) (f : bitReader → Option (Outcome × bitReader)) : Prop :=
  ∀ (ra rb : bitReader) (v : Int) (ra1 : bitReader), Agree M ra rb →
    f ra = some (.ret v none, ra1) → ra1.offset ≤ M →
      ∃ rb1, f rb = some (.ret v none, rb1) ∧ Agree M ra1 rb1

/-- Successive turns of a sub-packet loop (lines 174-180 and 187-193):
`Steps rp guard r vs r1` says that the loop body, started in reader state `r`,
runs `vs.length` times, each time with the loop guard true on entry and the
recursive call `rp` successful, appends the values `vs` in this order and
leaves the reader in state `r1`. -/
inductive Steps (rp : bitReader → Option (Outcome × bitReader)) (guard : bitReader → Prop) :
    bitReader → List Int → bitReader → Prop where
  | nil (r : bitReader) : Steps rp guard r [] r
  | cons (r r2 r1 : bitReader) (v : Int) (vs : List Int) :
      guard r → rp r = some (.ret v none, r2) → Steps rp guard r2 vs r1 →
      Steps rp guard r (v :: vs) r1

/-- The header of an operator packet (lines 139-186): in state `r`,
`readPacket` reads the version, a type code `t` other than `TypeLiteral`, the
length-type flag and then, for flag 1, the 11-bit sub-packet count `n` or,
for flag 0, the 15-bit length `n`, all without error, and enters the
sub-packet loop in state `rd`. -/
def OperatorHeader (r : bitReader) (t flag n : Int) (rd : bitReader) : Prop :=
  ∃ ver ra rb rc, readBits 3 r = (.ret ver none, ra) ∧ readBits 3 ra = (.ret t none, rb) ∧
    t ≠ TypeLiteral ∧ readBits 1 rb = (.ret flag none, rc) ∧
    ((flag = 1 ∧ readBits 11 rc = (.ret n none, rd)) ∨
      (flag = 0 ∧ readBits 15 rc = (.ret n none, rd)))

/-- How a run of `readPacket` comes to the index-out-of-range panic:
`PanicAt fuel r r1` says that the call in state `r`, or a recursive call made
from one of its sub-packet loops at any depth, is an operator packet with a
comparison type code (5, 6 or 7) whose sub-packet loop falls through, in
state `r1`, with fewer than two values, so that `ops[packetType](subvalues)`
indexes `v[0]` or `v[1]` out of range.

* `here`: the packet read in state `r` is that comparison: after its header
  the loop makes the run `vs` of successful sub-packet decodes and falls
  through (count mode: `vs.length` is the count; length mode: the bit
  position has reached `begin + length`), and `vs.length < 2`.
* `sub`: after the header and a run of successful sub-packet decodes, the loop
  guard still true, the next recursive call, in state `r0`, comes to the
  panic. -/
inductive PanicAt : Nat → bitReader → bitReader → Prop where
  | here (fuel : Nat) (r rd r1 : bitReader) (t flag n : Int) (vs : List Int) :
      OperatorHeader r t flag n rd →
      Steps (readPacket fuel) (fun s => flag = 0 → s.offset < rd.offset + n) rd vs r1 →
      (flag = 1 → vs.length = n.toNat) → (flag = 0 → rd.offset + n ≤ r1.offset) →
      5 ≤ t → t < 8 → vs.length < 2 → applyOp t vs = .panic →
      PanicAt (fuel + 1) r r1
  | sub (fuel : Nat) (r rd r0 r1 : bitReader) (t flag n : Int) (vs : List Int) :
      OperatorHeader r t flag n rd →
      Steps (readPacket fuel) (fun s => flag = 0 → s.offset < rd.offset + n) rd vs r0 →
      (flag = 1 → vs.length < n.toNat) → (flag = 0 → r0.offset < rd.offset + n) →
      PanicAt fuel r0 r1 →
      PanicAt (fuel + 1) r r1

/-- The Go field `offset`, a 64-bit `int`, in a state of the model.
`bitReader.offset` counts the bits consumed as an unbounded integer; the
field holds that count wrapped into the range of `int`: `r.offset++`
(line 105) is `wrap64 (offset + 1)`, and `wrap64 (wrap64 c + 1)` is
`wrap64 (c + 1)`. -/
def goOffset (r : bitReader) : Int := wrap64 r.offset

/-- A state in which no 64-bit addition on `offset` can overflow during the
calls that follow: the count is in the range of `int`, and the position of
the end of the input plus the largest 15-bit length stays below `2^63`. Every
state of a run on an input shorter than `2^59` bytes is such a state. -/
def NoOverflow (r : bitReader) : Prop :=
  -2 ^ 63 ≤ r.offset ∧ r.offset + ((unread r).length : Int) + 2 ^ 15 < 2 ^ 63

/-- A reader whose field `offset` is `math.MaxInt`: the state after `2^63 - 1`
bits, with the last bit of the buffered byte `01` unread. -/
def atMaxInt : bitReader := ⟨[], 0x01, 1, MaxInt⟩

/-! ## Go integer arithmetic -/

theorem wrap64_of_range (x : Int) (h0 : -2 ^ 63 ≤ x) (h1 : x < 2 ^ 63) : wrap64 x = x := by
  unfold wrap64; omega

theorem lor_zero_right (x : Int) : Int.lor x 0 = x := by
  cases x with
  | ofNat m => show ((m ||| 0 : Nat) : Int) = m; simp
  | negSucc m => show Int.negSucc (Nat.ldiff m 0) = Int.negSucc m; simp [Nat.ldiff]

/-- Or-ing a value below `2^k` into a multiple of `2^k` adds it. -/
theorem lor_of_dvd (k : Nat) : ∀ (x d : Int), x % 2 ^ k = 0 → 0 ≤ d → d < 2 ^ k →
    Int.lor x d = x + d := by
  induction k with
  | zero =>
    intro x d _ h0 h1
    have : d = 0 := by simp at h1; omega
    subst this; simp [lor_zero_right]
  | succ k ih =>
    intro x d hx h0 h1
    have hp : (2:Int) ^ (k+1) = 2 * 2 ^ k := by ring
    have hx2 : x % 2 = 0 := by
      rw [hp] at hx
      have := Int.emod_emod_of_dvd x (Dvd.intro (2^k) rfl : (2:Int) ∣ 2 * 2 ^ k)
      omega
    have hxe : x = Int.bit false (x / 2) := by
      rw [Int.bit_val]; simp; omega
    have hde : d = Int.bit (decide (d % 2 = 1)) (d / 2) := by
      rw [Int.bit_val]
      by_cases h : d % 2 = 1 <;> simp [h] <;> omega
    have hx' : (x / 2) % 2 ^ k = 0 := by
      rw [hp] at hx
      obtain ⟨c, hc⟩ := Int.dvd_of_emod_eq_zero hx
      have : x / 2 = 2 ^ k * c := by rw [hc]; rw [mul_assoc]; simp
      rw [this]; simp
    have hd' : d / 2 < 2 ^ k := by omega
    have := ih (x / 2) (d / 2) hx' (by omega) hd'
    rw [hxe, hde, Int.lor_bit, this, Int.bit_val, Int.bit_val, Int.bit_val]
    by_cases h : d % 2 = 1 <;> simp [h] <;> omega

theorem pushBit_wrap64 (a : Int) (b : Bool) :
    pushBit (wrap64 a) b = wrap64 (2 * a + (b.toNat : Int)) := by
  have hs : shl (wrap64 a) 1 = wrap64 (2 * a) := by
    unfold shl wrap64; omega
  cases b with
  | false => simp [pushBit, hs]
  | true =>
    have he : wrap64 (2 * a) % 2 ^ 1 = 0 := by unfold wrap64; omega
    simp only [pushBit, if_true, hs]
    rw [lor_of_dvd 1 _ 1 he (by norm_num) (by norm_num)]
    simp only [Bool.toNat_true]
    unfold wrap64; omega

theorem foldl_pushBit_wrap64 (bits : List Bool) : ∀ a : Nat,
    bits.foldl pushBit (wrap64 a) = wrap64 ((bits.foldl (fun a b => 2 * a + b.toNat) a : Nat) : Int) := by
  induction bits with
  | nil => intro a; rw [List.foldl_nil, List.foldl_nil]
  | cons b bits ih =>
    intro a
    rw [List.foldl_cons, List.foldl_cons, pushBit_wrap64, ← ih (2 * a + b.toNat)]
    have e : (2 * (a:Int) + (b.toNat : Int)) = ((2 * a + b.toNat : Nat) : Int) := by
      rw [Nat.cast_add, Nat.cast_mul]; rfl
    rw [e]

theorem foldl_pushBit_zero (bits : List Bool) :
    bits.foldl pushBit 0 = wrap64 (ofBits bits) := by
  have h0 : wrap64 ((0 : Nat) : Int) = 0 := by decide
  have := foldl_pushBit_wrap64 bits 0
  rw [h0] at this
  exact this

theorem ofBits_lt (bits : List Bool) : ofBits bits < 2 ^ bits.length := by
  have key : ∀ (bits : List Bool) (a : Nat),
      bits.foldl (fun a b => 2 * a + b.toNat) a < (a + 1) * 2 ^ bits.length := by
    intro bits
    induction bits with
    | nil => intro a; simp
    | cons b bits ih =>
      intro a
      simp only [List.foldl_cons, List.length_cons]
      have h := ih (2 * a + b.toNat)
      have hb : b.toNat ≤ 1 := by cases b <;> simp
      calc _ < (2 * a + b.toNat + 1) * 2 ^ bits.length := h
        _ ≤ (2 * a + 2) * 2 ^ bits.length := Nat.mul_le_mul_right _ (by omega)
        _ = (a + 1) * 2 ^ (bits.length + 1) := by ring
  simpa [ofBits] using key bits 0

/-! ## The bit reader, bit by bit -/

theorem bufBit_succ (b : Byte) (n : Nat) : bufBit b (n + 1) = b.val.testBit n := by
  unfold bufBit
  rw [Nat.add_sub_cancel, Nat.one_shiftLeft]
  by_cases h : n < 8
  · have : 2 ^ n < 256 := by
      have : 2 ^ n < 2 ^ 8 := Nat.pow_lt_pow_right (by norm_num) h
      simpa using this
    rw [Nat.mod_eq_of_lt this, Nat.and_two_pow]
    cases b.val.testBit n <;> simp
  · have h8 : 8 ≤ n := by omega
    have : 2 ^ n % 256 = 0 := by
      have : 2 ^ 8 ∣ 2 ^ n := Nat.pow_dvd_pow 2 h8
      exact Nat.mod_eq_zero_of_dvd (by simpa using this)
    rw [this]
    have : b.val.testBit n = false := by
      apply Nat.testBit_eq_false_of_lt
      have : 2 ^ 8 ≤ 2 ^ n := Nat.pow_le_pow_right (by norm_num) h8
      have := b.isLt
      omega
    simp [this]

theorem length_lowBits (b : Byte) (n : Nat) : (lowBits b n).length = n := by
  induction n with
  | zero => rfl
  | succ n ih => simp [lowBits, ih]

theorem length_streamBits (bs : List Byte) : (streamBits bs).length = 8 * bs.length := by
  induction bs with
  | nil => rfl
  | cons b bs ih => simp [streamBits, length_lowBits, ih]; omega

theorem length_unread (r : bitReader) : (unread r).length = r.balance + 8 * r.src.length := by
  simp [unread, length_lowBits, length_streamBits]

/-- With no unread bit left, the loop of `readBits` returns `io.EOF`. -/
theorem readBitsLoop_nil (n : Nat) (ret : Int) (r : bitReader) (h : unread r = []) :
    readBitsLoop (n + 1) ret r = (.ret 0 (some .eof), r) := by
  have hl := length_unread r
  rw [h] at hl
  simp only [List.length_nil] at hl
  have hb : r.balance = 0 := by omega
  have hs : r.src = [] := by
    cases hsrc : r.src with
    | nil => rfl
    | cons b rest => rw [hsrc] at hl; simp at hl; omega
  simp [readBitsLoop, hb, hs]

/-- With an unread bit, one turn of the loop of `readBits` takes exactly it. -/
theorem readBitsLoop_cons (n : Nat) (ret : Int) (r : bitReader) (b : Bool) (rest : List Bool)
    (h : unread r = b :: rest) :
    ∃ r1, readBitsLoop (n + 1) ret r = readBitsLoop n (pushBit ret b) r1 ∧
      unread r1 = rest ∧ r1.offset = r.offset + 1 := by
  by_cases hb : r.balance = 0
  · cases hsrc : r.src with
    | nil => simp [unread, hb, hsrc, lowBits, streamBits] at h
    | cons byte bs =>
      refine ⟨⟨bs, byte, 7, r.offset + 1⟩, ?_, ?_, rfl⟩
      · simp only [unread, hb, hsrc, lowBits, streamBits, List.nil_append, List.cons_append,
          List.cons.injEq] at h
        simp only [readBitsLoop, hb, hsrc, if_true, readBitsStep, pushBit, bufBit_succ byte 7, h.1]
      · simp only [unread, hb, hsrc, lowBits, streamBits, List.nil_append, List.cons_append,
          List.cons.injEq] at h
        simp only [unread, lowBits, List.cons_append, List.nil_append]
        exact h.2
  · obtain ⟨k, hk⟩ : ∃ k, r.balance = k + 1 := ⟨r.balance - 1, by omega⟩
    refine ⟨⟨r.src, r.buf, k, r.offset + 1⟩, ?_, ?_, rfl⟩
    · simp only [unread, hk, lowBits, List.cons_append, List.cons.injEq] at h
      simp only [readBitsLoop, hk, readBitsStep, pushBit, bufBit_succ, h.1]
      simp
    · simp only [unread, hk, lowBits, List.cons_append, List.cons.injEq] at h
      simp only [unread]
      exact h.2

/-- Reading `n` bits when at least `n` are unread: the loop of `readBits` folds
exactly the next `n` bits into the accumulator. -/
theorem readBitsLoop_ok : ∀ (n : Nat) (ret : Int) (r : bitReader), n ≤ (unread r).length →
    ∃ r1, readBitsLoop n ret r = (.ret (((unread r).take n).foldl pushBit ret) none, r1) ∧
      unread r1 = (unread r).drop n ∧ r1.offset = r.offset + n := by
  intro n
  induction n with
  | zero =>
    intro ret r _
    refine ⟨r, ?_, ?_, ?_⟩
    · rw [List.take_zero, List.foldl_nil]; rfl
    · rw [List.drop_zero]
    · simp
  | succ n ih =>
    intro ret r h
    cases hu : unread r with
    | nil => rw [hu] at h; simp at h
    | cons b rest =>
      obtain ⟨r1, h1, h2, h3⟩ := readBitsLoop_cons n ret r b rest hu
      have hn : n ≤ (unread r1).length := by
        rw [h2]; rw [hu] at h; simp at h; exact h
      obtain ⟨r2, g1, g2, g3⟩ := ih (pushBit ret b) r1 hn
      refine ⟨r2, ?_, ?_, ?_⟩
      · rw [h1, g1, h2, List.take_succ_cons, List.foldl_cons]
      · rw [g2, h2, List.drop_succ_cons]
      · rw [g3, h3]; push_cast; ring

/-- Reading more bits than are unread: `readBits` returns `(0, io.EOF)`, having
used up the source. -/
theorem readBitsLoop_eof : ∀ (n : Nat) (ret : Int) (r : bitReader), (unread r).length < n →
    ∃ r1, readBitsLoop n ret r = (.ret 0 (some .eof), r1) ∧
      unread r1 = [] ∧ r1.offset = r.offset + (unread r).length := by
  intro n
  induction n with
  | zero => intro ret r h; simp at h
  | succ n ih =>
    intro ret r h
    cases hu : unread r with
    | nil =>
      refine ⟨r, readBitsLoop_nil n ret r hu, hu, ?_⟩
      simp
    | cons b rest =>
      obtain ⟨r1, h1, h2, h3⟩ := readBitsLoop_cons n ret r b rest hu
      have hn : (unread r1).length < n := by
        rw [h2]; rw [hu] at h; simp at h; exact h
      obtain ⟨r2, g1, g2, g3⟩ := ih (pushBit ret b) r1 hn
      refine ⟨r2, ?_, g2, ?_⟩
      · rw [h1, g1]
      · rw [g3, h3, h2]; simp; ring

theorem readBits_ok (n : Nat) (r : bitReader) (h : n ≤ (unread r).length) :
    ∃ r1, readBits n r = (.ret (wrap64 (ofBits ((unread r).take n))) none, r1) ∧
      unread r1 = (unread r).drop n ∧ r1.offset = r.offset + n := by
  obtain ⟨r1, h1, h2, h3⟩ := readBitsLoop_ok n 0 r h
  refine ⟨r1, ?_, h2, h3⟩
  rw [← foldl_pushBit_zero]
  exact h1

theorem readBits_eof (n : Nat) (r : bitReader) (h : (unread r).length < n) :
    ∃ r1, readBits n r = (.ret 0 (some .eof), r1) ∧
      unread r1 = [] ∧ r1.offset = r.offset + (unread r).length :=
  readBitsLoop_eof n 0 r h

/-- A successful `readBits n` had `n` unread bits to take. -/
theorem readBits_success (n : Nat) (r r1 : bitReader) (v : Int)
    (h : readBits n r = (.ret v none, r1)) :
    n ≤ (unread r).length ∧ v = wrap64 (ofBits ((unread r).take n)) ∧
      unread r1 = (unread r).drop n ∧ r1.offset = r.offset + n := by
  by_cases hn : n ≤ (unread r).length
  · obtain ⟨r2, h1, h2, h3⟩ := readBits_ok n r hn
    rw [h] at h1
    injection h1 with e1 e2
    injection e1 with e3 _
    subst e2
    exact ⟨hn, e3, h2, h3⟩
  · obtain ⟨r2, h1, _, _⟩ := readBits_eof n r (by omega)
    rw [h] at h1
    injection h1 with e1 _
    injection e1 with _ e4
    exact absurd e4 (by simp)

/-- The value of at most 63 bits is a non-negative Go `int`: no wrap-around. -/
theorem wrap64_ofBits (bits : List Bool) (h : bits.length ≤ 63) :
    wrap64 (ofBits bits) = ofBits bits := by
  have h1 := ofBits_lt bits
  have h2 : 2 ^ bits.length ≤ 2 ^ 63 := Nat.pow_le_pow_right (by norm_num) h
  have h3 : (ofBits bits : Int) < 2 ^ 63 := by
    have : ofBits bits < 2 ^ 63 := by omega
    exact_mod_cast this
  exact wrap64_of_range _ (by omega) h3

/-- In a state reached from the fresh reader over `bs`, the unread bits are
the bits of `bs` from position `offset` on. -/
theorem Reached.unread_eq {bs : List Byte} {r : bitReader} (h : Reached bs r) :
    0 ≤ r.offset ∧ unread r = (streamBits bs).drop r.offset.toNat := by
  induction h with
  | start => exact ⟨le_refl _, by simp [fresh, unread, lowBits]⟩
  | read n v r r1 _ hr ih =>
    obtain ⟨_, _, h2, h3⟩ := readBits_success n r r1 v hr
    refine ⟨by omega, ?_⟩
    rw [h2, ih.2, List.drop_drop, h3]
    congr 1
    omega

/-- The two ways a call of `readBits` can go. -/
theorem readBits_cases (n : Nat) (r : bitReader) :
    (∃ r1, readBits n r = (.ret (wrap64 (ofBits ((unread r).take n))) none, r1) ∧
      n ≤ (unread r).length ∧ unread r1 = (unread r).drop n ∧ r1.offset = r.offset + n) ∨
    (∃ r1, readBits n r = (.ret 0 (some .eof), r1) ∧
      (unread r).length < n ∧ unread r1 = [] ∧ r1.offset = r.offset + (unread r).length) := by
  by_cases hn : n ≤ (unread r).length
  · obtain ⟨r1, h1, h2, h3⟩ := readBits_ok n r hn
    exact Or.inl ⟨r1, h1, hn, h2, h3⟩
  · obtain ⟨r1, h1, h2, h3⟩ := readBits_eof n r (by omega)
    exact Or.inr ⟨r1, h1, by omega, h2, h3⟩

/-- No call of `readBits` moves the bit position back. -/
theorem readBits_offset_le (n : Nat) (r : bitReader) : r.offset ≤ (readBits n r).2.offset := by
  rcases readBits_cases n r with ⟨r1, h, _, _, ho⟩ | ⟨r1, h, _, _, ho⟩
  · rw [h]; show r.offset ≤ r1.offset; omega
  · rw [h]; show r.offset ≤ r1.offset; omega

theorem readLiteralLoop_offset : ∀ (fuel : Nat) (val : Int) (r r1 : bitReader) (o : Outcome),
    readLiteralLoop fuel val r = some (o, r1) →
      r.offset ≤ r1.offset ∧ (∀ v, o = .ret v none → r.offset + 5 ≤ r1.offset) := by
  intro fuel
  induction fuel with
  | zero => intro val r r1 o h; simp [readLiteralLoop] at h
  | succ fuel ih =>
    intro val r r1 o h
    rw [readLiteralLoop] at h
    rcases readBits_cases 5 r with ⟨r2, hb, _, _, ho⟩ | ⟨r2, hb, _, _, ho⟩
    · rw [hb] at h
      simp only [] at h
      split at h
      · have := ih _ _ _ _ h
        constructor
        · omega
        · intro v hv; have := this.2 v hv; omega
      · injection h with h
        injection h with h1 h2
        subst h2
        constructor
        · omega
        · intro v _; omega
    · rw [hb] at h
      simp only [] at h
      injection h with h
      injection h with h1 h2
      subst h2; subst h1
      constructor
      · omega
      · intro v hv; injection hv with _ hv; exact absurd hv (by simp)

theorem readLiteral_offset (fuel : Nat) (r r1 : bitReader) (o : Outcome)
    (h : readLiteral fuel r = some (o, r1)) :
    r.offset ≤ r1.offset ∧ (∀ v, o = .ret v none → r.offset + 5 ≤ r1.offset) :=
  readLiteralLoop_offset fuel 0 r r1 o h

theorem countLoop_offset (rp : bitReader → Option (Outcome × bitReader))
    (hrp : ∀ r o r1, rp r = some (o, r1) → r.offset ≤ r1.offset) :
    ∀ (n : Nat) (r : bitReader) (acc : List Int) (e : LoopEnd),
      countLoop rp n r acc = some e → r.offset ≤ e.reader.offset := by
  intro n
  induction n with
  | zero =>
    intro r acc e h
    simp only [countLoop, Option.some.injEq] at h
    subst h; exact le_refl _
  | succ n ih =>
    intro r acc e h
    rw [countLoop] at h
    split at h
    · exact absurd h (by simp)
    · next subval r1 hr =>
      have h1 := hrp _ _ _ hr
      have h2 := ih _ _ _ h
      omega
    · next _ err r1 hr =>
      have h1 := hrp _ _ _ hr
      simp only [Option.some.injEq] at h
      subst h; exact h1
    · next r1 hr =>
      have h1 := hrp _ _ _ hr
      simp only [Option.some.injEq] at h
      subst h; exact h1

theorem lengthLoop_offset (rp : bitReader → Option (Outcome × bitReader))
    (hrp : ∀ r o r1, rp r = some (o, r1) → r.offset ≤ r1.offset) :
    ∀ (fuel : Nat) (limit : Int) (r : bitReader) (acc : List Int) (e : LoopEnd),
      lengthLoop rp fuel limit r acc = some e → r.offset ≤ e.reader.offset := by
  intro fuel
  induction fuel with
  | zero =>
    intro limit r acc e h
    rw [lengthLoop] at h
    split at h
    · exact absurd h (by simp)
    · simp only [Option.some.injEq] at h
      subst h; exact le_refl _
  | succ fuel ih =>
    intro limit r acc e h
    rw [lengthLoop] at h
    split at h
    · split at h
      · exact absurd h (by simp)
      · next subval r1 hr =>
        have h1 := hrp _ _ _ hr
        have h2 := ih _ _ _ _ h
        omega
      · next _ err r1 hr =>
        have h1 := hrp _ _ _ hr
        simp only [Option.some.injEq] at h
        subst h; exact h1
      · next r1 hr =>
        have h1 := hrp _ _ _ hr
        simp only [Option.some.injEq] at h
        subst h; exact h1
    · simp only [Option.some.injEq] at h
      subst h; exact le_refl _

theorem finish_offset (packetType : Int) (r0 : bitReader) (l : Option LoopEnd)
    (hl : ∀ e, l = some e → r0.offset ≤ e.reader.offset) (o : Outcome) (r1 : bitReader)
    (h : finish packetType l = some (o, r1)) : r0.offset ≤ r1.offset := by
  cases l with
  | none => simp [finish] at h
  | some e =>
    have := hl e rfl
    cases e with
    | done sv r =>
      simp only [finish, Option.some.injEq, Prod.mk.injEq] at h
      rw [← h.2]; exact this
    | leave o2 r =>
      simp only [finish, Option.some.injEq, Prod.mk.injEq] at h
      rw [← h.2]; exact this

/-- A single bit read by `readBits 1` is `0` or `1`. -/
theorem wrap64_ofBits_take_one (l : List Bool) (h : 1 ≤ l.length) :
    wrap64 (ofBits (l.take 1)) = 0 ∨ wrap64 (ofBits (l.take 1)) = 1 := by
  cases l with
  | nil => simp at h
  | cons b t =>
    rw [List.take_succ_cons, List.take_zero]
    cases b
    · left; decide
    · right; decide

/-- The bit position never moves back in `readPacket`, and a successful call
moves it forward by at least 11 bits. -/
theorem readPacket_offset : ∀ (fuel : Nat) (r r1 : bitReader) (o : Outcome),
    readPacket fuel r = some (o, r1) →
      r.offset ≤ r1.offset ∧ (∀ v, o = .ret v none → r.offset + 11 ≤ r1.offset) := by
  intro fuel
  induction fuel with
  | zero => intro r r1 o h; simp [readPacket] at h
  | succ fuel ih =>
    intro r r1 o h
    rw [readPacket] at h
    rcases readBits_cases 3 r with ⟨ra, ha, _, _, hoa⟩ | ⟨ra, ha, _, _, hoa⟩
    swap
    · rw [ha] at h
      simp only [Option.some.injEq, Prod.mk.injEq] at h
      obtain ⟨h1, h2⟩ := h
      subst h1; subst h2
      exact ⟨by omega, fun v hv => by simp at hv⟩
    rw [ha] at h
    simp only [] at h
    rcases readBits_cases 3 ra with ⟨rb, hb, _, _, hob⟩ | ⟨rb, hb, _, _, hob⟩
    swap
    · rw [hb] at h
      simp only [Option.some.injEq, Prod.mk.injEq] at h
      obtain ⟨h1, h2⟩ := h
      subst h1; subst h2
      exact ⟨by omega, fun v hv => by simp at hv⟩
    rw [hb] at h
    simp only [] at h
    split at h
    · -- literal
      split at h
      · exact absurd h (by simp)
      · next r3 hl =>
        have := (readLiteral_offset _ _ _ _ hl).1
        simp only [Option.some.injEq, Prod.mk.injEq] at h
        obtain ⟨h1, h2⟩ := h
        subst h1; subst h2
        exact ⟨by omega, fun v hv => by simp at hv⟩
      · next _ err r3 hl =>
        have := (readLiteral_offset _ _ _ _ hl).1
        simp only [Option.some.injEq, Prod.mk.injEq] at h
        obtain ⟨h1, h2⟩ := h
        subst h1; subst h2
        exact ⟨by omega, fun v hv => by simp at hv⟩
      · next lit r3 hl =>
        have := (readLiteral_offset _ _ _ _ hl).2 lit rfl
        simp only [Option.some.injEq, Prod.mk.injEq] at h
        obtain ⟨h1, h2⟩ := h
        subst h1; subst h2
        exact ⟨by omega, fun v _ => by omega⟩
    · -- operator
      rcases readBits_cases 1 rb with ⟨rc, hc, hc1, _, hoc⟩ | ⟨rc, hc, _, _, hoc⟩
      swap
      · rw [hc] at h
        simp only [Option.some.injEq, Prod.mk.injEq] at h
        obtain ⟨h1, h2⟩ := h
        subst h1; subst h2
        exact ⟨by omega, fun v hv => by simp at hv⟩
      rw [hc] at h
      simp only [] at h
      have hrp : ∀ r o r1, readPacket fuel r = some (o, r1) → r.offset ≤ r1.offset :=
        fun r o r1 hh => (ih r r1 o hh).1
      split at h
      · rcases readBits_cases 11 rc with ⟨rd, hd, _, _, hod⟩ | ⟨rd, hd, _, _, hod⟩
        swap
        · rw [hd] at h
          simp only [Option.some.injEq, Prod.mk.injEq] at h
          obtain ⟨h1, h2⟩ := h
          subst h1; subst h2
          exact ⟨by omega, fun v hv => by simp at hv⟩
        rw [hd] at h
        simp only [] at h
        have := finish_offset _ rd _ (countLoop_offset _ hrp _ _ _) _ _ h
        exact ⟨by omega, fun v _ => by omega⟩
      · split at h
        · rcases readBits_cases 15 rc with ⟨rd, hd, _, _, hod⟩ | ⟨rd, hd, _, _, hod⟩
          swap
          · rw [hd] at h
            simp only [Option.some.injEq, Prod.mk.injEq] at h
            obtain ⟨h1, h2⟩ := h
            subst h1; subst h2
            exact ⟨by omega, fun v hv => by simp at hv⟩
          rw [hd] at h
          simp only [] at h
          have := finish_offset _ rd _ (lengthLoop_offset _ hrp _ _ _ _) _ _ h
          exact ⟨by omega, fun v _ => by omega⟩
        · next n1 n0 =>
          rcases wrap64_ofBits_take_one _ hc1 with h0 | h1
          · exact absurd h0 n0
          · exact absurd h1 n1

/-! ## Claims about `readBits` -/

set_option maxRecDepth 100000 in
/-- C1 (as stated, refuted): on eight bytes `FF`, `readBits(64)` from the fresh
reader returns the Go `int` `-1`, not the unsigned value `2^64 - 1` of the 64
bits read. -/
theorem readBits_value_counterexample :
    Reached allOnes (fresh allOnes) ∧ 64 ≤ (unread (fresh allOnes)).length ∧
      (readBits 64 (fresh allOnes)).1 = .ret (-1) none ∧
      (ofBits (nextBits allOnes (fresh allOnes) 64) : Int) = 2 ^ 64 - 1 ∧
      (readBits 64 (fresh allOnes)).1 ≠
        .ret (ofBits (nextBits allOnes (fresh allOnes) 64) : Int) none := by
  have hv : wrap64 (ofBits ((unread (fresh allOnes)).take 64)) = -1 := by decide
  have hu : (ofBits (nextBits allOnes (fresh allOnes) 64) : Int) = 2 ^ 64 - 1 := by decide
  obtain ⟨r1, h, _, _⟩ := readBits_ok 64 (fresh allOnes) (by decide)
  rw [hv] at h
  refine ⟨Reached.start, by decide, ?_, hu, ?_⟩
  · rw [h]
  · rw [h, hu]
    show Outcome.ret (-1) none ≠ Outcome.ret (2 ^ 64 - 1) none
    decide

/-- C1 (amended): in every reader state reached from a fresh reader by
successful reads, for `1 ≤ n ≤ 64` with at least `n` unread bits, `readBits(n)`
succeeds and returns the two's-complement reading `wrap64 u` of the unsigned
integer `u < 2^n` whose big-endian expansion is the next `n` bits of the
stream (bytes in order, most-significant bit first); this is `u` itself for
`n ≤ 63`, and for `n = 64` it is `u` when the first bit is 0 and `u - 2^64`
when it is 1. -/
theorem readBits_value (bs : List Byte) (r : bitReader) (n : Nat) (hr : Reached bs r)
    (h1 : 1 ≤ n) (h64 : n ≤ 64) (hn : n ≤ (unread r).length) :
    ∃ r1, readBits n r = (.ret (wrap64 (ofBits (nextBits bs r n))) none, r1) ∧
      ofBits (nextBits bs r n) < 2 ^ n ∧
      (n ≤ 63 → wrap64 (ofBits (nextBits bs r n)) = ofBits (nextBits bs r n)) ∧
      (n = 64 → wrap64 (ofBits (nextBits bs r n)) =
        if ofBits (nextBits bs r n) < 2 ^ 63 then (ofBits (nextBits bs r n) : Int)
        else (ofBits (nextBits bs r n) : Int) - 2 ^ 64) := by
  have hu : nextBits bs r n = (unread r).take n := by
    unfold nextBits; rw [hr.unread_eq.2]
  have hlen : (nextBits bs r n).length = n := by
    rw [hu, List.length_take]; omega
  have hlt : ofBits (nextBits bs r n) < 2 ^ n := by
    have := ofBits_lt (nextBits bs r n)
    rw [hlen] at this; exact this
  obtain ⟨r1, g1, _, _⟩ := readBits_ok n r hn
  refine ⟨r1, ?_, hlt, ?_, ?_⟩
  · rw [hu]; exact g1
  · intro h63
    exact wrap64_ofBits _ (by omega)
  · intro h
    subst h
    have hlt2 : (ofBits (nextBits bs r 64) : Int) < 2 ^ 64 := by exact_mod_cast hlt
    split
    · next hs =>
      have : (ofBits (nextBits bs r 64) : Int) < 2 ^ 63 := by exact_mod_cast hs
      unfold wrap64; omega
    · next hs =>
      have : (2 : Int) ^ 63 ≤ (ofBits (nextBits bs r 64) : Int) := by
        have : 2 ^ 63 ≤ ofBits (nextBits bs r 64) := by omega
        exact_mod_cast this
      unfold wrap64; omega

/-- C1, at a concrete input: the first six bits of `D2 FE 28`. -/
theorem readBits_value_witness :
    Reached hexD2FE28 (fresh hexD2FE28) ∧ 1 ≤ 6 ∧ 6 ≤ 64 ∧ 6 ≤ (unread (fresh hexD2FE28)).length ∧
    ∃ r1, readBits 6 (fresh hexD2FE28) =
        (.ret (wrap64 (ofBits (nextBits hexD2FE28 (fresh hexD2FE28) 6))) none, r1) ∧
      ofBits (nextBits hexD2FE28 (fresh hexD2FE28) 6) < 2 ^ 6 ∧
      (6 ≤ 63 → wrap64 (ofBits (nextBits hexD2FE28 (fresh hexD2FE28) 6)) =
        ofBits (nextBits hexD2FE28 (fresh hexD2FE28) 6)) ∧
      (6 = 64 → wrap64 (ofBits (nextBits hexD2FE28 (fresh hexD2FE28) 6)) =
        if ofBits (nextBits hexD2FE28 (fresh hexD2FE28) 6) < 2 ^ 63
        then (ofBits (nextBits hexD2FE28 (fresh hexD2FE28) 6) : Int)
        else (ofBits (nextBits hexD2FE28 (fresh hexD2FE28) 6) : Int) - 2 ^ 64) :=
  ⟨Reached.start, by decide, by decide, by decide,
    readBits_value hexD2FE28 (fresh hexD2FE28) 6 Reached.start (by decide) (by decide) (by decide)⟩

/-- C3: `readBits(n)` on a reader with balance `b` and `m` bytes left in the
source fails exactly when `n > b + 8*m`; a failing call returns the integer 0
and the error `io.EOF`. -/
theorem readBits_failure (r : bitReader) (n : Nat) :
    ((∃ v e, (readBits n r).1 = .ret v (some e)) ↔ r.balance + 8 * r.src.length < n) ∧
    (∀ v e, (readBits n r).1 = .ret v (some e) → v = 0 ∧ e = .eof) := by
  have hl := length_unread r
  rcases readBits_cases n r with ⟨r1, h, hn, _, _⟩ | ⟨r1, h, hn, _, _⟩
  · rw [h]
    refine ⟨⟨?_, ?_⟩, ?_⟩
    · rintro ⟨v, e, hv⟩
      injection hv with _ hv
      exact absurd hv (by simp)
    · intro hlt; omega
    · intro v e hv
      injection hv with _ hv
      exact absurd hv (by simp)
  · rw [h]
    refine ⟨⟨?_, ?_⟩, ?_⟩
    · intro _; omega
    · intro _; exact ⟨0, .eof, rfl⟩
    · intro v e hv
      injection hv with hv1 hv2
      injection hv2 with hv2
      exact ⟨hv1.symm, hv2.symm⟩

/-! ## Literals -/

theorem group_value : ∀ (c : Bool) (d : Fin 16),
    ofBits (c :: nibbleBits d.val) = 16 * c.toNat + d.val := by decide

theorem group_land : ∀ (c : Bool) (d : Fin 16),
    (Int.land ((16 * c.toNat + d.val : Nat) : Int) 0b10000 != 0) = c ∧
    Int.land ((16 * c.toNat + d.val : Nat) : Int) 0b01111 = (d.val : Int) := by decide

/-- Reading one 5-bit group. -/
theorem readBits_group (r : bitReader) (c : Bool) (d : Nat) (hd : d < 16) (tail : List Bool)
    (h : unread r = c :: nibbleBits d ++ tail) :
    ∃ r1, readBits 5 r = (.ret ((16 * c.toNat + d : Nat) : Int) none, r1) ∧
      unread r1 = tail ∧ r1.offset = r.offset + 5 := by
  have hlen : 5 ≤ (unread r).length := by rw [h]; simp [nibbleBits]
  obtain ⟨r1, h1, h2, h3⟩ := readBits_ok 5 r hlen
  have ht : (unread r).take 5 = c :: nibbleBits d := by rw [h]; simp [nibbleBits]
  have hdr : (unread r).drop 5 = tail := by rw [h]; simp [nibbleBits]
  rw [ht, wrap64_ofBits _ (by simp [nibbleBits]), group_value c ⟨d, hd⟩] at h1
  exact ⟨r1, h1, by rw [h2, hdr], by rw [h3]; rfl⟩

/-- The accumulator step of `readLiteral` when nothing overflows. -/
theorem literal_step (V d : Nat) (c : Bool) (hd : d < 16) (hV : V * 16 + d < 2 ^ 63) :
    Int.lor (shl (V : Int) 4) (Int.land ((16 * c.toNat + d : Nat) : Int) 0b01111) =
      ((V * 16 + d : Nat) : Int) := by
  rw [(group_land c ⟨d, hd⟩).2]
  have hVi : ((V : Int) * 16 + (d : Int)) < 2 ^ 63 := by exact_mod_cast hV
  have hs : shl (V : Int) 4 = (V : Int) * 16 := by
    have e : (V : Int) * 2 ^ 4 = (V : Int) * 16 := by norm_num
    have h0 : -2 ^ 63 ≤ (V : Int) * 16 := by omega
    have h1 : (V : Int) * 16 < 2 ^ 63 := by omega
    unfold shl
    rw [e]
    exact wrap64_of_range _ h0 h1
  rw [hs, lor_of_dvd 4 _ _ (by omega) (by omega) (by omega)]
  push_cast; ring

theorem digit_split (V x k : Nat) :
    (V * 16 + x / 16 ^ k % 16) * 16 ^ k + x % 16 ^ k = V * 16 ^ (k + 1) + x % 16 ^ (k + 1) := by
  rw [Nat.mod_pow_succ]; ring

/-- The loop of `readLiteral` on an encoded literal. -/
theorem readLiteralLoop_enc : ∀ (k fuel V x : Nat) (r : bitReader) (rest : List Bool),
    k < fuel → V * 16 ^ (k + 1) + x % 16 ^ (k + 1) < 2 ^ 63 →
    unread r = encLiteral (k + 1) x ++ rest →
    ∃ r1, readLiteralLoop fuel (V : Int) r =
        some (.ret ((V * 16 ^ (k + 1) + x % 16 ^ (k + 1) : Nat) : Int) none, r1) ∧
      unread r1 = rest ∧ r1.offset = r.offset + 5 * ((k : Int) + 1) := by
  intro k
  induction k with
  | zero =>
    intro fuel V x r rest hf hb hu
    obtain ⟨f, rfl⟩ : ∃ f, fuel = f + 1 := ⟨fuel - 1, by omega⟩
    have hd : x / 16 ^ 0 % 16 < 16 := Nat.mod_lt _ (by norm_num)
    simp only [encLiteral, List.append_nil, List.cons_append] at hu
    obtain ⟨r1, h1, h2, h3⟩ := readBits_group r false _ hd rest (by rw [hu]; simp)
    refine ⟨r1, ?_, h2, by rw [h3]; simp⟩
    have hsp := digit_split V x 0
    simp only [pow_zero, Nat.mod_one, mul_one, add_zero] at hsp
    rw [readLiteralLoop, h1]
    simp only []
    rw [(group_land _ ⟨_, hd⟩).1, literal_step V _ _ hd (by simp only [pow_zero] at *; omega)]
    simp only [Bool.false_eq_true, if_false, pow_zero]
    rw [hsp]
  | succ k ih =>
    intro fuel V x r rest hf hb hu
    obtain ⟨f, rfl⟩ : ∃ f, fuel = f + 1 := ⟨fuel - 1, by omega⟩
    have hd : x / 16 ^ (k + 1) % 16 < 16 := Nat.mod_lt _ (by norm_num)
    rw [encLiteral] at hu
    simp only [List.cons_append, List.append_assoc] at hu
    obtain ⟨r1, h1, h2, h3⟩ := readBits_group r true _ hd (encLiteral (k + 1) x ++ rest)
      (by rw [hu]; simp)
    have hsp := digit_split V x (k + 1)
    have hpos : 1 ≤ 16 ^ (k + 1) := Nat.one_le_pow _ _ (by norm_num)
    have hV : V * 16 + x / 16 ^ (k + 1) % 16 < 2 ^ 63 := by
      have := Nat.le_mul_of_pos_right (V * 16 + x / 16 ^ (k + 1) % 16) hpos
      omega
    obtain ⟨r2, g1, g2, g3⟩ := ih f (V * 16 + x / 16 ^ (k + 1) % 16) x r1 rest (by omega)
      (by rw [hsp]; exact hb) h2
    refine ⟨r2, ?_, g2, by rw [g3, h3]; push_cast; ring⟩
    rw [readLiteralLoop, h1]
    simp only []
    rw [(group_land _ ⟨_, hd⟩).1, literal_step V _ _ hd hV]
    simp only [if_true]
    rw [g1, hsp]

/-- C4: literal round trip. For `k ≥ 1` and `x < 2^(4k)`, `x < 2^63`, on a
stream whose next bits, at any bit offset, are the `k` groups encoding `x`,
`readLiteral` (with fuel for `k` groups) succeeds, returns `x` and consumes
exactly `5k` bits. -/
theorem readLiteral_roundtrip (k x fuel : Nat) (r : bitReader) (rest : List Bool)
    (hk : 1 ≤ k) (hx : x < 2 ^ (4 * k)) (h63 : x < 2 ^ 63) (hf : k ≤ fuel)
    (hu : unread r = encLiteral k x ++ rest) :
    ∃ r1, readLiteral fuel r = some (.ret (x : Int) none, r1) ∧
      unread r1 = rest ∧ r1.offset = r.offset + 5 * (k : Int) := by
  obtain ⟨j, rfl⟩ : ∃ j, k = j + 1 := ⟨k - 1, by omega⟩
  have hx16 : x < 16 ^ (j + 1) := by
    have : (16 : Nat) ^ (j + 1) = 2 ^ (4 * (j + 1)) := by
      rw [show (16 : Nat) = 2 ^ 4 by norm_num, ← pow_mul]
    rw [this]; exact hx
  have hm : 0 * 16 ^ (j + 1) + x % 16 ^ (j + 1) = x := by
    rw [Nat.mod_eq_of_lt hx16]; simp
  obtain ⟨r1, h1, h2, h3⟩ := readLiteralLoop_enc j fuel 0 x r rest (by omega)
    (by rw [hm]; exact h63) hu
  rw [hm] at h1
  refine ⟨r1, ?_, h2, by rw [h3]; push_cast; ring⟩
  unfold readLiteral
  exact h1

/-! ## More fuel changes nothing -/

theorem readLiteralLoop_mono : ∀ (fuel : Nat) (val : Int) (r : bitReader) (x : Outcome × bitReader),
    readLiteralLoop fuel val r = some x → readLiteralLoop (fuel + 1) val r = some x := by
  intro fuel
  induction fuel with
  | zero => intro val r x h; simp [readLiteralLoop] at h
  | succ fuel ih =>
    intro val r x h
    rw [readLiteralLoop] at h ⊢
    rcases readBits_cases 5 r with ⟨r2, hb, _, _, _⟩ | ⟨r2, hb, _, _, _⟩
    · rw [hb] at h ⊢
      simp only [] at h ⊢
      split
      · next hc => rw [if_pos hc] at h; exact ih _ _ _ h
      · next hc => rw [if_neg hc] at h; exact h
    · rw [hb] at h ⊢
      exact h

theorem countLoop_mono (rp rp2 : bitReader → Option (Outcome × bitReader))
    (hrp : ∀ r x, rp r = some x → rp2 r = some x) :
    ∀ (n : Nat) (r : bitReader) (acc : List Int) (e : LoopEnd),
      countLoop rp n r acc = some e → countLoop rp2 n r acc = some e := by
  intro n
  induction n with
  | zero => intro r acc e h; exact h
  | succ n ih =>
    intro r acc e h
    rw [countLoop] at h ⊢
    cases hq : rp r with
    | none => rw [hq] at h; exact absurd h (by simp)
    | some x =>
      rw [hq] at h
      rw [hrp r x hq]
      obtain ⟨o, r1⟩ := x
      cases o with
      | panic => exact h
      | ret v err =>
        cases err with
        | none => exact ih _ _ _ h
        | some e1 => exact h

theorem lengthLoop_mono (rp rp2 : bitReader → Option (Outcome × bitReader))
    (hrp : ∀ r x, rp r = some x → rp2 r = some x) :
    ∀ (fuel : Nat) (limit : Int) (r : bitReader) (acc : List Int) (e : LoopEnd),
      lengthLoop rp fuel limit r acc = some e →
        lengthLoop rp2 (fuel + 1) limit r acc = some e := by
  intro fuel
  induction fuel with
  | zero =>
    intro limit r acc e h
    simp only [lengthLoop] at h ⊢
    split at h
    · exact absurd h (by simp)
    · next hc => rw [if_neg hc]; exact h
  | succ fuel ih =>
    intro limit r acc e h
    rw [lengthLoop] at h ⊢
    by_cases hc : r.offset < limit
    · rw [if_pos hc] at h ⊢
      cases hq : rp r with
      | none => rw [hq] at h; exact absurd h (by simp)
      | some x =>
        rw [hq] at h
        rw [hrp r x hq]
        obtain ⟨o, r1⟩ := x
        cases o with
        | panic => exact h
        | ret v err =>
          cases err with
          | none => exact ih _ _ _ _ h
          | some e1 => exact h
    · rw [if_neg hc] at h ⊢
      exact h

/-- A result of `readPacket` does not change when more fuel is supplied. -/
theorem readPacket_mono : ∀ (fuel : Nat) (r : bitReader) (x : Outcome × bitReader),
    readPacket fuel r = some x → readPacket (fuel + 1) r = some x := by
  intro fuel
  induction fuel with
  | zero => intro r x h; simp [readPacket] at h
  | succ fuel ih =>
    intro r x h
    rw [readPacket] at h ⊢
    rcases readBits_cases 3 r with ⟨ra, ha, _, _, _⟩ | ⟨ra, ha, _, _, _⟩
    swap
    · rw [ha] at h ⊢; exact h
    rw [ha] at h ⊢
    simp only [] at h ⊢
    rcases readBits_cases 3 ra with ⟨rb, hb, _, _, _⟩ | ⟨rb, hb, _, _, _⟩
    swap
    · rw [hb] at h ⊢; exact h
    rw [hb] at h ⊢
    simp only [] at h ⊢
    split
    · next ht =>
      rw [if_pos ht] at h
      cases hq : readLiteral fuel rb with
      | none => rw [hq] at h; exact absurd h (by simp)
      | some y =>
        rw [hq] at h
        have := readLiteralLoop_mono fuel 0 rb y hq
        unfold readLiteral
        rw [this]
        exact h
    · next ht =>
      rw [if_neg ht] at h
      rcases readBits_cases 1 rb with ⟨rc, hc, _, _, _⟩ | ⟨rc, hc, _, _, _⟩
      swap
      · rw [hc] at h ⊢; exact h
      rw [hc] at h ⊢
      simp only [] at h ⊢
      split
      · next h1 =>
        rw [if_pos h1] at h
        rcases readBits_cases 11 rc with ⟨rd, hd, _, _, _⟩ | ⟨rd, hd, _, _, _⟩
        swap
        · rw [hd] at h ⊢; exact h
        rw [hd] at h ⊢
        simp only [] at h ⊢
        cases hq : countLoop (readPacket fuel) (wrap64 (ofBits ((unread rc).take 11))).toNat rd [] with
        | none => rw [hq] at h; simp [finish] at h
        | some e =>
          rw [hq] at h
          rw [countLoop_mono _ _ ih _ _ _ _ hq]
          exact h
      · next h1 =>
        rw [if_neg h1] at h
        split
        · next h0 =>
          rw [if_pos h0] at h
          rcases readBits_cases 15 rc with ⟨rd, hd, _, _, _⟩ | ⟨rd, hd, _, _, _⟩
          swap
          · rw [hd] at h ⊢; exact h
          rw [hd] at h ⊢
          simp only [] at h ⊢
          cases hq : lengthLoop (readPacket fuel) fuel
              (rd.offset + wrap64 (ofBits ((unread rc).take 15))) rd [] with
          | none => rw [hq] at h; simp [finish] at h
          | some e =>
            rw [hq] at h
            rw [lengthLoop_mono _ _ ih _ _ _ _ _ hq]
            exact h
        · next h0 =>
          rw [if_neg h0] at h
          exact h

theorem readPacket_mono_le (fuel fuel2 : Nat) (r : bitReader) (x : Outcome × bitReader)
    (hle : fuel ≤ fuel2) (h : readPacket fuel r = some x) : readPacket fuel2 r = some x := by
  induction hle with
  | refl => exact h
  | step _ ih => exact readPacket_mono _ _ _ ih

theorem readLiteral_mono_le (fuel fuel2 : Nat) (r : bitReader) (x : Outcome × bitReader)
    (hle : fuel ≤ fuel2) (h : readLiteral fuel r = some x) : readLiteral fuel2 r = some x := by
  induction hle with
  | refl => exact h
  | step _ ih => exact readLiteralLoop_mono _ _ _ _ ih

/-- C4, at a concrete input: the three groups of `2021` in `D2 FE 28`, read
from bit offset 6. -/
theorem readLiteral_roundtrip_witness :
    1 ≤ 3 ∧ 2021 < 2 ^ (4 * 3) ∧ 2021 < 2 ^ 63 ∧ 3 ≤ 3 ∧
    unread afterHeader = encLiteral 3 2021 ++ [false, false, false] ∧
    ∃ r1, readLiteral 3 afterHeader = some (.ret ((2021 : Nat) : Int) none, r1) ∧
      unread r1 = [false, false, false] ∧ r1.offset = afterHeader.offset + 5 * ((3 : Nat) : Int) :=
  ⟨by decide, by decide, by decide, by decide, by decide,
    readLiteral_roundtrip 3 2021 3 afterHeader [false, false, false]
      (by decide) (by decide) (by decide) (by decide) (by decide)⟩

/-! ## Packet headers -/

theorem foldl_natBits (w n : Nat) : ∀ a : Nat,
    (natBits w n).foldl (fun a b => 2 * a + b.toNat) a = a * 2 ^ w + n % 2 ^ w := by
  induction w with
  | zero => intro a; simp [natBits, Nat.mod_one]
  | succ w ih =>
    intro a
    rw [natBits, List.foldl_cons, ih, Nat.mod_pow_succ, Nat.testBit_to_div_mod]
    by_cases h : n / 2 ^ w % 2 = 1
    · simp [h]; ring
    · have h0 : n / 2 ^ w % 2 = 0 := by omega
      simp [h0]; ring

theorem ofBits_natBits (w n : Nat) : ofBits (natBits w n) = n % 2 ^ w := by
  unfold ofBits
  rw [foldl_natBits]; simp

theorem length_natBits (w n : Nat) : (natBits w n).length = w := by
  induction w with
  | zero => rfl
  | succ w ih => simp [natBits, ih]

/-- Reading a field of at most 63 bits that lies at the front of the stream. -/
theorem readBits_append (r : bitReader) (b tail : List Bool) (hb : b.length ≤ 63)
    (h : unread r = b ++ tail) :
    ∃ r1, readBits b.length r = (.ret (ofBits b : Int) none, r1) ∧
      unread r1 = tail ∧ r1.offset = r.offset + b.length := by
  have hlen : b.length ≤ (unread r).length := by rw [h]; simp
  obtain ⟨r1, h1, h2, h3⟩ := readBits_ok b.length r hlen
  have ht : (unread r).take b.length = b := by rw [h]; simp
  have hd : (unread r).drop b.length = tail := by rw [h]; simp
  rw [ht, wrap64_ofBits b hb] at h1
  exact ⟨r1, h1, by rw [h2, hd], h3⟩

/-- Reading the field `natBits w n` with `n < 2^w`. -/
theorem readBits_natBits (r : bitReader) (w n : Nat) (tail : List Bool) (hw : w ≤ 63)
    (hn : n < 2 ^ w) (h : unread r = natBits w n ++ tail) :
    ∃ r1, readBits w r = (.ret (n : Int) none, r1) ∧
      unread r1 = tail ∧ r1.offset = r.offset + w := by
  obtain ⟨r1, h1, h2, h3⟩ := readBits_append r (natBits w n) tail
    (by rw [length_natBits]; exact hw) h
  rw [length_natBits, ofBits_natBits, Nat.mod_eq_of_lt hn] at h1
  rw [length_natBits] at h3
  exact ⟨r1, h1, h2, h3⟩

/-- The six header bits of a packet: version and type code. -/
theorem readBits_header (r : bitReader) (ver tb tail : List Bool) (hver : ver.length = 3)
    (htb : tb.length = 3) (hu : unread r = ver ++ (tb ++ tail)) :
    ∃ ra rb, readBits 3 r = (.ret (ofBits ver : Int) none, ra) ∧
      readBits 3 ra = (.ret (ofBits tb : Int) none, rb) ∧
      unread rb = tail ∧ rb.offset = r.offset + 6 := by
  obtain ⟨ra, a1, a2, a3⟩ := readBits_append r ver (tb ++ tail) (by omega) hu
  obtain ⟨rb, b1, b2, b3⟩ := readBits_append ra tb tail (by omega) a2
  rw [hver] at a1 a3
  rw [htb] at b1 b3
  exact ⟨ra, rb, a1, b1, b2, by rw [b3, a3]; push_cast; ring⟩

/-! ## Claims about packets -/

set_option maxRecDepth 100000 in
/-- C5: on a stream whose next bits are a 3-bit version, the type code `100`
and then a literal on which `readLiteral` returns `x`, `readPacket` returns
`x` itself, whatever the version, and consumes the 6 header bits plus the bits
of the groups. On the bytes `D2 FE 28`, `readPacket` returns 2021. -/
theorem readPacket_literal :
    (∀ (fuel : Nat) (r : bitReader) (ver tail : List Bool), ver.length = 3 →
      unread r = ver ++ ([true, false, false] ++ tail) →
      ∃ r2, unread r2 = tail ∧ r2.offset = r.offset + 6 ∧
        ∀ (x : Int) (r3 : bitReader), readLiteral fuel r2 = some (.ret x none, r3) →
          readPacket (fuel + 1) r = some (.ret x none, r3) ∧
            r3.offset - r.offset = 6 + (r3.offset - r2.offset)) ∧
    (∀ fuel, 4 ≤ fuel →
      readPacket fuel (fresh hexD2FE28) = some (.ret 2021 none, ⟨[], 0x28, 3, 21⟩)) := by
  constructor
  · intro fuel r ver tail hver hu
    obtain ⟨ra, rb, ha, hb, hub, hob⟩ := readBits_header r ver [true, false, false] tail hver rfl hu
    refine ⟨rb, hub, hob, ?_⟩
    intro x r3 hl
    have h4 : ((ofBits [true, false, false] : Nat) : Int) = TypeLiteral := by decide
    rw [h4] at hb
    constructor
    · rw [readPacket, ha]
      simp only []
      rw [hb]
      simp only []
      rw [if_pos True.intro, hl]
    · rw [hob]; ring
  · intro fuel hf
    exact readPacket_mono_le 4 fuel _ _ hf (by decide)

set_option maxRecDepth 100000 in
/-- C6: the worked operator examples. `readPacket` on a fresh reader returns 3
on `C200B40A82`, 54 on `04005AC33890` and 1 on `9C0141080250320F1802104A08`,
each without error. -/
theorem readPacket_examples :
    (∀ fuel, 3 ≤ fuel →
      ∃ r1, readPacket fuel (fresh hexC200B40A82) = some (.ret 3 none, r1)) ∧
    (∀ fuel, 3 ≤ fuel →
      ∃ r1, readPacket fuel (fresh hex04005AC33890) = some (.ret 54 none, r1)) ∧
    (∀ fuel, 4 ≤ fuel →
      ∃ r1, readPacket fuel (fresh hex9C0141080250320F1802104A08) = some (.ret 1 none, r1)) := by
  refine ⟨?_, ?_, ?_⟩
  · intro fuel hf
    exact ⟨⟨[], 0x82, 0, 40⟩, readPacket_mono_le 3 fuel _ _ hf (by decide)⟩
  · intro fuel hf
    exact ⟨⟨[], 0x90, 4, 44⟩, readPacket_mono_le 3 fuel _ _ hf (by decide)⟩
  · intro fuel hf
    exact ⟨⟨[], 0x08, 2, 102⟩, readPacket_mono_le 4 fuel _ _ hf (by decide)⟩

/-- The operator lookup and application at the end of `readPacket`, for an
operator type code and, for a comparison, two operands. -/
theorem applyOp_ok (t : Nat) (vs : List Int) (ht : t < 8) (h4 : t ≠ 4)
    (har : 5 ≤ t → vs.length = 2) :
    ∃ op res, ops (t : Int) = some (some op) ∧ op vs = some res ∧
      applyOp (t : Int) vs = .ret res none := by
  have hcmp : 5 ≤ t → ∃ a b, vs = [a, b] := by
    intro h5
    have := har h5
    match vs, this with
    | [a, b], _ => exact ⟨a, b, rfl⟩
  interval_cases t
  · exact ⟨_, _, rfl, rfl, rfl⟩
  · exact ⟨_, _, rfl, rfl, rfl⟩
  · exact ⟨_, _, rfl, rfl, rfl⟩
  · exact ⟨_, _, rfl, rfl, rfl⟩
  · exact absurd rfl h4
  · obtain ⟨a, b, rfl⟩ := hcmp (by omega)
    exact ⟨_, _, rfl, rfl, rfl⟩
  · obtain ⟨a, b, rfl⟩ := hcmp (by omega)
    exact ⟨_, _, rfl, rfl, rfl⟩
  · obtain ⟨a, b, rfl⟩ := hcmp (by omega)
    exact ⟨_, _, rfl, rfl, rfl⟩

/-- The count loop over a sequence of sub-packets decodes each in turn. -/
theorem countLoop_decodes : ∀ (subs : List (List Bool × Int)),
    (∀ p ∈ subs, Decodes p.1 p.2) →
    ∀ (r : bitReader) (tail : List Bool) (acc : List Int),
      unread r = concatBits (subs.map Prod.fst) ++ tail →
      ∃ fuel0 r1, (∀ fuel, fuel0 ≤ fuel →
          countLoop (readPacket fuel) subs.length r acc =
            some (.done (acc ++ subs.map Prod.snd) r1)) ∧
        unread r1 = tail ∧
        r1.offset = r.offset + (concatBits (subs.map Prod.fst)).length := by
  intro subs
  induction subs with
  | nil =>
    intro _ r tail acc hu
    refine ⟨0, r, ?_, ?_, ?_⟩
    · intro fuel _
      simp [countLoop]
    · simpa [concatBits] using hu
    · simp [concatBits]
  | cons p subs ih =>
    intro hsub r tail acc hu
    have hp : Decodes p.1 p.2 := hsub p (List.mem_cons_self _ _)
    have hu2 : unread r = p.1 ++ (concatBits (subs.map Prod.fst) ++ tail) := by
      rw [hu]; simp [concatBits]
    obtain ⟨fa, ra, ha, hua, hoa⟩ := hp r _ hu2
    obtain ⟨fb, rb, hb, hub, hob⟩ := ih (fun q hq => hsub q (List.mem_cons_of_mem _ hq))
      ra tail (acc ++ [p.2]) hua
    refine ⟨max fa fb, rb, ?_, hub, ?_⟩
    · intro fuel hf
      have h1 := readPacket_mono_le fa fuel r _ (le_trans (le_max_left _ _) hf) ha
      have h2 := hb fuel (le_trans (le_max_right _ _) hf)
      rw [List.length_cons, countLoop, h1]
      simp only []
      rw [h2]
      simp
    · rw [hob, hoa]
      simp [concatBits]
      ring

/-- A packet in count mode: the header, the loop and the operator. -/
theorem readPacket_count_aux (t : Nat) (ver : List Bool) (subs : List (List Bool × Int))
    (ht : t < 8) (h4 : t ≠ 4) (hver : ver.length = 3) (hk : subs.length < 2 ^ 11)
    (hsub : ∀ p ∈ subs, Decodes p.1 p.2) (r : bitReader) (tail : List Bool)
    (hu : unread r = encCount ver t (subs.map Prod.fst) ++ tail) :
    ∃ fuel0 r4 r1,
      (∀ fuel, fuel0 ≤ fuel →
        countLoop (readPacket fuel) subs.length r4 [] =
          some (.done (subs.map Prod.snd) r1) ∧
        readPacket (fuel + 1) r = some (applyOp (t : Int) (subs.map Prod.snd), r1)) ∧
      r4.offset = r.offset + 18 ∧ unread r1 = tail ∧
      r1.offset = r.offset + 18 + (concatBits (subs.map Prod.fst)).length := by
  have hu1 : unread r = ver ++ (natBits 3 t ++ ([true] ++
      (natBits 11 subs.length ++ (concatBits (subs.map Prod.fst) ++ tail)))) := by
    rw [hu]; simp [encCount]
  obtain ⟨ra, rb, ha, hb, hub, hob⟩ := readBits_header r ver (natBits 3 t) _ hver
    (length_natBits 3 t) hu1
  rw [ofBits_natBits, Nat.mod_eq_of_lt (by omega : t < 2 ^ 3)] at hb
  obtain ⟨rc, hc, huc, hoc⟩ := readBits_append rb [true] _ (by decide) hub
  obtain ⟨rd, hd, hud, hod⟩ := readBits_natBits rc 11 subs.length _ (by decide) hk huc
  obtain ⟨f0, r1, hloop, hu1, ho1⟩ := countLoop_decodes subs hsub rd tail [] hud
  have hflag : ((ofBits [true] : Nat) : Int) = 1 := by decide
  have hlen1 : [true].length = 1 := rfl
  rw [hflag, hlen1] at hc
  rw [hlen1] at hoc
  have hnl : ¬ ((t : Nat) : Int) = TypeLiteral := by
    unfold TypeLiteral; omega
  refine ⟨f0, rd, r1, ?_, ?_, hu1, ?_⟩
  · intro fuel hf
    have hl := hloop fuel hf
    rw [List.nil_append] at hl
    refine ⟨hl, ?_⟩
    rw [readPacket, ha]
    simp only []
    rw [hb]
    simp only []
    rw [if_neg hnl, hc]
    simp only []
    rw [if_pos True.intro, hd]
    simp only [Int.toNat_ofNat]
    rw [hl, finish]
  · rw [hod, hoc, hob]; push_cast; ring
  · rw [ho1, hod, hoc, hob]; push_cast; ring

/-- A literal packet of `k` groups decodes to its value from any offset. -/
theorem decodes_literal (ver : List Bool) (k x : Nat) (hver : ver.length = 3) (hk : 1 ≤ k)
    (hx : x < 16 ^ k) (h63 : x < 2 ^ 63) :
    Decodes (ver ++ ([true, false, false] ++ encLiteral k x)) (x : Int) := by
  intro r tail hu
  obtain ⟨j, rfl⟩ : ∃ j, k = j + 1 := ⟨k - 1, by omega⟩
  have hu1 : unread r = ver ++ ([true, false, false] ++ (encLiteral (j + 1) x ++ tail)) := by
    rw [hu]; simp
  obtain ⟨ra, rb, ha, hb, hub, hob⟩ := readBits_header r ver [true, false, false] _ hver rfl hu1
  have h4 : ((ofBits [true, false, false] : Nat) : Int) = TypeLiteral := by decide
  rw [h4] at hb
  have hm : 0 * 16 ^ (j + 1) + x % 16 ^ (j + 1) = x := by
    rw [Nat.mod_eq_of_lt hx]; simp
  obtain ⟨r1, h1, h2, h3⟩ := readLiteralLoop_enc j (j + 1) 0 x rb tail (by omega)
    (by rw [hm]; exact h63) hub
  rw [hm] at h1
  have hl : readLiteral (j + 1) rb = some (.ret (x : Int) none, r1) := h1
  have hlen : ∀ n x, (encLiteral n x).length = 5 * n := by
    intro n x
    induction n with
    | zero => rfl
    | succ n ih => simp [encLiteral, nibbleBits, ih]; omega
  refine ⟨j + 2, r1, ?_, h2, ?_⟩
  · rw [readPacket, ha]
    simp only []
    rw [hb]
    simp only []
    rw [if_pos True.intro, hl]
  · rw [h3, hob]
    simp [hlen, hver]
    ring

/-- C7: count mode. For an operator type code `t`, `k < 2^11` sub-packets
(`k = 2` for a comparison) given as bit strings `b_i` that decode to `v_i`
from any offset, `readPacket` on version, `t`, flag 1, `k` in 11 bits and
`b_1 .. b_k` runs the sub-packet loop exactly `k` times collecting
`[v_1, .., v_k]` in order, returns `ops[t]` applied to them, and consumes
exactly `18 + |b_1| + .. + |b_k|` bits. -/
theorem readPacket_count (t : Nat) (ver : List Bool) (subs : List (List Bool × Int))
    (ht : t < 8) (h4 : t ≠ 4) (hver : ver.length = 3) (hk : subs.length < 2 ^ 11)
    (har : 5 ≤ t → subs.length = 2) (hsub : ∀ p ∈ subs, Decodes p.1 p.2)
    (r : bitReader) (tail : List Bool)
    (hu : unread r = encCount ver t (subs.map Prod.fst) ++ tail) :
    ∃ fuel0 r4 r1 op res,
      ops (t : Int) = some (some op) ∧ op (subs.map Prod.snd) = some res ∧
      (∀ fuel, fuel0 ≤ fuel →
        countLoop (readPacket fuel) subs.length r4 [] =
          some (.done (subs.map Prod.snd) r1) ∧
        readPacket (fuel + 1) r = some (.ret res none, r1)) ∧
      (subs.map Prod.snd).length = subs.length ∧
      r4.offset = r.offset + 18 ∧ unread r1 = tail ∧
      r1.offset = r.offset + 18 + (concatBits (subs.map Prod.fst)).length := by
  obtain ⟨f0, r4, r1, hrun, ho4, hu1, ho1⟩ :=
    readPacket_count_aux t ver subs ht h4 hver hk hsub r tail hu
  obtain ⟨op, res, hop, hres, happ⟩ := applyOp_ok t (subs.map Prod.snd) ht h4
    (by intro h5; rw [List.length_map]; exact har h5)
  refine ⟨f0, r4, r1, op, res, hop, hres, ?_, by simp, ho4, hu1, ho1⟩
  intro fuel hf
  obtain ⟨h1, h2⟩ := hrun fuel hf
  rw [happ] at h2
  exact ⟨h1, h2⟩

/-- C7, at a concrete input: `C200B40A82` is the sum, in count mode, of the
literal packets 1 and 2. -/
theorem readPacket_count_witness :
    0 < 8 ∧ 0 ≠ 4 ∧ [true, true, false].length = 3 ∧ sumSubs.length < 2 ^ 11 ∧
    (5 ≤ 0 → sumSubs.length = 2) ∧ (∀ p ∈ sumSubs, Decodes p.1 p.2) ∧
    unread (fresh hexC200B40A82) =
      encCount [true, true, false] 0 (sumSubs.map Prod.fst) ++ [] ∧
    ∃ fuel0 r4 r1 op res,
      ops ((0 : Nat) : Int) = some (some op) ∧ op (sumSubs.map Prod.snd) = some res ∧
      (∀ fuel, fuel0 ≤ fuel →
        countLoop (readPacket fuel) sumSubs.length r4 [] =
          some (.done (sumSubs.map Prod.snd) r1) ∧
        readPacket (fuel + 1) (fresh hexC200B40A82) = some (.ret res none, r1)) ∧
      (sumSubs.map Prod.snd).length = sumSubs.length ∧
      r4.offset = (fresh hexC200B40A82).offset + 18 ∧ unread r1 = [] ∧
      r1.offset = (fresh hexC200B40A82).offset + 18 +
        (concatBits (sumSubs.map Prod.fst)).length := by
  have hs : ∀ p ∈ sumSubs, Decodes p.1 p.2 := by
    intro p hp
    simp only [sumSubs, List.mem_cons, List.mem_singleton, List.not_mem_nil, or_false] at hp
    rcases hp with rfl | rfl
    · exact decodes_literal [true, true, false] 1 1 rfl (by decide) (by decide) (by decide)
    · exact decodes_literal [false, true, false] 1 2 rfl (by decide) (by decide) (by decide)
  exact ⟨by decide, by decide, rfl, by decide, by decide, hs, by decide,
    readPacket_count 0 [true, true, false] sumSubs (by decide) (by decide) rfl (by decide)
      (by decide) hs (fresh hexC200B40A82) [] (by decide)⟩

/-! ## Length mode -/

/-- When the length loop falls through, the bit position has reached the
limit, and either no sub-packet was read or the last one started before it. -/
theorem lengthLoop_done (rp : bitReader → Option (Outcome × bitReader)) :
    ∀ (fuel : Nat) (limit : Int) (r : bitReader) (acc vs : List Int) (r1 : bitReader),
      lengthLoop rp fuel limit r acc = some (.done vs r1) →
        limit ≤ r1.offset ∧
        (r1 = r ∨ ∃ r0 w, r0.offset < limit ∧ rp r0 = some (.ret w none, r1)) := by
  intro fuel
  induction fuel with
  | zero =>
    intro limit r acc vs r1 h
    simp only [lengthLoop] at h
    split at h
    · exact absurd h (by simp)
    · next hc =>
      simp only [Option.some.injEq, LoopEnd.done.injEq] at h
      rw [← h.2]
      exact ⟨by omega, Or.inl rfl⟩
  | succ fuel ih =>
    intro limit r acc vs r1 h
    rw [lengthLoop] at h
    by_cases hc : r.offset < limit
    · rw [if_pos hc] at h
      cases hq : rp r with
      | none => rw [hq] at h; exact absurd h (by simp)
      | some x =>
        rw [hq] at h
        obtain ⟨o, r2⟩ := x
        cases o with
        | panic => simp at h
        | ret v err =>
          cases err with
          | some e1 => simp at h
          | none =>
            obtain ⟨h1, h2⟩ := ih _ _ _ _ _ h
            refine ⟨h1, ?_⟩
            rcases h2 with rfl | h2
            · exact Or.inr ⟨r, v, hc, hq⟩
            · exact Or.inr h2
    · rw [if_neg hc] at h
      simp only [Option.some.injEq, LoopEnd.done.injEq] at h
      rw [← h.2]
      exact ⟨by omega, Or.inl rfl⟩

/-- When `readPacket` leaves from inside the length loop, it returns an error
or panics. -/
theorem lengthLoop_leave (rp : bitReader → Option (Outcome × bitReader)) :
    ∀ (fuel : Nat) (limit : Int) (r : bitReader) (acc : List Int) (o : Outcome) (r1 : bitReader),
      lengthLoop rp fuel limit r acc = some (.leave o r1) → ∀ v, o ≠ .ret v none := by
  intro fuel
  induction fuel with
  | zero =>
    intro limit r acc o r1 h
    simp only [lengthLoop] at h
    split at h
    · exact absurd h (by simp)
    · simp at h
  | succ fuel ih =>
    intro limit r acc o r1 h
    rw [lengthLoop] at h
    by_cases hc : r.offset < limit
    · rw [if_pos hc] at h
      cases hq : rp r with
      | none => rw [hq] at h; exact absurd h (by simp)
      | some x =>
        rw [hq] at h
        obtain ⟨o2, r2⟩ := x
        cases o2 with
        | panic =>
          simp only [Option.some.injEq, LoopEnd.leave.injEq] at h
          intro v; rw [← h.1]; simp
        | ret v err =>
          cases err with
          | some e1 =>
            simp only [Option.some.injEq, LoopEnd.leave.injEq] at h
            intro v; rw [← h.1]; simp
          | none => exact ih _ _ _ _ _ h
    · rw [if_neg hc] at h
      simp at h

/-- The 22 header bits of a packet in length mode. -/
theorem readPacket_length_header (r : bitReader) (ver tail : List Bool) (t L : Nat)
    (hver : ver.length = 3) (ht : t < 8) (h4 : t ≠ 4) (hL : L < 2 ^ 15)
    (hu : unread r = ver ++ (natBits 3 t ++ ([false] ++ (natBits 15 L ++ tail)))) :
    ∃ r4, r4.offset = r.offset + 22 ∧ unread r4 = tail ∧
      ∀ fuel, readPacket (fuel + 1) r =
        finish (t : Int) (lengthLoop (readPacket fuel) fuel (r4.offset + (L : Int)) r4 []) := by
  obtain ⟨ra, rb, ha, hb, hub, hob⟩ := readBits_header r ver (natBits 3 t) _ hver
    (length_natBits 3 t) hu
  rw [ofBits_natBits, Nat.mod_eq_of_lt (by omega : t < 2 ^ 3)] at hb
  obtain ⟨rc, hc, huc, hoc⟩ := readBits_append rb [false] _ (by decide) hub
  obtain ⟨rd, hd, hud, hod⟩ := readBits_natBits rc 15 L _ (by decide) hL huc
  have hflag : ((ofBits [false] : Nat) : Int) = 0 := by decide
  have hlen1 : [false].length = 1 := rfl
  rw [hflag, hlen1] at hc
  rw [hlen1] at hoc
  have hnl : ¬ ((t : Nat) : Int) = TypeLiteral := by
    unfold TypeLiteral; omega
  refine ⟨rd, by rw [hod, hoc, hob]; push_cast; ring, hud, ?_⟩
  intro fuel
  rw [readPacket, ha]
  simp only []
  rw [hb]
  simp only []
  rw [if_neg hnl, hc]
  simp only []
  rw [if_neg (by decide), if_pos True.intro, hd]

set_option maxRecDepth 100000 in
/-- C8 (as stated, refuted): on `00 00 04 40 80` the packet is in length mode
with length field `L = 1`; `readPacket` succeeds with value 1 having consumed
33 bits, not `22 + L = 23`: the one sub-packet of 11 bits runs past the
declared length. -/
theorem readPacket_length_exact_counterexample :
    unread (fresh lengthOvershoot) =
      [false, false, false] ++ (natBits 3 0 ++ ([false] ++ (natBits 15 1 ++
        ([false, false, false] ++ ([true, false, false] ++ encLiteral 1 1) ++
          [false, false, false, false, false, false, false])))) ∧
    readPacket 3 (fresh lengthOvershoot) = some (.ret 1 none, ⟨[], 0x80, 7, 33⟩) ∧
    (⟨[], 0x80, 7, 33⟩ : bitReader).offset ≠ (fresh lengthOvershoot).offset + 22 + 1 := by
  refine ⟨by decide, by decide, by decide⟩

/-- A bit string that decodes as a packet is not empty. -/
theorem Decodes.ne_nil {b : List Bool} {v : Int} (h : Decodes b v) : b ≠ [] := by
  intro hb
  subst hb
  obtain ⟨fuel, r1, h1, _, h3⟩ := h (fresh []) [] (by decide)
  have := (readPacket_offset fuel _ _ _ h1).2 v rfl
  rw [h3] at this
  simp at this

/-- The length loop over a sequence of sub-packets whose lengths sum to the
declared length decodes each in turn and stops after the last. -/
theorem lengthLoop_decodes : ∀ (subs : List (List Bool × Int)),
    (∀ p ∈ subs, Decodes p.1 p.2) →
    ∀ (r : bitReader) (tail : List Bool) (acc : List Int),
      unread r = concatBits (subs.map Prod.fst) ++ tail →
      ∃ fuel0 r1, (∀ fp fl, fuel0 ≤ fp → fuel0 ≤ fl →
          lengthLoop (readPacket fp) fl
              (r.offset + ((concatBits (subs.map Prod.fst)).length : Int)) r acc =
            some (.done (acc ++ subs.map Prod.snd) r1)) ∧
        unread r1 = tail ∧
        r1.offset = r.offset + (concatBits (subs.map Prod.fst)).length := by
  intro subs
  induction subs with
  | nil =>
    intro _ r tail acc hu
    refine ⟨0, r, ?_, ?_, ?_⟩
    · intro fp fl _ _
      cases fl <;> simp [lengthLoop, concatBits]
    · simpa [concatBits] using hu
    · simp [concatBits]
  | cons p subs ih =>
    intro hsub r tail acc hu
    have hp : Decodes p.1 p.2 := hsub p (List.mem_cons_self _ _)
    have hpos : 0 < p.1.length := List.length_pos.mpr hp.ne_nil
    have hu2 : unread r = p.1 ++ (concatBits (subs.map Prod.fst) ++ tail) := by
      rw [hu]; simp [concatBits]
    obtain ⟨fa, ra, ha, hua, hoa⟩ := hp r _ hu2
    obtain ⟨fb, rb, hb, hub, hob⟩ := ih (fun q hq => hsub q (List.mem_cons_of_mem _ hq))
      ra tail (acc ++ [p.2]) hua
    have hlen : ((concatBits (List.map Prod.fst (p :: subs))).length : Int) =
        (p.1.length : Int) + ((concatBits (subs.map Prod.fst)).length : Int) := by
      simp [concatBits]
    have hlim : r.offset + ((concatBits (List.map Prod.fst (p :: subs))).length : Int) =
        ra.offset + ((concatBits (subs.map Prod.fst)).length : Int) := by
      rw [hlen, hoa]; ring
    refine ⟨max fa fb + 1, rb, ?_, hub, ?_⟩
    · intro fp fl hfp hfl
      obtain ⟨fl2, rfl⟩ : ∃ k, fl = k + 1 := ⟨fl - 1, by omega⟩
      have h1 := readPacket_mono_le fa fp r _ (by omega) ha
      have h2 := hb fp fl2 (by omega) (by omega)
      have hlt : r.offset < r.offset +
          ((concatBits (List.map Prod.fst (p :: subs))).length : Int) := by
        rw [hlen]; omega
      rw [lengthLoop, if_pos hlt, h1]
      simp only []
      rw [hlim, h2]
      simp
    · rw [hob, hoa, hlen]; ring

/-- A packet in length mode whose length field is the total length of its
sub-packets: the header, the loop and the operator. -/
theorem readPacket_length_aux (t : Nat) (ver : List Bool) (subs : List (List Bool × Int))
    (ht : t < 8) (h4 : t ≠ 4) (hver : ver.length = 3)
    (hL : (concatBits (subs.map Prod.fst)).length < 2 ^ 15)
    (hsub : ∀ p ∈ subs, Decodes p.1 p.2) (r : bitReader) (tail : List Bool)
    (hu : unread r = encLength ver t (subs.map Prod.fst) ++ tail) :
    ∃ fuel0 r4 r1,
      (∀ fuel, fuel0 ≤ fuel →
        lengthLoop (readPacket fuel) fuel
            (r4.offset + ((concatBits (subs.map Prod.fst)).length : Int)) r4 [] =
          some (.done (subs.map Prod.snd) r1) ∧
        readPacket (fuel + 1) r = some (applyOp (t : Int) (subs.map Prod.snd), r1)) ∧
      r4.offset = r.offset + 22 ∧ unread r1 = tail ∧
      r1.offset = r.offset + 22 + (concatBits (subs.map Prod.fst)).length := by
  have hu1 : unread r = ver ++ (natBits 3 t ++ ([false] ++
      (natBits 15 (concatBits (subs.map Prod.fst)).length ++
        (concatBits (subs.map Prod.fst) ++ tail)))) := by
    rw [hu]; simp [encLength]
  obtain ⟨r4, ho4, hu4, heq⟩ := readPacket_length_header r ver _ t _ hver ht h4 hL hu1
  obtain ⟨f0, r1, hloop, hur, hor⟩ := lengthLoop_decodes subs hsub r4 tail [] hu4
  refine ⟨f0, r4, r1, ?_, ho4, hur, by rw [hor, ho4]⟩
  intro fuel hf
  have hl := hloop fuel fuel hf hf
  rw [List.nil_append] at hl
  refine ⟨hl, ?_⟩
  rw [heq fuel, hl, finish]

/-- C9: count mode and length mode are equivalent. For an operator type code
`t`, a version and sub-packets `b_1 .. b_k` (each decoding to `v_i` from any
offset) with `k < 2^11` and total length `L < 2^15`, `readPacket` on the
count-mode packet and on the length-mode packet both collect `[v_1, .., v_k]`
in order and end in the same way, `ops[t]` applied to that sequence, having
consumed `18 + L` and `22 + L` bits. -/
theorem count_length_equiv (t : Nat) (ver : List Bool) (subs : List (List Bool × Int))
    (ht : t < 8) (h4 : t ≠ 4) (hver : ver.length = 3) (hk : subs.length < 2 ^ 11)
    (hL : (concatBits (subs.map Prod.fst)).length < 2 ^ 15)
    (hsub : ∀ p ∈ subs, Decodes p.1 p.2) (rc rl : bitReader) (tc tl : List Bool)
    (huc : unread rc = encCount ver t (subs.map Prod.fst) ++ tc)
    (hul : unread rl = encLength ver t (subs.map Prod.fst) ++ tl) :
    ∃ fuel0 c4 c1 l4 l1,
      (∀ fuel, fuel0 ≤ fuel →
        countLoop (readPacket fuel) subs.length c4 [] =
          some (.done (subs.map Prod.snd) c1) ∧
        lengthLoop (readPacket fuel) fuel
            (l4.offset + ((concatBits (subs.map Prod.fst)).length : Int)) l4 [] =
          some (.done (subs.map Prod.snd) l1) ∧
        readPacket (fuel + 1) rc = some (applyOp (t : Int) (subs.map Prod.snd), c1) ∧
        readPacket (fuel + 1) rl = some (applyOp (t : Int) (subs.map Prod.snd), l1)) ∧
      c4.offset = rc.offset + 18 ∧ l4.offset = rl.offset + 22 ∧
      unread c1 = tc ∧ unread l1 = tl ∧
      c1.offset = rc.offset + 18 + (concatBits (subs.map Prod.fst)).length ∧
      l1.offset = rl.offset + 22 + (concatBits (subs.map Prod.fst)).length := by
  obtain ⟨fc, c4, c1, hc, hc4, hcu, hco⟩ :=
    readPacket_count_aux t ver subs ht h4 hver hk hsub rc tc huc
  obtain ⟨fl, l4, l1, hl, hl4, hlu, hlo⟩ :=
    readPacket_length_aux t ver subs ht h4 hver hL hsub rl tl hul
  refine ⟨max fc fl, c4, c1, l4, l1, ?_, hc4, hl4, hcu, hlu, hco, hlo⟩
  intro fuel hf
  obtain ⟨a1, a2⟩ := hc fuel (le_trans (le_max_left _ _) hf)
  obtain ⟨b1, b2⟩ := hl fuel (le_trans (le_max_right _ _) hf)
  exact ⟨a1, b1, a2, b2⟩

/-- C9, at a concrete input: the literals 1 and 2 under the sum operator, as
`C200B40A82` (count mode) and as `C0005B40A820` (length mode). -/
theorem count_length_equiv_witness :
    0 < 8 ∧ 0 ≠ 4 ∧ [true, true, false].length = 3 ∧ sumSubs.length < 2 ^ 11 ∧
    (concatBits (sumSubs.map Prod.fst)).length < 2 ^ 15 ∧
    (∀ p ∈ sumSubs, Decodes p.1 p.2) ∧
    unread (fresh hexC200B40A82) =
      encCount [true, true, false] 0 (sumSubs.map Prod.fst) ++ [] ∧
    unread (fresh sumLengthMode) =
      encLength [true, true, false] 0 (sumSubs.map Prod.fst) ++ [false, false, false, false] ∧
    ∃ fuel0 c4 c1 l4 l1,
      (∀ fuel, fuel0 ≤ fuel →
        countLoop (readPacket fuel) sumSubs.length c4 [] =
          some (.done (sumSubs.map Prod.snd) c1) ∧
        lengthLoop (readPacket fuel) fuel
            (l4.offset + ((concatBits (sumSubs.map Prod.fst)).length : Int)) l4 [] =
          some (.done (sumSubs.map Prod.snd) l1) ∧
        readPacket (fuel + 1) (fresh hexC200B40A82) =
          some (applyOp ((0 : Nat) : Int) (sumSubs.map Prod.snd), c1) ∧
        readPacket (fuel + 1) (fresh sumLengthMode) =
          some (applyOp ((0 : Nat) : Int) (sumSubs.map Prod.snd), l1)) ∧
      c4.offset = (fresh hexC200B40A82).offset + 18 ∧
      l4.offset = (fresh sumLengthMode).offset + 22 ∧
      unread c1 = [] ∧ unread l1 = [false, false, false, false] ∧
      c1.offset = (fresh hexC200B40A82).offset + 18 +
        (concatBits (sumSubs.map Prod.fst)).length ∧
      l1.offset = (fresh sumLengthMode).offset + 22 +
        (concatBits (sumSubs.map Prod.fst)).length := by
  have hs : ∀ p ∈ sumSubs, Decodes p.1 p.2 := by
    intro p hp
    simp only [sumSubs, List.mem_cons, List.mem_singleton, List.not_mem_nil, or_false] at hp
    rcases hp with rfl | rfl
    · exact decodes_literal [true, true, false] 1 1 rfl (by decide) (by decide) (by decide)
    · exact decodes_literal [false, true, false] 1 2 rfl (by decide) (by decide) (by decide)
  exact ⟨by decide, by decide, rfl, by decide, by decide, hs, by decide, by decide,
    count_length_equiv 0 [true, true, false] sumSubs (by decide) (by decide) rfl (by decide)
      (by decide) hs (fresh hexC200B40A82) (fresh sumLengthMode) [] [false, false, false, false]
      (by decide) (by decide)⟩

/-! ## Truncated input -/

theorem streamBits_append (p q : List Byte) :
    streamBits (p ++ q) = streamBits p ++ streamBits q := by
  induction p with
  | nil => rfl
  | cons b p ih => simp [streamBits, ih]

theorem sim_readBits (t : List Bool) (N : Int) (rp r r1 : bitReader) (n : Nat) (v : Int)
    (hs : Sim t N rp r) (h : readBits n r = (.ret v none, r1)) :
    (∃ rp1, readBits n rp = (.ret v none, rp1) ∧ Sim t N rp1 r1) ∨
    (∃ rp1, readBits n rp = (.ret 0 (some .eof), rp1)) := by
  obtain ⟨ho, hu, hN⟩ := hs
  obtain ⟨_, hv, hu1, ho1⟩ := readBits_success n r r1 v h
  rcases readBits_cases n rp with ⟨rp1, g, gn, gu, go⟩ | ⟨rp1, g, _, _, _⟩
  · left
    refine ⟨rp1, ?_, ?_, ?_, ?_⟩
    · rw [g, hv, hu, List.take_append_of_le_length gn]
    · rw [go, ho1, ho]
    · rw [hu1, hu, gu, List.drop_append_of_le_length gn]
    · rw [go, gu, List.length_drop, ← hN]
      omega
  · right
    exact ⟨rp1, g⟩

theorem sim_readLiteralLoop (t : List Bool) (N : Int) :
    ∀ (fuel : Nat) (val : Int) (rp r r1 : bitReader) (v : Int), Sim t N rp r →
      readLiteralLoop fuel val r = some (.ret v none, r1) →
        (∃ rp1, readLiteralLoop fuel val rp = some (.ret v none, rp1) ∧ Sim t N rp1 r1) ∨
        (∃ rp1, readLiteralLoop fuel val rp = some (.ret 0 (some .eof), rp1)) := by
  intro fuel
  induction fuel with
  | zero => intro val rp r r1 v _ h; simp [readLiteralLoop] at h
  | succ fuel ih =>
    intro val rp r r1 v hs h
    rw [readLiteralLoop] at h ⊢
    rcases readBits_cases 5 r with ⟨ra, ha, _, _, _⟩ | ⟨ra, ha, _, _, _⟩
    swap
    · rw [ha] at h; simp at h
    rw [ha] at h
    simp only [] at h
    rcases sim_readBits t N rp r ra 5 _ hs ha with ⟨rpa, ga, hsa⟩ | ⟨rpa, ga⟩
    swap
    · right; rw [ga]; exact ⟨rpa, rfl⟩
    rw [ga]
    simp only []
    split
    · next hc =>
      rw [if_pos hc] at h
      exact ih _ _ _ _ _ hsa h
    · next hc =>
      rw [if_neg hc] at h
      simp only [Option.some.injEq, Prod.mk.injEq, Outcome.ret.injEq, and_true] at h
      left
      refine ⟨rpa, ?_, ?_⟩
      · rw [h.1]
      · rw [← h.2]; exact hsa

/-- When `readPacket` leaves from inside the count loop, it returns an error
or panics. -/
theorem countLoop_leave (rp : bitReader → Option (Outcome × bitReader)) :
    ∀ (n : Nat) (r : bitReader) (acc : List Int) (o : Outcome) (r1 : bitReader),
      countLoop rp n r acc = some (.leave o r1) → ∀ v, o ≠ .ret v none := by
  intro n
  induction n with
  | zero => intro r acc o r1 h; simp [countLoop] at h
  | succ n ih =>
    intro r acc o r1 h
    rw [countLoop] at h
    cases hq : rp r with
    | none => rw [hq] at h; exact absurd h (by simp)
    | some x =>
      rw [hq] at h
      obtain ⟨o2, r2⟩ := x
      cases o2 with
      | panic =>
        simp only [Option.some.injEq, LoopEnd.leave.injEq] at h
        intro v; rw [← h.1]; simp
      | ret v err =>
        cases err with
        | some e1 =>
          simp only [Option.some.injEq, LoopEnd.leave.injEq] at h
          intro v; rw [← h.1]; simp
        | none => exact ih _ _ _ _ h

theorem sim_countLoop (t : List Bool) (N : Int) (f : bitReader → Option (Outcome × bitReader))
    (hf : SimStep t N f) :
    ∀ (n : Nat) (rp r r1 : bitReader) (acc vs : List Int), Sim t N rp r →
      countLoop f n r acc = some (.done vs r1) →
        (∃ rp1, countLoop f n rp acc = some (.done vs rp1) ∧ Sim t N rp1 r1) ∨
        (∃ e rp1, countLoop f n rp acc = some (.leave (.ret 0 (some e)) rp1) ∧
          e.rootCause = .eof) := by
  intro n
  induction n with
  | zero =>
    intro rp r r1 acc vs hs h
    simp only [countLoop, Option.some.injEq, LoopEnd.done.injEq] at h
    left
    refine ⟨rp, ?_, ?_⟩
    · simp only [countLoop]; rw [h.1]
    · rw [← h.2]; exact hs
  | succ n ih =>
    intro rp r r1 acc vs hs h
    rw [countLoop] at h ⊢
    cases hq : f r with
    | none => rw [hq] at h; exact absurd h (by simp)
    | some x =>
      rw [hq] at h
      obtain ⟨o, r2⟩ := x
      cases o with
      | panic => simp at h
      | ret v err =>
        cases err with
        | some e1 => simp at h
        | none =>
          simp only [] at h
          rcases hf rp r v r2 hs hq with ⟨rp2, g, hs2⟩ | ⟨e, rp2, g, he⟩
          · rw [g]
            exact ih _ _ _ _ _ hs2 h
          · right
            rw [g]
            exact ⟨.wrapped e "read subpacket", rp2, rfl, he⟩

theorem sim_lengthLoop (t : List Bool) (N : Int) (f : bitReader → Option (Outcome × bitReader))
    (hf : SimStep t N f) :
    ∀ (fuel : Nat) (limit : Int) (rp r r1 : bitReader) (acc vs : List Int), Sim t N rp r →
      lengthLoop f fuel limit r acc = some (.done vs r1) →
        (∃ rp1, lengthLoop f fuel limit rp acc = some (.done vs rp1) ∧ Sim t N rp1 r1) ∨
        (∃ e rp1, lengthLoop f fuel limit rp acc = some (.leave (.ret 0 (some e)) rp1) ∧
          e.rootCause = .eof) := by
  intro fuel
  induction fuel with
  | zero =>
    intro limit rp r r1 acc vs hs h
    simp only [lengthLoop] at h ⊢
    rw [hs.1]
    split at h
    · exact absurd h (by simp)
    · next hc =>
      simp only [Option.some.injEq, LoopEnd.done.injEq] at h
      left
      refine ⟨rp, ?_, ?_⟩
      · rw [if_neg hc, h.1]
      · rw [← h.2]; exact hs
  | succ fuel ih =>
    intro limit rp r r1 acc vs hs h
    rw [lengthLoop] at h ⊢
    rw [hs.1]
    by_cases hc : r.offset < limit
    · rw [if_pos hc] at h ⊢
      cases hq : f r with
      | none => rw [hq] at h; exact absurd h (by simp)
      | some x =>
        rw [hq] at h
        obtain ⟨o, r2⟩ := x
        cases o with
        | panic => simp at h
        | ret v err =>
          cases err with
          | some e1 => simp at h
          | none =>
            simp only [] at h
            rcases hf rp r v r2 hs hq with ⟨rp2, g, hs2⟩ | ⟨e, rp2, g, he⟩
            · rw [g]
              exact ih _ _ _ _ _ _ hs2 h
            · right
              rw [g]
              exact ⟨.wrapped e "read subpacket", rp2, rfl, he⟩
    · rw [if_neg hc] at h ⊢
      simp only [Option.some.injEq, LoopEnd.done.injEq] at h
      left
      refine ⟨rp, ?_, ?_⟩
      · rw [h.1]
      · rw [← h.2]; exact hs

theorem sim_finish (t : List Bool) (N : Int) (packetType : Int) (l lp : Option LoopEnd)
    (v : Int) (r1 : bitReader) (h : finish packetType l = some (.ret v none, r1))
    (hleave : ∀ o r, l = some (.leave o r) → ∀ w, o ≠ .ret w none)
    (hsim : ∀ vs r2, l = some (.done vs r2) →
      (∃ rp1, lp = some (.done vs rp1) ∧ Sim t N rp1 r2) ∨
      (∃ e rp1, lp = some (.leave (.ret 0 (some e)) rp1) ∧ e.rootCause = .eof)) :
    (∃ rp1, finish packetType lp = some (.ret v none, rp1) ∧ Sim t N rp1 r1) ∨
    (∃ e rp1, finish packetType lp = some (.ret 0 (some e), rp1) ∧ e.rootCause = .eof) := by
  cases l with
  | none => simp [finish] at h
  | some e =>
    cases e with
    | leave o r2 =>
      simp only [finish, Option.some.injEq, Prod.mk.injEq] at h
      exact absurd h.1 (hleave o r2 rfl v)
    | done vs r2 =>
      simp only [finish, Option.some.injEq, Prod.mk.injEq] at h
      obtain ⟨h1, rfl⟩ := h
      rcases hsim vs r2 rfl with ⟨rp1, g, hs⟩ | ⟨e, rp1, g, he⟩
      · left
        refine ⟨rp1, ?_, hs⟩
        rw [g, finish, h1]
      · right
        refine ⟨e, rp1, ?_, he⟩
        rw [g, finish]

/-- On a truncated input `readPacket` either does what it does on the full
input or fails with an error rooted in `io.EOF`. -/
theorem sim_readPacket (t : List Bool) (N : Int) : ∀ fuel, SimStep t N (readPacket fuel) := by
  intro fuel
  induction fuel with
  | zero => intro rp r v r1 _ h; simp [readPacket] at h
  | succ fuel ih =>
    intro rp r v r1 hs h
    rw [readPacket] at h ⊢
    rcases readBits_cases 3 r with ⟨ra, ha, _, _, _⟩ | ⟨ra, ha, _, _, _⟩
    swap
    · rw [ha] at h; simp at h
    rw [ha] at h
    simp only [] at h
    rcases sim_readBits t N rp r ra 3 _ hs ha with ⟨rpa, ga, hsa⟩ | ⟨rpa, ga⟩
    swap
    · right; rw [ga]; exact ⟨.eof, rpa, rfl, rfl⟩
    rw [ga]
    simp only []
    rcases readBits_cases 3 ra with ⟨rb, hb, _, _, _⟩ | ⟨rb, hb, _, _, _⟩
    swap
    · rw [hb] at h; simp at h
    rw [hb] at h
    simp only [] at h
    rcases sim_readBits t N rpa ra rb 3 _ hsa hb with ⟨rpb, gb, hsb⟩ | ⟨rpb, gb⟩
    swap
    · right; rw [gb]; exact ⟨.eof, rpb, rfl, rfl⟩
    rw [gb]
    simp only []
    split
    · next ht =>
      rw [if_pos ht] at h
      cases hq : readLiteral fuel rb with
      | none => rw [hq] at h; exact absurd h (by simp)
      | some x =>
        rw [hq] at h
        obtain ⟨o, r2⟩ := x
        cases o with
        | panic => simp at h
        | ret w err =>
          cases err with
          | some e1 => simp at h
          | none =>
            simp only [Option.some.injEq, Prod.mk.injEq, Outcome.ret.injEq, and_true] at h
            obtain ⟨rfl, rfl⟩ := h
            rcases sim_readLiteralLoop t N fuel 0 rpb rb r2 w hsb hq with ⟨rp1, g, hs1⟩ | ⟨rp1, g⟩
            · left
              refine ⟨rp1, ?_, hs1⟩
              unfold readLiteral
              rw [g]
            · right
              refine ⟨.wrapped .eof "reading literal", rp1, ?_, rfl⟩
              unfold readLiteral
              rw [g]
    · next ht =>
      rw [if_neg ht] at h
      rcases readBits_cases 1 rb with ⟨rc, hc, _, _, _⟩ | ⟨rc, hc, _, _, _⟩
      swap
      · rw [hc] at h; simp at h
      rw [hc] at h
      simp only [] at h
      rcases sim_readBits t N rpb rb rc 1 _ hsb hc with ⟨rpc, gc, hsc⟩ | ⟨rpc, gc⟩
      swap
      · right; rw [gc]; exact ⟨.eof, rpc, rfl, rfl⟩
      rw [gc]
      simp only []
      split
      · next h1 =>
        rw [if_pos h1] at h
        rcases readBits_cases 11 rc with ⟨rd, hd, _, _, _⟩ | ⟨rd, hd, _, _, _⟩
        swap
        · rw [hd] at h; simp at h
        rw [hd] at h
        simp only [] at h
        rcases sim_readBits t N rpc rc rd 11 _ hsc hd with ⟨rpd, gd, hsd⟩ | ⟨rpd, gd⟩
        swap
        · right; rw [gd]; exact ⟨.eof, rpd, rfl, rfl⟩
        rw [gd]
        simp only []
        exact sim_finish t N _ _ _ v r1 h
          (fun o r2 hl => countLoop_leave _ _ _ _ _ _ hl)
          (fun vs r2 hl => sim_countLoop t N _ ih _ _ _ _ _ _ hsd hl)
      · next h1 =>
        rw [if_neg h1] at h
        split
        · next h0 =>
          rw [if_pos h0] at h
          rcases readBits_cases 15 rc with ⟨rd, hd, _, _, hod⟩ | ⟨rd, hd, _, _, _⟩
          swap
          · rw [hd] at h; simp at h
          rw [hd] at h
          simp only [] at h
          rcases sim_readBits t N rpc rc rd 15 _ hsc hd with ⟨rpd, gd, hsd⟩ | ⟨rpd, gd⟩
          swap
          · right; rw [gd]; exact ⟨.eof, rpd, rfl, rfl⟩
          rw [gd]
          simp only []
          rw [hsd.1]
          exact sim_finish t N _ _ _ v r1 h
            (fun o r2 hl => lengthLoop_leave _ _ _ _ _ _ _ hl)
            (fun vs r2 hl => sim_lengthLoop t N _ ih _ _ _ _ _ _ _ hsd hl)
        · next h0 =>
          rw [if_neg h0] at h
          simp only [Option.some.injEq, Prod.mk.injEq] at h
          left
          refine ⟨rpc, ?_, ?_⟩
          · rw [h.1]
          · rw [← h.2]; exact hsc

/-- C10: truncation is an error. If `readPacket` on a fresh reader over `bs`
succeeds having consumed `n` bits and `p` is a prefix of `bs` with
`8 * |p| < n`, then `readPacket` on `p` (with the same or more fuel) returns
no value: it returns `(0, err)` where the root cause of `err` is `io.EOF`. -/
theorem readPacket_truncated (bs p q : List Byte) (fuel fuel2 : Nat) (v : Int) (r1 : bitReader)
    (hbs : bs = p ++ q) (h : readPacket fuel (fresh bs) = some (.ret v none, r1))
    (hlt : 8 * (p.length : Int) < r1.offset) (hf : fuel ≤ fuel2) :
    ∃ e rp1, readPacket fuel2 (fresh p) = some (.ret 0 (some e), rp1) ∧ e.rootCause = .eof := by
  have hs : Sim (streamBits q) (8 * (p.length : Int)) (fresh p) (fresh bs) := by
    refine ⟨rfl, ?_, ?_⟩
    · rw [hbs]
      simp [unread, fresh, lowBits, streamBits_append]
    · simp [unread, fresh, lowBits, length_streamBits]
  rcases sim_readPacket _ _ fuel _ _ _ _ hs h with ⟨rp1, _, hs1⟩ | ⟨e, rp1, g, he⟩
  · obtain ⟨h1, _, h3⟩ := hs1
    have : (0 : Int) ≤ ((unread rp1).length : Int) := Int.ofNat_nonneg _
    omega
  · exact ⟨e, rp1, readPacket_mono_le fuel fuel2 _ _ hf g, he⟩

set_option maxRecDepth 100000 in
/-- C10, at a concrete input: `D2 FE 28` cut after its first two bytes. -/
theorem readPacket_truncated_witness :
    hexD2FE28 = [0xD2, 0xFE] ++ [0x28] ∧
    readPacket 4 (fresh hexD2FE28) = some (.ret 2021 none, ⟨[], 0x28, 3, 21⟩) ∧
    8 * (([0xD2, 0xFE] : List Byte).length : Int) < (⟨[], 0x28, 3, 21⟩ : bitReader).offset ∧
    4 ≤ 4 ∧
    ∃ e rp1, readPacket 4 (fresh [0xD2, 0xFE]) = some (.ret 0 (some e), rp1) ∧
      e.rootCause = .eof :=
  ⟨by decide, by decide, by decide, by decide,
    readPacket_truncated hexD2FE28 [0xD2, 0xFE] [0x28] 4 4 2021 ⟨[], 0x28, 3, 21⟩
      (by decide) (by decide) (by decide) (by decide)⟩

/-! ## The operator table -/

theorem wrap64_add_mul (x d : Int) : wrap64 (x + 2 ^ 64 * d) = wrap64 x := by
  unfold wrap64; omega

theorem wrap64_eq_add (x : Int) : ∃ c : Int, wrap64 x = x + 2 ^ 64 * c :=
  ⟨-((x + 2 ^ 63) / 2 ^ 64), by unfold wrap64; omega⟩

theorem wrap64_wrap64_add (a n : Int) : wrap64 (wrap64 a + n) = wrap64 (a + n) := by
  unfold wrap64; omega

theorem wrap64_wrap64_mul (a n : Int) : wrap64 (wrap64 a * n) = wrap64 (a * n) := by
  obtain ⟨c, hc⟩ := wrap64_eq_add a
  rw [hc]
  have : (a + 2 ^ 64 * c) * n = a * n + 2 ^ 64 * (c * n) := by ring
  rw [this, wrap64_add_mul]

theorem foldl_sum_wrap (v : List Int) : ∀ a : Int,
    v.foldl (fun s n => wrap64 (s + n)) (wrap64 a) = wrap64 (a + v.sum) := by
  induction v with
  | nil => intro a; rw [List.foldl_nil, List.sum_nil, add_zero]
  | cons x v ih =>
    intro a
    rw [List.foldl_cons, wrap64_wrap64_add, ih, List.sum_cons, add_assoc]

theorem foldl_prod_wrap (v : List Int) : ∀ a : Int,
    v.foldl (fun s n => wrap64 (s * n)) (wrap64 a) = wrap64 (a * v.prod) := by
  induction v with
  | nil => intro a; rw [List.foldl_nil, List.prod_nil, mul_one]
  | cons x v ih =>
    intro a
    rw [List.foldl_cons, wrap64_wrap64_mul, ih, List.prod_cons, mul_assoc]

theorem opSum_eq (v : List Int) : opSum v = wrap64 v.sum := by
  have h0 : (0 : Int) = wrap64 0 := by decide
  have := foldl_sum_wrap v 0
  rw [zero_add, ← h0] at this
  exact this

theorem opProduct_eq (v : List Int) : opProduct v = wrap64 v.prod := by
  have h1 : (1 : Int) = wrap64 1 := by decide
  have := foldl_prod_wrap v 1
  rw [one_mul, ← h1] at this
  exact this

theorem foldl_min (v : List Int) : ∀ s : Int,
    (v.foldl (fun s n => if n < s then n else s) s = s ∨
      v.foldl (fun s n => if n < s then n else s) s ∈ v) ∧
    v.foldl (fun s n => if n < s then n else s) s ≤ s ∧
    ∀ x ∈ v, v.foldl (fun s n => if n < s then n else s) s ≤ x := by
  induction v with
  | nil => intro s; simp
  | cons y v ih =>
    intro s
    rw [List.foldl_cons]
    by_cases hy : y < s
    · rw [if_pos hy]
      obtain ⟨h1, h2, h3⟩ := ih y
      refine ⟨?_, by omega, ?_⟩
      · rcases h1 with h1 | h1
        · right; rw [h1]; exact List.mem_cons_self _ _
        · right; exact List.mem_cons_of_mem _ h1
      · intro x hx
        rcases List.mem_cons.mp hx with rfl | hx
        · exact h2
        · exact h3 x hx
    · rw [if_neg hy]
      obtain ⟨h1, h2, h3⟩ := ih s
      refine ⟨?_, h2, ?_⟩
      · rcases h1 with h1 | h1
        · left; exact h1
        · right; exact List.mem_cons_of_mem _ h1
      · intro x hx
        rcases List.mem_cons.mp hx with rfl | hx
        · omega
        · exact h3 x hx

theorem foldl_max (v : List Int) : ∀ s : Int,
    (v.foldl (fun s n => if n > s then n else s) s = s ∨
      v.foldl (fun s n => if n > s then n else s) s ∈ v) ∧
    s ≤ v.foldl (fun s n => if n > s then n else s) s ∧
    ∀ x ∈ v, x ≤ v.foldl (fun s n => if n > s then n else s) s := by
  induction v with
  | nil => intro s; simp
  | cons y v ih =>
    intro s
    rw [List.foldl_cons]
    by_cases hy : y > s
    · rw [if_pos hy]
      obtain ⟨h1, h2, h3⟩ := ih y
      refine ⟨?_, by omega, ?_⟩
      · rcases h1 with h1 | h1
        · right; rw [h1]; exact List.mem_cons_self _ _
        · right; exact List.mem_cons_of_mem _ h1
      · intro x hx
        rcases List.mem_cons.mp hx with rfl | hx
        · exact h2
        · exact h3 x hx
    · rw [if_neg hy]
      obtain ⟨h1, h2, h3⟩ := ih s
      refine ⟨?_, h2, ?_⟩
      · rcases h1 with h1 | h1
        · left; exact h1
        · right; exact List.mem_cons_of_mem _ h1
      · intro x hx
        rcases List.mem_cons.mp hx with rfl | hx
        · omega
        · exact h3 x hx

/-- C11 (as stated, refuted): the sum of `math.MaxInt` and 1 and the product of
`2^62` and 2 leave the range of `int`; `ops[TypeSum]` and `ops[TypeProduct]`
return `-2^63`, not `2^63`. -/
theorem ops_reference_counterexample :
    opSum [MaxInt, 1] = -2 ^ 63 ∧ ([MaxInt, 1] : List Int).sum = 2 ^ 63 ∧
    opSum [MaxInt, 1] ≠ ([MaxInt, 1] : List Int).sum ∧
    opProduct [2 ^ 62, 2] = -2 ^ 63 ∧ ([2 ^ 62, 2] : List Int).prod = 2 ^ 63 ∧
    opProduct [2 ^ 62, 2] ≠ ([2 ^ 62, 2] : List Int).prod := by
  refine ⟨by decide, by decide, by decide, by decide, by decide, by decide⟩

/-- C11 (amended): `ops[TypeSum](v)` is the sum of `v` and `ops[TypeProduct](v)`
the product of `v`, reduced modulo `2^64` into the range of `int` (0 and 1 on
the empty list), hence the exact sum or product whenever that lies in the
range; on a non-empty list of `int` values `ops[TypeMinimum]` returns an
element that is at most every element. -/
theorem ops_reference :
    (∀ v : List Int, applyOp TypeSum v = .ret (opSum v) none ∧ opSum v = wrap64 v.sum) ∧
    (∀ v : List Int, -2 ^ 63 ≤ v.sum → v.sum < 2 ^ 63 → opSum v = v.sum) ∧
    opSum [] = 0 ∧
    (∀ v : List Int, applyOp TypeProduct v = .ret (opProduct v) none ∧
      opProduct v = wrap64 v.prod) ∧
    (∀ v : List Int, -2 ^ 63 ≤ v.prod → v.prod < 2 ^ 63 → opProduct v = v.prod) ∧
    opProduct [] = 1 ∧
    (∀ v : List Int, v ≠ [] → (∀ x ∈ v, x ≤ MaxInt) →
      applyOp TypeMinimum v = .ret (opMinimum v) none ∧
      opMinimum v ∈ v ∧ ∀ x ∈ v, opMinimum v ≤ x) := by
  refine ⟨fun v => ⟨rfl, opSum_eq v⟩, ?_, rfl, fun v => ⟨rfl, opProduct_eq v⟩, ?_, rfl, ?_⟩
  · intro v h0 h1
    rw [opSum_eq, wrap64_of_range _ h0 h1]
  · intro v h0 h1
    rw [opProduct_eq, wrap64_of_range _ h0 h1]
  · intro v hv hr
    obtain ⟨h1, _, h3⟩ := foldl_min v MaxInt
    refine ⟨rfl, ?_, h3⟩
    rcases h1 with h1 | h1
    · obtain ⟨y, hy⟩ := List.exists_mem_of_ne_nil v hv
      have ha := h3 y hy
      have hb := hr y hy
      have : y = opMinimum v := by
        unfold opMinimum
        omega
      rw [← this]; exact hy
    · exact h1

/-- C13: on a sequence of exactly two integers, `ops[TypeGreaterThan]`,
`ops[TypeLessThan]` and `ops[TypeEqualTo]` return 1 when `v[0] > v[1]`,
`v[0] < v[1]`, `v[0] == v[1]` respectively and 0 otherwise, so exactly one of
the three returns 1. -/
theorem ops_comparison (a b : Int) :
    applyOp TypeGreaterThan [a, b] = .ret (if a > b then 1 else 0) none ∧
    applyOp TypeLessThan [a, b] = .ret (if a < b then 1 else 0) none ∧
    applyOp TypeEqualTo [a, b] = .ret (if a = b then 1 else 0) none ∧
    opGreaterThan [a, b] = some (if a > b then 1 else 0) ∧
    opLessThan [a, b] = some (if a < b then 1 else 0) ∧
    opEqualTo [a, b] = some (if a = b then 1 else 0) ∧
    ((opGreaterThan [a, b] = some 1 ∧ opLessThan [a, b] = some 0 ∧ opEqualTo [a, b] = some 0) ∨
     (opGreaterThan [a, b] = some 0 ∧ opLessThan [a, b] = some 1 ∧ opEqualTo [a, b] = some 0) ∨
     (opGreaterThan [a, b] = some 0 ∧ opLessThan [a, b] = some 0 ∧
       opEqualTo [a, b] = some 1)) := by
  refine ⟨rfl, rfl, rfl, rfl, rfl, rfl, ?_⟩
  rcases lt_trichotomy a b with h | h | h
  · right; left
    simp [opGreaterThan, opLessThan, opEqualTo, h, not_lt.mpr (le_of_lt h), ne_of_lt h]
  · right; right
    simp [opGreaterThan, opLessThan, opEqualTo, h]
  · left
    simp [opGreaterThan, opLessThan, opEqualTo, h, not_lt.mpr (le_of_lt h), ne_of_gt h]

/-- C16: `ops[TypeMaximum]` starts from 0. Its result is the larger of 0 and
the largest element: it is at least 0 and at least every element, and it is 0
or an element. So it is the largest element when the list has a non-negative
element, and it is 0, which is not an element, when the list is non-empty and
all its elements are negative. -/
theorem opMaximum_from_zero (v : List Int) :
    applyOp TypeMaximum v = .ret (opMaximum v) none ∧
    0 ≤ opMaximum v ∧ (∀ x ∈ v, x ≤ opMaximum v) ∧ (opMaximum v = 0 ∨ opMaximum v ∈ v) ∧
    (v = [] → opMaximum v = 0) ∧
    ((∃ x ∈ v, 0 ≤ x) → opMaximum v ∈ v ∧ ∀ x ∈ v, x ≤ opMaximum v) ∧
    (v ≠ [] → (∀ x ∈ v, x < 0) → opMaximum v = 0 ∧ (0 : Int) ∉ v) := by
  obtain ⟨h1, h2, h3⟩ := foldl_max v 0
  refine ⟨rfl, h2, h3, h1, ?_, ?_, ?_⟩
  · intro hv; subst hv; rfl
  · rintro ⟨x, hx, hx0⟩
    refine ⟨?_, h3⟩
    rcases h1 with h1 | h1
    · have ha := h3 x hx
      have : x = opMaximum v := by
        unfold opMaximum
        omega
      rw [← this]; exact hx
    · exact h1
  · intro hv hneg
    have hnot : (0 : Int) ∉ v := fun h0 => by
      have := hneg 0 h0
      omega
    refine ⟨?_, hnot⟩
    rcases h1 with h1 | h1
    · exact h1
    · have := hneg _ h1
      have h2b : 0 ≤ opMaximum v := h2
      unfold opMaximum at this h2b
      omega

/-- The single-element identities that hold: sum, product and minimum of `[x]`
for an `int` value `x`, maximum of `[x]` for `x ≥ 0`. -/
theorem single_element_holds :
    (∀ x : Int, -2 ^ 63 ≤ x → x < 2 ^ 63 →
      opSum [x] = x ∧ opProduct [x] = x ∧ opMinimum [x] = x) ∧
    (∀ x : Int, 0 ≤ x → opMaximum [x] = x) := by
  constructor
  · intro x h0 h1
    refine ⟨?_, ?_, ?_⟩
    · rw [opSum_eq, List.sum_singleton, wrap64_of_range _ h0 h1]
    · rw [opProduct_eq, List.prod_singleton, wrap64_of_range _ h0 h1]
    · unfold opMinimum MaxInt
      rw [List.foldl_cons, List.foldl_nil]
      split <;> omega
  · intro x h0
    unfold opMaximum
    rw [List.foldl_cons, List.foldl_nil]
    split <;> omega

/-- C12 (violated by the code): `ops[TypeMaximum]` on the one-element sequence
`[-1]` returns 0, not `-1`. -/
theorem opMaximum_single_negative :
    applyOp TypeMaximum [-1] = .ret 0 none ∧ opMaximum [-1] = 0 ∧ opMaximum [-1] ≠ -1 ∧
    opMinimum [-1] = -1 := by
  refine ⟨by decide, by decide, by decide, by decide⟩

/-! ## Outcomes of `readPacket` -/

/-- A field of at most 63 bits read by `readBits` is in `[0, 2^n)`. -/
theorem readBits_range (n : Nat) (r r1 : bitReader) (v : Int) (hn : n ≤ 63)
    (h : readBits n r = (.ret v none, r1)) : 0 ≤ v ∧ v < 2 ^ n := by
  obtain ⟨hl, hv, _, _⟩ := readBits_success n r r1 v h
  have hlen : ((unread r).take n).length = n := by
    rw [List.length_take]; omega
  have hlt := ofBits_lt ((unread r).take n)
  rw [hlen] at hlt
  rw [wrap64_ofBits _ (by omega)] at hv
  rw [hv]
  constructor
  · exact Int.ofNat_nonneg _
  · exact_mod_cast hlt

/-- The operator step for an operator type code: it returns a value, or it is
a comparison of fewer than two operands and panics. -/
theorem applyOp_cases (t : Int) (vs : List Int) (h0 : 0 ≤ t) (h8 : t < 8)
    (h4 : t ≠ TypeLiteral) :
    (∃ v, applyOp t vs = .ret v none) ∨ (applyOp t vs = .panic ∧ 5 ≤ t ∧ vs.length < 2) := by
  have hcmp : vs.length < 2 ∨ ∃ a b rest, vs = a :: b :: rest := by
    match vs with
    | [] => left; simp
    | [_] => left; simp
    | a :: b :: rest => right; exact ⟨a, b, rest, rfl⟩
  interval_cases t
  · exact Or.inl ⟨_, rfl⟩
  · exact Or.inl ⟨_, rfl⟩
  · exact Or.inl ⟨_, rfl⟩
  · exact Or.inl ⟨_, rfl⟩
  · exact absurd rfl h4
  · rcases hcmp with hl | ⟨a, b, rest, rfl⟩
    · right
      refine ⟨?_, by omega, hl⟩
      match vs, hl with
      | [], _ => rfl
      | [_], _ => rfl
    · exact Or.inl ⟨if a > b then 1 else 0, by
        simp [applyOp, ops, TypeSum, TypeProduct, TypeMinimum, TypeMaximum, TypeLiteral,
          TypeGreaterThan, TypeLessThan, TypeEqualTo, opGreaterThan]⟩
  · rcases hcmp with hl | ⟨a, b, rest, rfl⟩
    · right
      refine ⟨?_, by omega, hl⟩
      match vs, hl with
      | [], _ => rfl
      | [_], _ => rfl
    · exact Or.inl ⟨if a < b then 1 else 0, by
        simp [applyOp, ops, TypeSum, TypeProduct, TypeMinimum, TypeMaximum, TypeLiteral,
          TypeGreaterThan, TypeLessThan, TypeEqualTo, opLessThan]⟩
  · rcases hcmp with hl | ⟨a, b, rest, rfl⟩
    · right
      refine ⟨?_, by omega, hl⟩
      match vs, hl with
      | [], _ => rfl
      | [_], _ => rfl
    · exact Or.inl ⟨if a = b then 1 else 0, by
        simp [applyOp, ops, TypeSum, TypeProduct, TypeMinimum, TypeMaximum, TypeLiteral,
          TypeGreaterThan, TypeLessThan, TypeEqualTo, opEqualTo]⟩

/-- The loop of `readLiteral` returns a value or `(0, io.EOF)`; it never panics. -/
theorem readLiteralLoop_outcome : ∀ (fuel : Nat) (val : Int) (r r1 : bitReader) (o : Outcome),
    readLiteralLoop fuel val r = some (o, r1) →
      (∃ v, o = .ret v none) ∨ o = .ret 0 (some .eof) := by
  intro fuel
  induction fuel with
  | zero => intro val r r1 o h; simp [readLiteralLoop] at h
  | succ fuel ih =>
    intro val r r1 o h
    rw [readLiteralLoop] at h
    rcases readBits_cases 5 r with ⟨r2, hb, _, _, _⟩ | ⟨r2, hb, _, _, _⟩
    · rw [hb] at h
      simp only [] at h
      split at h
      · exact ih _ _ _ _ h
      · simp only [Option.some.injEq, Prod.mk.injEq] at h
        left; exact ⟨_, h.1.symm⟩
    · rw [hb] at h
      simp only [Option.some.injEq, Prod.mk.injEq] at h
      right; exact h.1.symm

theorem countLoop_leave_error (rp : bitReader → Option (Outcome × bitReader))
    (hrp : ∀ r v e r1, rp r = some (.ret v (some e), r1) → e.rootCause = .eof) :
    ∀ (n : Nat) (r : bitReader) (acc : List Int) (v : Int) (e : Error) (r1 : bitReader),
      countLoop rp n r acc = some (.leave (.ret v (some e)) r1) →
        v = 0 ∧ e.rootCause = .eof := by
  intro n
  induction n with
  | zero => intro r acc v e r1 h; simp [countLoop] at h
  | succ n ih =>
    intro r acc v e r1 h
    rw [countLoop] at h
    cases hq : rp r with
    | none => rw [hq] at h; exact absurd h (by simp)
    | some x =>
      rw [hq] at h
      obtain ⟨o2, r2⟩ := x
      cases o2 with
      | panic => simp at h
      | ret w err =>
        cases err with
        | some e1 =>
          simp only [Option.some.injEq, LoopEnd.leave.injEq, Outcome.ret.injEq,
            Option.some.injEq] at h
          obtain ⟨⟨h1, h2⟩, _⟩ := h
          refine ⟨h1.symm, ?_⟩
          rw [← h2]
          exact (hrp _ _ _ _ hq : e1.rootCause = .eof)
        | none => exact ih _ _ _ _ _ h

theorem lengthLoop_leave_error (rp : bitReader → Option (Outcome × bitReader))
    (hrp : ∀ r v e r1, rp r = some (.ret v (some e), r1) → e.rootCause = .eof) :
    ∀ (fuel : Nat) (limit : Int) (r : bitReader) (acc : List Int) (v : Int) (e : Error)
      (r1 : bitReader),
      lengthLoop rp fuel limit r acc = some (.leave (.ret v (some e)) r1) →
        v = 0 ∧ e.rootCause = .eof := by
  intro fuel
  induction fuel with
  | zero =>
    intro limit r acc v e r1 h
    simp only [lengthLoop] at h
    split at h <;> simp at h
  | succ fuel ih =>
    intro limit r acc v e r1 h
    rw [lengthLoop] at h
    by_cases hc : r.offset < limit
    · rw [if_pos hc] at h
      cases hq : rp r with
      | none => rw [hq] at h; exact absurd h (by simp)
      | some x =>
        rw [hq] at h
        obtain ⟨o2, r2⟩ := x
        cases o2 with
        | panic => simp at h
        | ret w err =>
          cases err with
          | some e1 =>
            simp only [Option.some.injEq, LoopEnd.leave.injEq, Outcome.ret.injEq,
              Option.some.injEq] at h
            obtain ⟨⟨h1, h2⟩, _⟩ := h
            refine ⟨h1.symm, ?_⟩
            rw [← h2]
            exact (hrp _ _ _ _ hq : e1.rootCause = .eof)
          | none => exact ih _ _ _ _ _ _ h
    · rw [if_neg hc] at h
      simp at h

theorem finish_error (packetType : Int) (l : Option LoopEnd) (v : Int) (e : Error)
    (r1 : bitReader) (h0 : 0 ≤ packetType) (h8 : packetType < 8) (h4 : packetType ≠ TypeLiteral)
    (hl : ∀ w e2 r2, l = some (.leave (.ret w (some e2)) r2) → w = 0 ∧ e2.rootCause = .eof)
    (h : finish packetType l = some (.ret v (some e), r1)) : v = 0 ∧ e.rootCause = .eof := by
  cases l with
  | none => simp [finish] at h
  | some x =>
    cases x with
    | leave o r2 =>
      simp only [finish, Option.some.injEq, Prod.mk.injEq] at h
      obtain ⟨rfl, rfl⟩ := h
      exact hl _ _ _ rfl
    | done vs r2 =>
      simp only [finish, Option.some.injEq, Prod.mk.injEq] at h
      rcases applyOp_cases packetType vs h0 h8 h4 with ⟨w, hw⟩ | ⟨hp, _, _⟩
      · rw [hw] at h; simp at h
      · rw [hp] at h; simp at h

/-- Every error `readPacket` returns comes with the value 0 and has `io.EOF`
as its root cause. -/
theorem readPacket_error_eof : ∀ (fuel : Nat) (r r1 : bitReader) (v : Int) (e : Error),
    readPacket fuel r = some (.ret v (some e), r1) → v = 0 ∧ e.rootCause = .eof := by
  intro fuel
  induction fuel with
  | zero => intro r r1 v e h; simp [readPacket] at h
  | succ fuel ih =>
    intro r r1 v e h
    rw [readPacket] at h
    rcases readBits_cases 3 r with ⟨ra, ha, _, _, _⟩ | ⟨ra, ha, _, _, _⟩
    swap
    · rw [ha] at h
      simp only [Option.some.injEq, Prod.mk.injEq, Outcome.ret.injEq, Option.some.injEq] at h
      obtain ⟨⟨h1, h2⟩, _⟩ := h
      exact ⟨h1.symm, by rw [← h2]; rfl⟩
    rw [ha] at h
    simp only [] at h
    rcases readBits_cases 3 ra with ⟨rb, hb, _, _, _⟩ | ⟨rb, hb, _, _, _⟩
    swap
    · rw [hb] at h
      simp only [Option.some.injEq, Prod.mk.injEq, Outcome.ret.injEq, Option.some.injEq] at h
      obtain ⟨⟨h1, h2⟩, _⟩ := h
      exact ⟨h1.symm, by rw [← h2]; rfl⟩
    obtain ⟨ht0, ht8⟩ := readBits_range 3 ra rb _ (by omega) hb
    rw [hb] at h
    simp only [] at h
    split at h
    · cases hq : readLiteral fuel rb with
      | none => rw [hq] at h; exact absurd h (by simp)
      | some x =>
        rw [hq] at h
        obtain ⟨o, r2⟩ := x
        rcases readLiteralLoop_outcome fuel 0 rb r2 o hq with ⟨w, rfl⟩ | rfl
        · simp at h
        · simp only [Option.some.injEq, Prod.mk.injEq, Outcome.ret.injEq,
            Option.some.injEq] at h
          obtain ⟨⟨h1, h2⟩, _⟩ := h
          exact ⟨h1.symm, by rw [← h2]; rfl⟩
    · next ht =>
      rcases readBits_cases 1 rb with ⟨rc, hc, hc1, _, _⟩ | ⟨rc, hc, _, _, _⟩
      swap
      · rw [hc] at h
        simp only [Option.some.injEq, Prod.mk.injEq, Outcome.ret.injEq, Option.some.injEq] at h
        obtain ⟨⟨h1, h2⟩, _⟩ := h
        exact ⟨h1.symm, by rw [← h2]; rfl⟩
      rw [hc] at h
      simp only [] at h
      have hrp : ∀ r v e r1, readPacket fuel r = some (.ret v (some e), r1) →
          e.rootCause = .eof := fun r v e r1 hh => (ih r r1 v e hh).2
      split at h
      · rcases readBits_cases 11 rc with ⟨rd, hd, _, _, _⟩ | ⟨rd, hd, _, _, _⟩
        swap
        · rw [hd] at h
          simp only [Option.some.injEq, Prod.mk.injEq, Outcome.ret.injEq,
            Option.some.injEq] at h
          obtain ⟨⟨h1, h2⟩, _⟩ := h
          exact ⟨h1.symm, by rw [← h2]; rfl⟩
        rw [hd] at h
        simp only [] at h
        exact finish_error _ _ v e r1 ht0 (by simpa using ht8) ht
          (fun w e2 r2 hl => countLoop_leave_error _ hrp _ _ _ _ _ _ hl) h
      · split at h
        · rcases readBits_cases 15 rc with ⟨rd, hd, _, _, _⟩ | ⟨rd, hd, _, _, _⟩
          swap
          · rw [hd] at h
            simp only [Option.some.injEq, Prod.mk.injEq, Outcome.ret.injEq,
              Option.some.injEq] at h
            obtain ⟨⟨h1, h2⟩, _⟩ := h
            exact ⟨h1.symm, by rw [← h2]; rfl⟩
          rw [hd] at h
          simp only [] at h
          exact finish_error _ _ v e r1 ht0 (by simpa using ht8) ht
            (fun w e2 r2 hl => lengthLoop_leave_error _ hrp _ _ _ _ _ _ _ hl) h
        · next n1 n0 =>
          rcases wrap64_ofBits_take_one _ hc1 with h0 | h1
          · exact absurd h0 n0
          · exact absurd h1 n1

/-- C15: operator lookup is total. The type code `readPacket` reads is in
`0..7`, every such index is inside the array `ops`, and every code other than
the literal code has a non-nil entry; so no error returned by `readPacket` is
the unknown-operator error: every error has `io.EOF` as its root cause. -/
theorem ops_lookup_total :
    (∀ (r r1 : bitReader) (v : Int), readBits 3 r = (.ret v none, r1) → 0 ≤ v ∧ v < 8) ∧
    (∀ t : Int, 0 ≤ t → t < 8 → ∃ entry, ops t = some entry) ∧
    (∀ t : Int, 0 ≤ t → t < 8 → t ≠ TypeLiteral → ∃ op, ops t = some (some op)) ∧
    (∀ (fuel : Nat) (r r1 : bitReader) (v : Int) (e : Error),
      readPacket fuel r = some (.ret v (some e), r1) →
        e.rootCause = .eof ∧ ∀ t, e ≠ .opNotFound t) := by
  refine ⟨?_, ?_, ?_, ?_⟩
  · intro r r1 v h
    have := readBits_range 3 r r1 v (by omega) h
    simpa using this
  · intro t h0 h8
    interval_cases t <;> exact ⟨_, rfl⟩
  · intro t h0 h8 h4
    interval_cases t
    · exact ⟨_, rfl⟩
    · exact ⟨_, rfl⟩
    · exact ⟨_, rfl⟩
    · exact ⟨_, rfl⟩
    · exact absurd rfl h4
    · exact ⟨_, rfl⟩
    · exact ⟨_, rfl⟩
    · exact ⟨_, rfl⟩
  · intro fuel r r1 v e h
    have he := (readPacket_error_eof fuel r r1 v e h).2
    refine ⟨he, ?_⟩
    intro t ht
    rw [ht] at he
    simp [Error.rootCause] at he

/-! ## Arity of the comparison operators -/

/-- A comparison applied to fewer than two values panics; applied to two or
more it returns 0 or 1. -/
theorem applyOp_comparison (t : Nat) (vs : List Int) (h5 : 5 ≤ t) (h8 : t < 8) :
    (vs.length < 2 → applyOp (t : Int) vs = .panic) ∧
    (2 ≤ vs.length → ∃ res, applyOp (t : Int) vs = .ret res none ∧ (res = 0 ∨ res = 1)) := by
  constructor
  · intro hl
    rcases applyOp_cases (t : Int) vs (by omega) (by omega) (by unfold TypeLiteral; omega)
      with ⟨v, hv⟩ | ⟨hp, _, _⟩
    · exfalso
      interval_cases t
      · match vs, hl with
        | [], _ => simp [applyOp, ops, TypeSum, TypeProduct, TypeMinimum, TypeMaximum,
            TypeLiteral, TypeGreaterThan, opGreaterThan] at hv
        | [_], _ => simp [applyOp, ops, TypeSum, TypeProduct, TypeMinimum, TypeMaximum,
            TypeLiteral, TypeGreaterThan, opGreaterThan] at hv
      · match vs, hl with
        | [], _ => simp [applyOp, ops, TypeSum, TypeProduct, TypeMinimum, TypeMaximum,
            TypeLiteral, TypeGreaterThan, TypeLessThan, opLessThan] at hv
        | [_], _ => simp [applyOp, ops, TypeSum, TypeProduct, TypeMinimum, TypeMaximum,
            TypeLiteral, TypeGreaterThan, TypeLessThan, opLessThan] at hv
      · match vs, hl with
        | [], _ => simp [applyOp, ops, TypeSum, TypeProduct, TypeMinimum, TypeMaximum,
            TypeLiteral, TypeGreaterThan, TypeLessThan, TypeEqualTo, opEqualTo] at hv
        | [_], _ => simp [applyOp, ops, TypeSum, TypeProduct, TypeMinimum, TypeMaximum,
            TypeLiteral, TypeGreaterThan, TypeLessThan, TypeEqualTo, opEqualTo] at hv
    · exact hp
  · intro hl
    obtain ⟨a, b, rest, rfl⟩ : ∃ a b rest, vs = a :: b :: rest := by
      match vs, hl with
      | a :: b :: rest, _ => exact ⟨a, b, rest, rfl⟩
    interval_cases t
    · refine ⟨if a > b then 1 else 0, ?_, ?_⟩
      · simp [applyOp, ops, TypeSum, TypeProduct, TypeMinimum, TypeMaximum, TypeLiteral,
          TypeGreaterThan, opGreaterThan]
      · split <;> simp
    · refine ⟨if a < b then 1 else 0, ?_, ?_⟩
      · simp [applyOp, ops, TypeSum, TypeProduct, TypeMinimum, TypeMaximum, TypeLiteral,
          TypeGreaterThan, TypeLessThan, opLessThan]
      · split <;> simp
    · refine ⟨if a = b then 1 else 0, ?_, ?_⟩
      · simp [applyOp, ops, TypeSum, TypeProduct, TypeMinimum, TypeMaximum, TypeLiteral,
          TypeGreaterThan, TypeLessThan, TypeEqualTo, opEqualTo]
      · split <;> simp

set_option maxRecDepth 100000 in
/-- C14 (as stated, refuted): on the bytes `16 00 00`, a greater-than packet in
count mode with count 0, `readPacket` applies the operator to the empty
sequence and aborts with the index-out-of-range panic. -/
theorem comparison_arity_counterexample :
    unread (fresh comparisonNoOperand) =
      encCount [false, false, false] 5 [] ++ [false, false, false, false, false, false] ∧
    readPacket 2 (fresh comparisonNoOperand) = some (.panic, ⟨[], 0x00, 6, 18⟩) ∧
    applyOp TypeGreaterThan [] = .panic ∧ opGreaterThan [] = none := by
  refine ⟨by decide, by decide, by decide, by decide⟩

/-- C14 (amended): a comparison packet (type code 5, 6 or 7) with `k`
sub-packets, in count mode or in length mode, applies its operator to exactly
the `k` sub-packet values. With `k = 2` the sequence has exactly two elements,
`v[0]` and `v[1]` are in bounds and the packet returns 0 or 1; with `k < 2`
`readPacket` aborts with the index-out-of-range panic. -/
theorem comparison_arity (t : Nat) (ver : List Bool) (subs : List (List Bool × Int))
    (h5 : 5 ≤ t) (h8 : t < 8) (hver : ver.length = 3) (hk : subs.length < 2 ^ 11)
    (hL : (concatBits (subs.map Prod.fst)).length < 2 ^ 15)
    (hsub : ∀ p ∈ subs, Decodes p.1 p.2) (rc rl : bitReader) (tc tl : List Bool)
    (huc : unread rc = encCount ver t (subs.map Prod.fst) ++ tc)
    (hul : unread rl = encLength ver t (subs.map Prod.fst) ++ tl) :
    ∃ fuel0 c1 l1,
      (∀ fuel, fuel0 ≤ fuel →
        readPacket (fuel + 1) rc = some (applyOp (t : Int) (subs.map Prod.snd), c1) ∧
        readPacket (fuel + 1) rl = some (applyOp (t : Int) (subs.map Prod.snd), l1)) ∧
      (subs.map Prod.snd).length = subs.length ∧
      (subs.length = 2 → ∃ res, applyOp (t : Int) (subs.map Prod.snd) = .ret res none ∧
        (res = 0 ∨ res = 1)) ∧
      (subs.length < 2 → applyOp (t : Int) (subs.map Prod.snd) = .panic) := by
  obtain ⟨fc, c4, c1, hc, _, _, _⟩ :=
    readPacket_count_aux t ver subs h8 (by omega) hver hk hsub rc tc huc
  obtain ⟨fl, l4, l1, hl, _, _, _⟩ :=
    readPacket_length_aux t ver subs h8 (by omega) hver hL hsub rl tl hul
  obtain ⟨hp, hr⟩ := applyOp_comparison t (subs.map Prod.snd) h5 h8
  refine ⟨max fc fl, c1, l1, ?_, by simp, ?_, ?_⟩
  · intro fuel hf
    exact ⟨(hc fuel (le_trans (le_max_left _ _) hf)).2,
      (hl fuel (le_trans (le_max_right _ _) hf)).2⟩
  · intro h2
    exact hr (by rw [List.length_map]; omega)
  · intro h2
    exact hp (by rw [List.length_map]; omega)

/-- C14, at a concrete input: the literals 1 and 2 under the greater-than
operator, as `D600B40A82` (count mode) and `D4005B40A820` (length mode). -/
theorem comparison_arity_witness :
    5 ≤ 5 ∧ 5 < 8 ∧ [true, true, false].length = 3 ∧ sumSubs.length < 2 ^ 11 ∧
    (concatBits (sumSubs.map Prod.fst)).length < 2 ^ 15 ∧
    (∀ p ∈ sumSubs, Decodes p.1 p.2) ∧
    unread (fresh hexD600B40A82) =
      encCount [true, true, false] 5 (sumSubs.map Prod.fst) ++ [] ∧
    unread (fresh hexD4005B40A820) =
      encLength [true, true, false] 5 (sumSubs.map Prod.fst) ++ [false, false, false, false] ∧
    ∃ fuel0 c1 l1,
      (∀ fuel, fuel0 ≤ fuel →
        readPacket (fuel + 1) (fresh hexD600B40A82) =
          some (applyOp ((5 : Nat) : Int) (sumSubs.map Prod.snd), c1) ∧
        readPacket (fuel + 1) (fresh hexD4005B40A820) =
          some (applyOp ((5 : Nat) : Int) (sumSubs.map Prod.snd), l1)) ∧
      (sumSubs.map Prod.snd).length = sumSubs.length ∧
      (sumSubs.length = 2 → ∃ res, applyOp ((5 : Nat) : Int) (sumSubs.map Prod.snd) =
        .ret res none ∧ (res = 0 ∨ res = 1)) ∧
      (sumSubs.length < 2 → applyOp ((5 : Nat) : Int) (sumSubs.map Prod.snd) = .panic) := by
  have hs : ∀ p ∈ sumSubs, Decodes p.1 p.2 := by
    intro p hp
    simp only [sumSubs, List.mem_cons, List.mem_singleton, List.not_mem_nil, or_false] at hp
    rcases hp with rfl | rfl
    · exact decodes_literal [true, true, false] 1 1 rfl (by decide) (by decide) (by decide)
    · exact decodes_literal [false, true, false] 1 2 rfl (by decide) (by decide) (by decide)
  exact ⟨by decide, by decide, rfl, by decide, by decide, hs, by decide, by decide,
    comparison_arity 5 [true, true, false] sumSubs (by decide) (by decide) rfl (by decide)
      (by decide) hs (fresh hexD600B40A82) (fresh hexD4005B40A820) []
      [false, false, false, false] (by decide) (by decide)⟩

/-! ## Literals of any width -/

/-- The accumulator step of `readLiteral`, with wrap-around. -/
theorem literal_step_wrap (V : Int) (d : Nat) (c : Bool) (hd : d < 16) :
    Int.lor (shl (wrap64 V) 4) (Int.land ((16 * c.toNat + d : Nat) : Int) 0b01111) =
      wrap64 (V * 16 + (d : Int)) := by
  rw [(group_land c ⟨d, hd⟩).2]
  have hs : shl (wrap64 V) 4 = wrap64 (V * 16) := by
    unfold shl wrap64; omega
  have hdv : wrap64 (V * 16) % 2 ^ 4 = 0 := by
    unfold wrap64; omega
  have hdi : ((d : Nat) : Int) < 2 ^ 4 := by
    have : (d : Int) < 16 := by exact_mod_cast hd
    omega
  rw [hs, lor_of_dvd 4 _ _ hdv (Int.ofNat_nonneg _) hdi]
  unfold wrap64; omega

/-- The loop of `readLiteral` on an encoded literal of any width: the value is
reduced modulo `2^64`. -/
theorem readLiteralLoop_enc_wrap : ∀ (k fuel : Nat) (V : Int) (x : Nat) (r : bitReader)
    (rest : List Bool), k < fuel → unread r = encLiteral (k + 1) x ++ rest →
    ∃ r1, readLiteralLoop fuel (wrap64 V) r =
        some (.ret (wrap64 (V * 16 ^ (k + 1) + ((x % 16 ^ (k + 1) : Nat) : Int))) none, r1) ∧
      unread r1 = rest ∧ r1.offset = r.offset + 5 * ((k : Int) + 1) := by
  intro k
  induction k with
  | zero =>
    intro fuel V x r rest hf hu
    obtain ⟨f, rfl⟩ : ∃ f, fuel = f + 1 := ⟨fuel - 1, by omega⟩
    have hd : x / 16 ^ 0 % 16 < 16 := Nat.mod_lt _ (by norm_num)
    simp only [encLiteral, List.append_nil, List.cons_append] at hu
    obtain ⟨r1, h1, h2, h3⟩ := readBits_group r false _ hd rest (by rw [hu]; simp)
    refine ⟨r1, ?_, h2, by rw [h3]; simp⟩
    rw [readLiteralLoop, h1]
    simp only []
    rw [(group_land _ ⟨_, hd⟩).1, literal_step_wrap V _ _ hd]
    simp only [Bool.false_eq_true, if_false, pow_zero, Nat.div_one, zero_add, pow_one]
  | succ k ih =>
    intro fuel V x r rest hf hu
    obtain ⟨f, rfl⟩ : ∃ f, fuel = f + 1 := ⟨fuel - 1, by omega⟩
    have hd : x / 16 ^ (k + 1) % 16 < 16 := Nat.mod_lt _ (by norm_num)
    rw [encLiteral] at hu
    simp only [List.cons_append, List.append_assoc] at hu
    obtain ⟨r1, h1, h2, h3⟩ := readBits_group r true _ hd (encLiteral (k + 1) x ++ rest)
      (by rw [hu]; simp)
    obtain ⟨r2, g1, g2, g3⟩ := ih f (V * 16 + ((x / 16 ^ (k + 1) % 16 : Nat) : Int)) x r1 rest
      (by omega) h2
    refine ⟨r2, ?_, g2, by rw [g3, h3]; push_cast; ring⟩
    rw [readLiteralLoop, h1]
    simp only []
    rw [(group_land _ ⟨_, hd⟩).1, literal_step_wrap V _ _ hd]
    simp only [if_true]
    rw [g1]
    have hsp : (V * 16 + ((x / 16 ^ (k + 1) % 16 : Nat) : Int)) * 16 ^ (k + 1) +
        ((x % 16 ^ (k + 1) : Nat) : Int) =
        V * 16 ^ (k + 1 + 1) + ((x % 16 ^ (k + 1 + 1) : Nat) : Int) := by
      rw [Nat.mod_pow_succ (b := 16) (k := k + 1)]
      push_cast
      ring
    rw [hsp]

theorem word_split (w : Nat) (hw : w < 32) :
    w = 16 * (decide (16 ≤ w)).toNat + w % 16 := by
  by_cases h : 16 ≤ w
  · simp [h]; omega
  · simp [h]; omega

/-- What a successful `readLiteral` loop returns: after `k ≥ 1` groups, the
accumulator extended by a `4k`-bit payload, reduced modulo `2^64`. -/
theorem readLiteralLoop_value : ∀ (fuel : Nat) (V : Int) (r r1 : bitReader) (v : Int),
    readLiteralLoop fuel (wrap64 V) r = some (.ret v none, r1) →
    ∃ (k U : Nat), 1 ≤ k ∧ U < 16 ^ k ∧ r1.offset = r.offset + 5 * (k : Int) ∧
      v = wrap64 (V * 16 ^ k + (U : Int)) := by
  intro fuel
  induction fuel with
  | zero => intro V r r1 v h; simp [readLiteralLoop] at h
  | succ fuel ih =>
    intro V r r1 v h
    rw [readLiteralLoop] at h
    rcases readBits_cases 5 r with ⟨ra, ha, hn, _, hoa⟩ | ⟨ra, ha, _, _, _⟩
    swap
    · rw [ha] at h; simp at h
    have hlen : ((unread r).take 5).length = 5 := by rw [List.length_take]; omega
    have hlt := ofBits_lt ((unread r).take 5)
    rw [hlen] at hlt
    rw [wrap64_ofBits _ (by omega)] at ha
    have hw := word_split (ofBits ((unread r).take 5)) (by simpa using hlt)
    have hd : ofBits ((unread r).take 5) % 16 < 16 := Nat.mod_lt _ (by norm_num)
    rw [hw] at ha
    rw [ha] at h
    simp only [] at h
    rw [(group_land _ ⟨_, hd⟩).1, literal_step_wrap V _ _ hd] at h
    split at h
    · obtain ⟨k, U, hk, hU, ho, hv⟩ := ih _ _ _ _ h
      refine ⟨k + 1, ofBits ((unread r).take 5) % 16 * 16 ^ k + U, by omega, ?_, ?_, ?_⟩
      · have : ofBits ((unread r).take 5) % 16 * 16 ^ k ≤ 15 * 16 ^ k :=
          Nat.mul_le_mul_right _ (by omega)
        rw [pow_succ]; omega
      · rw [ho, hoa]; push_cast; ring
      · rw [hv]; congr 1; push_cast; ring
    · simp only [Option.some.injEq, Prod.mk.injEq, Outcome.ret.injEq, and_true] at h
      obtain ⟨hv, hr⟩ := h
      refine ⟨1, ofBits ((unread r).take 5) % 16, le_refl _, by simpa using hd, ?_, ?_⟩
      · rw [← hr, hoa]; simp
      · rw [← hv]; simp

/-- A literal packet of `k` groups of any width decodes, from any offset, to
its payload reduced modulo `2^64`. -/
theorem decodes_literal_wrap (ver : List Bool) (k x : Nat) (hver : ver.length = 3)
    (hk : 1 ≤ k) (hx : x < 16 ^ k) :
    Decodes (ver ++ ([true, false, false] ++ encLiteral k x)) (wrap64 (x : Int)) := by
  intro r tail hu
  obtain ⟨j, rfl⟩ : ∃ j, k = j + 1 := ⟨k - 1, by omega⟩
  have hu1 : unread r = ver ++ ([true, false, false] ++ (encLiteral (j + 1) x ++ tail)) := by
    rw [hu]; simp
  obtain ⟨ra, rb, ha, hb, hub, hob⟩ := readBits_header r ver [true, false, false] _ hver rfl hu1
  have h4 : ((ofBits [true, false, false] : Nat) : Int) = TypeLiteral := by decide
  rw [h4] at hb
  have h0 : wrap64 0 = 0 := by decide
  obtain ⟨r1, h1, h2, h3⟩ := readLiteralLoop_enc_wrap j (j + 1) 0 x rb tail (by omega) hub
  rw [h0, zero_mul, zero_add, Nat.mod_eq_of_lt hx] at h1
  have hl : readLiteral (j + 1) rb = some (.ret (wrap64 (x : Int)) none, r1) := h1
  have hlen : ∀ n x, (encLiteral n x).length = 5 * n := by
    intro n x
    induction n with
    | zero => rfl
    | succ n ih => simp [encLiteral, nibbleBits, ih]; omega
  refine ⟨j + 2, r1, ?_, h2, ?_⟩
  · rw [readPacket, ha]
    simp only []
    rw [hb]
    simp only []
    rw [if_pos True.intro, hl]
  · rw [h3, hob]
    simp [hlen, hver]
    ring

set_option maxRecDepth 100000 in
/-- C17 (as stated, refuted): on sixteen groups whose payload bits are all 1
`readLiteral` succeeds and returns `-1`. -/
theorem readLiteral_nonneg_counterexample :
    unread (fresh literalAllOnes) = encLiteral 16 (2 ^ 64 - 1) ++ [] ∧
    ∃ r1, readLiteral 16 (fresh literalAllOnes) = some (.ret (-1) none, r1) ∧
      ¬ (0 : Int) ≤ -1 := by
  have hu : unread (fresh literalAllOnes) = encLiteral (15 + 1) (2 ^ 64 - 1) ++ [] := by decide
  have h0 : wrap64 0 = 0 := by decide
  have hv : wrap64 (0 * 16 ^ (15 + 1) + (((2 ^ 64 - 1) % 16 ^ (15 + 1) : Nat) : Int)) = -1 := by
    decide
  obtain ⟨r1, h1, _, _⟩ := readLiteralLoop_enc_wrap 15 16 0 (2 ^ 64 - 1) (fresh literalAllOnes) []
    (by decide) hu
  rw [h0, hv] at h1
  exact ⟨hu, r1, h1, by decide⟩

set_option maxRecDepth 100000 in
/-- The sequence `[-1]` reaches `ops[TypeMaximum]` from a message: on
`0E 00 44 FF .. FF EF`, a maximum packet whose only sub-packet is a literal of
value `-1`, `readPacket` returns 0. -/
theorem maximumOfNegative_eval :
    Decodes ([false, false, false] ++ ([true, false, false] ++ encLiteral 16 (2 ^ 64 - 1)))
      (-1) ∧
    ∃ fuel0 r1, ∀ fuel, fuel0 ≤ fuel →
      readPacket (fuel + 1) (fresh maximumOfNegative) = some (.ret 0 none, r1) := by
  have hw : wrap64 (((2 ^ 64 - 1 : Nat)) : Int) = -1 := by decide
  have hd := decodes_literal_wrap [false, false, false] 16 (2 ^ 64 - 1) rfl (by decide)
    (by decide)
  rw [hw] at hd
  refine ⟨hd, ?_⟩
  have hs : ∀ p ∈ [(([false, false, false] ++ ([true, false, false] ++
      encLiteral 16 (2 ^ 64 - 1)) : List Bool), (-1 : Int))], Decodes p.1 p.2 := by
    intro p hp
    simp only [List.mem_singleton] at hp
    subst hp
    exact hd
  obtain ⟨f0, r4, r1, hrun, _, _, _⟩ := readPacket_count_aux 3 [false, false, false]
    [(([false, false, false] ++ ([true, false, false] ++ encLiteral 16 (2 ^ 64 - 1))), (-1 : Int))]
    (by decide) (by decide) rfl (by decide) hs (fresh maximumOfNegative) [] (by decide)
  refine ⟨f0, r1, ?_⟩
  intro fuel hf
  have h2 := (hrun fuel hf).2
  have ha : applyOp ((3 : Nat) : Int) (List.map Prod.snd
      [(([false, false, false] ++ ([true, false, false] ++ encLiteral 16 (2 ^ 64 - 1))),
        (-1 : Int))]) = .ret 0 none := by decide
  rw [ha] at h2
  exact h2

/-! ## The buffer invariant -/

/-- One turn of the loop of `readBits` when bits of the current byte are left:
the source is not touched. -/
theorem readBitsLoop_buffered (n : Nat) (ret : Int) (r : bitReader) (hb : r.balance ≠ 0) :
    readBitsLoop (n + 1) ret r =
      readBitsLoop n (pushBit ret (bufBit r.buf r.balance))
        ⟨r.src, r.buf, r.balance - 1, r.offset + 1⟩ := by
  simp only [readBitsLoop, hb, if_false, readBitsStep, pushBit]

/-- One turn of the loop of `readBits` when no bit of the current byte is
left: exactly one byte is pulled. -/
theorem readBitsLoop_pull (n : Nat) (ret : Int) (r : bitReader) (b : Byte) (rest : List Byte)
    (hb : r.balance = 0) (hs : r.src = b :: rest) :
    readBitsLoop (n + 1) ret r =
      readBitsLoop n (pushBit ret (bufBit b 8)) ⟨rest, b, 7, r.offset + 1⟩ := by
  simp only [readBitsLoop, hb, hs, if_true, readBitsStep, pushBit]

theorem readBitsLoop_inv (bs : List Byte) : ∀ (n : Nat) (ret : Int) (r r1 : bitReader) (v : Int),
    Inv bs r → readBitsLoop n ret r = (.ret v none, r1) → Inv bs r1 := by
  intro n
  induction n with
  | zero =>
    intro ret r r1 v hi h
    simp only [readBitsLoop, Prod.mk.injEq] at h
    rw [← h.2]; exact hi
  | succ n ih =>
    intro ret r r1 v hi h
    obtain ⟨pulled, h1, h2, h3, h4⟩ := hi
    by_cases hb : r.balance = 0
    · cases hs : r.src with
      | nil =>
        simp [readBitsLoop, hb, hs] at h
      | cons b rest =>
        rw [readBitsLoop_pull n ret r b rest hb hs] at h
        refine ih _ ⟨rest, b, 7, r.offset + 1⟩ _ _ ⟨pulled ++ [b], ?_, ?_, ?_, ?_⟩ h
        · rw [h1, hs]; simp
        · exact le_refl _
        · rw [hb] at h3
          simp only [List.length_append, List.length_singleton]
          push_cast at h3 ⊢
          omega
        · intro _; simp
    · rw [readBitsLoop_buffered n ret r hb] at h
      refine ih _ ⟨r.src, r.buf, r.balance - 1, r.offset + 1⟩ _ _ ⟨pulled, h1, ?_, ?_, ?_⟩ h
      · show r.balance - 1 ≤ 7
        omega
      · show r.offset + 1 + ((r.balance - 1 : Nat) : Int) = 8 * (pulled.length : Int)
        omega
      · intro hpos
        exact h4 (by omega)

theorem Reached.inv {bs : List Byte} {r : bitReader} (h : Reached bs r) : Inv bs r := by
  induction h with
  | start => exact ⟨[], rfl, Nat.zero_le 7, by simp [fresh], fun h => absurd h (Nat.lt_irrefl 0)⟩
  | read n v r r1 _ hr ih => exact readBitsLoop_inv bs n 0 r r1 v ih hr

/-- C19: the buffer invariant. In every state reached from a fresh reader over
`bs` by successful calls of `readBits`: `balance ≤ 7`; the source holds what
is left of `bs` after the bytes pulled, and `offset + balance` is 8 times
their number; `buf` is the last byte pulled and its low `balance` bits are the
next bits of the stream; the unread bits are the bits of `bs` from position
`offset` on, and a read of `n` bits returns the `n` bits at positions
`offset .. offset + n - 1` and moves `offset` by `n`. A turn of the loop pulls
a byte, exactly one, only when `balance` is 0. -/
theorem reader_invariant (bs : List Byte) (r : bitReader) (h : Reached bs r) :
    r.balance ≤ 7 ∧
    (∃ pulled : List Byte, bs = pulled ++ r.src ∧
      r.offset + (r.balance : Int) = 8 * (pulled.length : Int) ∧
      (0 < r.balance → pulled.getLast? = some r.buf)) ∧
    unread r = (streamBits bs).drop r.offset.toNat ∧
    ((streamBits bs).drop r.offset.toNat).take r.balance = lowBits r.buf r.balance ∧
    (∀ (n : Nat) (v : Int) (r1 : bitReader), readBits n r = (.ret v none, r1) →
      v = wrap64 (ofBits (nextBits bs r n)) ∧ r1.offset = r.offset + n) ∧
    (∀ (n : Nat) (ret : Int), r.balance ≠ 0 →
      readBitsLoop (n + 1) ret r =
        readBitsLoop n (pushBit ret (bufBit r.buf r.balance))
          ⟨r.src, r.buf, r.balance - 1, r.offset + 1⟩) ∧
    (∀ (n : Nat) (ret : Int) (b : Byte) (rest : List Byte), r.balance = 0 → r.src = b :: rest →
      readBitsLoop (n + 1) ret r =
        readBitsLoop n (pushBit ret (bufBit b 8)) ⟨rest, b, 7, r.offset + 1⟩) := by
  obtain ⟨pulled, h1, h2, h3, h4⟩ := h.inv
  obtain ⟨_, hu⟩ := h.unread_eq
  refine ⟨h2, ⟨pulled, h1, h3, h4⟩, hu, ?_, ?_, ?_, ?_⟩
  · rw [← hu]
    unfold unread
    rw [List.take_append_of_le_length (by rw [length_lowBits]), List.take_of_length_le
      (by rw [length_lowBits])]
  · intro n v r1 hr
    obtain ⟨_, hv, _, ho⟩ := readBits_success n r r1 v hr
    refine ⟨?_, ho⟩
    rw [hv]
    unfold nextBits
    rw [hu]
  · intro n ret hb
    exact readBitsLoop_buffered n ret r hb
  · intro n ret b rest hb hs
    exact readBitsLoop_pull n ret r b rest hb hs

set_option maxRecDepth 100000 in
/-- C19, at a concrete input: the reader over `D2 FE 28` after six bits. -/
theorem reader_invariant_witness :
    Reached hexD2FE28 afterHeader ∧
    afterHeader.balance ≤ 7 ∧
    (∃ pulled : List Byte, hexD2FE28 = pulled ++ afterHeader.src ∧
      afterHeader.offset + (afterHeader.balance : Int) = 8 * (pulled.length : Int) ∧
      (0 < afterHeader.balance → pulled.getLast? = some afterHeader.buf)) ∧
    unread afterHeader = (streamBits hexD2FE28).drop afterHeader.offset.toNat ∧
    ((streamBits hexD2FE28).drop afterHeader.offset.toNat).take afterHeader.balance =
      lowBits afterHeader.buf afterHeader.balance ∧
    (∀ (n : Nat) (v : Int) (r1 : bitReader), readBits n afterHeader = (.ret v none, r1) →
      v = wrap64 (ofBits (nextBits hexD2FE28 afterHeader n)) ∧
        r1.offset = afterHeader.offset + n) ∧
    (∀ (n : Nat) (ret : Int), afterHeader.balance ≠ 0 →
      readBitsLoop (n + 1) ret afterHeader =
        readBitsLoop n (pushBit ret (bufBit afterHeader.buf afterHeader.balance))
          ⟨afterHeader.src, afterHeader.buf, afterHeader.balance - 1,
            afterHeader.offset + 1⟩) ∧
    (∀ (n : Nat) (ret : Int) (b : Byte) (rest : List Byte), afterHeader.balance = 0 →
      afterHeader.src = b :: rest →
      readBitsLoop (n + 1) ret afterHeader =
        readBitsLoop n (pushBit ret (bufBit b 8)) ⟨rest, b, 7, afterHeader.offset + 1⟩) := by
  have hr : Reached hexD2FE28 afterHeader :=
    Reached.read 6 52 (fresh hexD2FE28) afterHeader Reached.start (by decide)
  exact ⟨hr, reader_invariant hexD2FE28 afterHeader hr⟩

/-! ## Termination -/

/-- The bits read plus the bits unread stay the same in every call of
`readBits`, successful or not. -/
theorem readBits_total (n : Nat) (r r1 : bitReader) (o : Outcome)
    (h : readBits n r = (o, r1)) :
    r1.offset + ((unread r1).length : Int) = r.offset + ((unread r).length : Int) := by
  rcases readBits_cases n r with ⟨r2, g, gn, gu, go⟩ | ⟨r2, g, _, gu, go⟩
  · rw [g] at h
    simp only [Prod.mk.injEq] at h
    rw [← h.2, gu, go, List.length_drop]
    omega
  · rw [g] at h
    simp only [Prod.mk.injEq] at h
    rw [← h.2, gu, go]
    simp

theorem readLiteralLoop_total : ∀ (fuel : Nat) (val : Int) (r r1 : bitReader) (o : Outcome),
    readLiteralLoop fuel val r = some (o, r1) →
      r1.offset + ((unread r1).length : Int) = r.offset + ((unread r).length : Int) := by
  intro fuel
  induction fuel with
  | zero => intro val r r1 o h; simp [readLiteralLoop] at h
  | succ fuel ih =>
    intro val r r1 o h
    rw [readLiteralLoop] at h
    cases hq : readBits 5 r with
    | mk o2 r2 =>
      have ht := readBits_total 5 r r2 o2 hq
      rw [hq] at h
      cases o2 with
      | panic =>
        simp only [Option.some.injEq, Prod.mk.injEq] at h
        rw [← h.2]; exact ht
      | ret w err =>
        cases err with
        | some e =>
          simp only [Option.some.injEq, Prod.mk.injEq] at h
          rw [← h.2]; exact ht
        | none =>
          simp only [] at h
          split at h
          · rw [ih _ _ _ _ h]; exact ht
          · simp only [Option.some.injEq, Prod.mk.injEq] at h
            rw [← h.2]; exact ht

theorem countLoop_total (rp : bitReader → Option (Outcome × bitReader))
    (hrp : ∀ r o r1, rp r = some (o, r1) →
      r1.offset + ((unread r1).length : Int) = r.offset + ((unread r).length : Int)) :
    ∀ (n : Nat) (r : bitReader) (acc : List Int) (e : LoopEnd),
      countLoop rp n r acc = some e →
        e.reader.offset + ((unread e.reader).length : Int) =
          r.offset + ((unread r).length : Int) := by
  intro n
  induction n with
  | zero =>
    intro r acc e h
    simp only [countLoop, Option.some.injEq] at h
    subst h; rfl
  | succ n ih =>
    intro r acc e h
    rw [countLoop] at h
    split at h
    · exact absurd h (by simp)
    · next subval r1 hr => rw [ih _ _ _ h]; exact hrp _ _ _ hr
    · next _ err r1 hr =>
      simp only [Option.some.injEq] at h
      subst h; exact hrp _ _ _ hr
    · next r1 hr =>
      simp only [Option.some.injEq] at h
      subst h; exact hrp _ _ _ hr

theorem lengthLoop_total (rp : bitReader → Option (Outcome × bitReader))
    (hrp : ∀ r o r1, rp r = some (o, r1) →
      r1.offset + ((unread r1).length : Int) = r.offset + ((unread r).length : Int)) :
    ∀ (fuel : Nat) (limit : Int) (r : bitReader) (acc : List Int) (e : LoopEnd),
      lengthLoop rp fuel limit r acc = some e →
        e.reader.offset + ((unread e.reader).length : Int) =
          r.offset + ((unread r).length : Int) := by
  intro fuel
  induction fuel with
  | zero =>
    intro limit r acc e h
    rw [lengthLoop] at h
    split at h
    · exact absurd h (by simp)
    · simp only [Option.some.injEq] at h
      subst h; rfl
  | succ fuel ih =>
    intro limit r acc e h
    rw [lengthLoop] at h
    split at h
    · split at h
      · exact absurd h (by simp)
      · next subval r1 hr => rw [ih _ _ _ _ h]; exact hrp _ _ _ hr
      · next _ err r1 hr =>
        simp only [Option.some.injEq] at h
        subst h; exact hrp _ _ _ hr
      · next r1 hr =>
        simp only [Option.some.injEq] at h
        subst h; exact hrp _ _ _ hr
    · simp only [Option.some.injEq] at h
      subst h; rfl

theorem finish_total (packetType : Int) (r0 : bitReader) (l : Option LoopEnd)
    (hl : ∀ e, l = some e → e.reader.offset + ((unread e.reader).length : Int) =
      r0.offset + ((unread r0).length : Int)) (o : Outcome) (r1 : bitReader)
    (h : finish packetType l = some (o, r1)) :
    r1.offset + ((unread r1).length : Int) = r0.offset + ((unread r0).length : Int) := by
  cases l with
  | none => simp [finish] at h
  | some e =>
    have := hl e rfl
    cases e with
    | done sv r =>
      simp only [finish, Option.some.injEq, Prod.mk.injEq] at h
      rw [← h.2]; exact this
    | leave o2 r =>
      simp only [finish, Option.some.injEq, Prod.mk.injEq] at h
      rw [← h.2]; exact this

/-- The bits read plus the bits unread stay the same in every call of
`readPacket`. -/
theorem readPacket_total : ∀ (fuel : Nat) (r r1 : bitReader) (o : Outcome),
    readPacket fuel r = some (o, r1) →
      r1.offset + ((unread r1).length : Int) = r.offset + ((unread r).length : Int) := by
  intro fuel
  induction fuel with
  | zero => intro r r1 o h; simp [readPacket] at h
  | succ fuel ih =>
    intro r r1 o h
    rw [readPacket] at h
    rcases readBits_cases 3 r with ⟨ra, ha, _, _, _⟩ | ⟨ra, ha, _, _, _⟩
    swap
    · have ht := readBits_total 3 r ra _ ha
      rw [ha] at h
      simp only [Option.some.injEq, Prod.mk.injEq] at h
      rw [← h.2]; exact ht
    have hta := readBits_total 3 r ra _ ha
    rw [ha] at h
    simp only [] at h
    rcases readBits_cases 3 ra with ⟨rb, hb, _, _, _⟩ | ⟨rb, hb, _, _, _⟩
    swap
    · have ht := readBits_total 3 ra rb _ hb
      rw [hb] at h
      simp only [Option.some.injEq, Prod.mk.injEq] at h
      rw [← h.2, ht]; exact hta
    have htb := readBits_total 3 ra rb _ hb
    rw [hb] at h
    simp only [] at h
    split at h
    · cases hq : readLiteral fuel rb with
      | none => rw [hq] at h; exact absurd h (by simp)
      | some x =>
        rw [hq] at h
        obtain ⟨o2, r2⟩ := x
        have ht := readLiteralLoop_total fuel 0 rb r2 o2 hq
        have hr : r1 = r2 := by
          cases o2 with
          | panic => simp only [Option.some.injEq, Prod.mk.injEq] at h; exact h.2.symm
          | ret w err =>
            cases err with
            | none => simp only [Option.some.injEq, Prod.mk.injEq] at h; exact h.2.symm
            | some e => simp only [Option.some.injEq, Prod.mk.injEq] at h; exact h.2.symm
        rw [hr, ht, htb]; exact hta
    · rcases readBits_cases 1 rb with ⟨rc, hc, hc1, _, _⟩ | ⟨rc, hc, _, _, _⟩
      swap
      · have ht := readBits_total 1 rb rc _ hc
        rw [hc] at h
        simp only [Option.some.injEq, Prod.mk.injEq] at h
        rw [← h.2, ht, htb]; exact hta
      have htc := readBits_total 1 rb rc _ hc
      rw [hc] at h
      simp only [] at h
      split at h
      · rcases readBits_cases 11 rc with ⟨rd, hd, _, _, _⟩ | ⟨rd, hd, _, _, _⟩
        swap
        · have ht := readBits_total 11 rc rd _ hd
          rw [hd] at h
          simp only [Option.some.injEq, Prod.mk.injEq] at h
          rw [← h.2, ht, htc, htb]; exact hta
        have htd := readBits_total 11 rc rd _ hd
        rw [hd] at h
        simp only [] at h
        rw [finish_total _ rd _ (countLoop_total _ (fun r o r1 hh => ih r r1 o hh) _ _ _) _ _ h, htd, htc, htb]
        exact hta
      · split at h
        · rcases readBits_cases 15 rc with ⟨rd, hd, _, _, _⟩ | ⟨rd, hd, _, _, _⟩
          swap
          · have ht := readBits_total 15 rc rd _ hd
            rw [hd] at h
            simp only [Option.some.injEq, Prod.mk.injEq] at h
            rw [← h.2, ht, htc, htb]; exact hta
          have htd := readBits_total 15 rc rd _ hd
          rw [hd] at h
          simp only [] at h
          rw [finish_total _ rd _ (lengthLoop_total _ (fun r o r1 hh => ih r r1 o hh) _ _ _ _) _ _ h, htd, htc, htb]
          exact hta
        · next n1 n0 =>
          rcases wrap64_ofBits_take_one _ hc1 with h0 | h1
          · exact absurd h0 n0
          · exact absurd h1 n1

/-- With more fuel than unread bits the loop of `readLiteral` ends. -/
theorem readLiteralLoop_some : ∀ (fuel : Nat) (val : Int) (r : bitReader),
    (unread r).length < fuel → ∃ x, readLiteralLoop fuel val r = some x := by
  intro fuel
  induction fuel with
  | zero => intro val r h; simp at h
  | succ fuel ih =>
    intro val r h
    rw [readLiteralLoop]
    rcases readBits_cases 5 r with ⟨ra, ha, hn, hu, _⟩ | ⟨ra, ha, _, _, _⟩
    · rw [ha]
      simp only []
      split
      · apply ih
        rw [hu, List.length_drop]
        omega
      · exact ⟨_, rfl⟩
    · rw [ha]
      exact ⟨_, rfl⟩

theorem countLoop_some (rp : bitReader → Option (Outcome × bitReader)) (B : Nat)
    (hA : ∀ r, (unread r).length < B → ∃ x, rp r = some x)
    (hB : ∀ r o r1, rp r = some (o, r1) → (unread r1).length ≤ (unread r).length) :
    ∀ (n : Nat) (r : bitReader) (acc : List Int), (unread r).length < B →
      ∃ e, countLoop rp n r acc = some e := by
  intro n
  induction n with
  | zero => intro r acc _; exact ⟨_, rfl⟩
  | succ n ih =>
    intro r acc h
    obtain ⟨x, hx⟩ := hA r h
    rw [countLoop, hx]
    obtain ⟨o, r1⟩ := x
    have := hB r o r1 hx
    cases o with
    | panic => exact ⟨_, rfl⟩
    | ret v err =>
      cases err with
      | some e => exact ⟨_, rfl⟩
      | none => exact ih r1 _ (by omega)

theorem lengthLoop_some (rp : bitReader → Option (Outcome × bitReader)) (B : Nat)
    (hA : ∀ r, (unread r).length < B → ∃ x, rp r = some x)
    (hC : ∀ r v r1, rp r = some (.ret v none, r1) → (unread r1).length < (unread r).length) :
    ∀ (fuel : Nat) (limit : Int) (r : bitReader) (acc : List Int),
      (unread r).length < B → (unread r).length < fuel →
      ∃ e, lengthLoop rp fuel limit r acc = some e := by
  intro fuel
  induction fuel with
  | zero => intro limit r acc _ h; simp at h
  | succ fuel ih =>
    intro limit r acc hb hf
    rw [lengthLoop]
    split
    · obtain ⟨x, hx⟩ := hA r hb
      rw [hx]
      obtain ⟨o, r1⟩ := x
      cases o with
      | panic => exact ⟨_, rfl⟩
      | ret v err =>
        cases err with
        | some e => exact ⟨_, rfl⟩
        | none =>
          have := hC r v r1 hx
          exact ih _ r1 _ (by omega) (by omega)
    · exact ⟨_, rfl⟩

theorem finish_some (packetType : Int) (l : Option LoopEnd) (h : ∃ e, l = some e) :
    ∃ x, finish packetType l = some x := by
  obtain ⟨e, rfl⟩ := h
  cases e with
  | done vs r => exact ⟨_, rfl⟩
  | leave o r => exact ⟨_, rfl⟩

/-- No call of `readPacket` makes more bits unread. -/
theorem readPacket_unread_le (fuel : Nat) (r r1 : bitReader) (o : Outcome)
    (h : readPacket fuel r = some (o, r1)) : (unread r1).length ≤ (unread r).length := by
  have h1 := readPacket_total fuel r r1 o h
  have h2 := (readPacket_offset fuel r r1 o h).1
  omega

/-- A successful call of `readPacket` leaves at least 11 bits fewer unread. -/
theorem readPacket_unread_lt (fuel : Nat) (r r1 : bitReader) (v : Int)
    (h : readPacket fuel r = some (.ret v none, r1)) :
    (unread r1).length < (unread r).length := by
  have h1 := readPacket_total fuel r r1 _ h
  have h2 := (readPacket_offset fuel r r1 _ h).2 v rfl
  omega

/-- With more fuel than unread bits `readPacket` ends. -/
theorem readPacket_some : ∀ (fuel : Nat) (r : bitReader), (unread r).length < fuel →
    ∃ x, readPacket fuel r = some x := by
  intro fuel
  induction fuel with
  | zero => intro r h; simp at h
  | succ fuel ih =>
    intro r h
    rw [readPacket]
    rcases readBits_cases 3 r with ⟨ra, ha, hna, hua, _⟩ | ⟨ra, ha, _, _, _⟩
    swap
    · rw [ha]; exact ⟨_, rfl⟩
    rw [ha]
    simp only []
    rcases readBits_cases 3 ra with ⟨rb, hb, hnb, hub, _⟩ | ⟨rb, hb, _, _, _⟩
    swap
    · rw [hb]; exact ⟨_, rfl⟩
    rw [hb]
    simp only []
    have ea : (unread ra).length = (unread r).length - 3 := by rw [hua, List.length_drop]
    have eb : (unread rb).length = (unread ra).length - 3 := by rw [hub, List.length_drop]
    split
    · obtain ⟨x, hx⟩ := readLiteralLoop_some fuel 0 rb (by omega)
      have hx2 : readLiteral fuel rb = some x := hx
      rw [hx2]
      obtain ⟨o, r2⟩ := x
      cases o with
      | panic => exact ⟨_, rfl⟩
      | ret v err =>
        cases err with
        | some e => exact ⟨_, rfl⟩
        | none => exact ⟨_, rfl⟩
    · rcases readBits_cases 1 rb with ⟨rc, hc, hnc, huc, _⟩ | ⟨rc, hc, _, _, _⟩
      swap
      · rw [hc]; exact ⟨_, rfl⟩
      rw [hc]
      simp only []
      have ec : (unread rc).length = (unread rb).length - 1 := by rw [huc, List.length_drop]
      split
      · next hf1 =>
        clear hf1
        rcases readBits_cases 11 rc with ⟨rd, hd, hnd, hud, _⟩ | ⟨rd, hd, _, _, _⟩
        swap
        · rw [hd]; exact ⟨_, rfl⟩
        rw [hd]
        simp only []
        apply finish_some
        apply countLoop_some _ fuel ih (fun r o r1 hh => readPacket_unread_le fuel r r1 o hh)
        have ed : (unread rd).length = (unread rc).length - 11 := by
          rw [hud, List.length_drop]
        omega
      · next hf1 =>
        split
        · next hf0 =>
          clear hf0 hf1
          rcases readBits_cases 15 rc with ⟨rd, hd, hnd, hud, _⟩ | ⟨rd, hd, _, _, _⟩
          swap
          · rw [hd]; exact ⟨_, rfl⟩
          rw [hd]
          simp only []
          apply finish_some
          apply lengthLoop_some _ fuel ih (fun r v r1 hh => readPacket_unread_lt fuel r r1 v hh)
          · have ed : (unread rd).length = (unread rc).length - 15 := by
              rw [hud, List.length_drop]
            omega
          · have ed : (unread rd).length = (unread rc).length - 15 := by
              rw [hud, List.length_drop]
            omega
        · exact ⟨_, rfl⟩

/-- The 18 header bits of a packet in count mode. -/
theorem readPacket_count_header (r : bitReader) (ver tail : List Bool) (t k : Nat)
    (hver : ver.length = 3) (ht : t < 8) (h4 : t ≠ 4) (hk : k < 2 ^ 11)
    (hu : unread r = ver ++ (natBits 3 t ++ ([true] ++ (natBits 11 k ++ tail)))) :
    ∃ r4, r4.offset = r.offset + 18 ∧ unread r4 = tail ∧
      ∀ fuel, readPacket (fuel + 1) r =
        finish (t : Int) (countLoop (readPacket fuel) k r4 []) := by
  obtain ⟨ra, rb, ha, hb, hub, hob⟩ := readBits_header r ver (natBits 3 t) _ hver
    (length_natBits 3 t) hu
  rw [ofBits_natBits, Nat.mod_eq_of_lt (by omega : t < 2 ^ 3)] at hb
  obtain ⟨rc, hc, huc, hoc⟩ := readBits_append rb [true] _ (by decide) hub
  obtain ⟨rd, hd, hud, hod⟩ := readBits_natBits rc 11 k _ (by decide) hk huc
  have hflag : ((ofBits [true] : Nat) : Int) = 1 := by decide
  have hlen1 : [true].length = 1 := rfl
  rw [hflag, hlen1] at hc
  rw [hlen1] at hoc
  have hnl : ¬ ((t : Nat) : Int) = TypeLiteral := by
    unfold TypeLiteral; omega
  refine ⟨rd, by rw [hod, hoc, hob]; push_cast; ring, hud, ?_⟩
  intro fuel
  rw [readPacket, ha]
  simp only []
  rw [hb]
  simp only []
  rw [if_neg hnl, hc]
  simp only []
  rw [if_pos True.intro, hd]
  simp only [Int.toNat_ofNat]

/-- From any reader state, `readPacket` ends for every fuel above the number
of unread bits, always in the same way. -/
theorem readPacket_terminates_aux (r : bitReader) :
    ∃ o r1, ∀ fuel, (unread r).length < fuel → readPacket fuel r = some (o, r1) := by
  obtain ⟨x, hx⟩ := readPacket_some ((unread r).length + 1) r (Nat.lt_succ_self _)
  refine ⟨x.1, x.2, ?_⟩
  intro fuel hf
  exact readPacket_mono_le _ fuel r _ (by omega) hx

set_option maxRecDepth 100000 in
/-- C18 (as stated, refuted): on the bytes `1E 00 44 08`, an equal-to packet
with one sub-packet, `readPacket` ends, for every sufficient fuel, in the
index-out-of-range panic: it returns neither a value nor an error. -/
theorem readPacket_terminates_counterexample :
    (∀ fuel, 3 ≤ fuel →
      readPacket fuel (fresh equalToOneOperand) = some (.panic, ⟨[], 0x08, 3, 29⟩)) ∧
    (∀ (v : Int) (err : Option Error), Outcome.panic ≠ .ret v err) := by
  constructor
  · intro fuel hf
    exact readPacket_mono_le 3 fuel _ _ hf (by decide)
  · intro v err h
    cases h

/-! ## Bits that are not read do not matter -/

theorem agree_readBits (M : Int) (ra rb ra1 : bitReader) (n : Nat) (v : Int)
    (hs : Agree M ra rb) (h : readBits n ra = (.ret v none, ra1)) (hM : ra1.offset ≤ M) :
    ∃ rb1, readBits n rb = (.ret v none, rb1) ∧ Agree M ra1 rb1 := by
  obtain ⟨ho, hu⟩ := hs
  obtain ⟨hn, hv, hu1, ho1⟩ := readBits_success n ra ra1 v h
  have hd : n ≤ (M - ra.offset).toNat := by omega
  rw [← ho] at hu
  have hlen : n ≤ (unread rb).length := by
    have h1 : ((unread ra).take (M - ra.offset).toNat).length =
        ((unread rb).take (M - ra.offset).toNat).length := by rw [hu]
    rw [List.length_take, List.length_take] at h1
    omega
  have htake : (unread rb).take n = (unread ra).take n := by
    have h1 : ((unread rb).take (M - ra.offset).toNat).take n =
        ((unread ra).take (M - ra.offset).toNat).take n := by rw [hu]
    rw [List.take_take, List.take_take, Nat.min_eq_left hd] at h1
    exact h1
  obtain ⟨rb1, g, gu, go⟩ := readBits_ok n rb hlen
  refine ⟨rb1, ?_, ?_, ?_⟩
  · rw [g, htake, hv]
  · rw [ho1, go, ho]
  · have e1 : (M - ra1.offset).toNat = (M - ra.offset).toNat - n := by omega
    have e2 : (M - rb1.offset).toNat = (M - ra.offset).toNat - n := by omega
    rw [e1, e2, hu1, gu, ← List.drop_take, ← List.drop_take, hu]

theorem agree_readLiteralLoop (M : Int) :
    ∀ (fuel : Nat) (val : Int) (ra rb ra1 : bitReader) (v : Int), Agree M ra rb →
      readLiteralLoop fuel val ra = some (.ret v none, ra1) → ra1.offset ≤ M →
        ∃ rb1, readLiteralLoop fuel val rb = some (.ret v none, rb1) ∧ Agree M ra1 rb1 := by
  intro fuel
  induction fuel with
  | zero => intro val ra rb ra1 v _ h; simp [readLiteralLoop] at h
  | succ fuel ih =>
    intro val ra rb ra1 v hs h hM
    have hoff := (readLiteralLoop_offset _ _ _ _ _ h).2 v rfl
    rw [readLiteralLoop] at h ⊢
    rcases readBits_cases 5 ra with ⟨r2, ha, _, _, ho2⟩ | ⟨r2, ha, _, _, _⟩
    swap
    · rw [ha] at h; simp at h
    obtain ⟨rb2, gb, hs2⟩ := agree_readBits M ra rb r2 5 _ hs ha (by omega)
    rw [ha] at h
    rw [gb]
    simp only [] at h ⊢
    split
    · next hc =>
      rw [if_pos hc] at h
      exact ih _ _ _ _ _ hs2 h hM
    · next hc =>
      rw [if_neg hc] at h
      simp only [Option.some.injEq, Prod.mk.injEq, Outcome.ret.injEq, and_true] at h
      refine ⟨rb2, ?_, ?_⟩
      · rw [h.1]
      · rw [← h.2]; exact hs2

theorem agree_countLoop (M : Int) (f : bitReader → Option (Outcome × bitReader))
    (hf : AgreeStep M f) (hmono : ∀ r o r1, f r = some (o, r1) → r.offset ≤ r1.offset) :
    ∀ (n : Nat) (ra rb ra1 : bitReader) (acc vs : List Int), Agree M ra rb →
      countLoop f n ra acc = some (.done vs ra1) → ra1.offset ≤ M →
        ∃ rb1, countLoop f n rb acc = some (.done vs rb1) ∧ Agree M ra1 rb1 := by
  intro n
  induction n with
  | zero =>
    intro ra rb ra1 acc vs hs h _
    simp only [countLoop, Option.some.injEq, LoopEnd.done.injEq] at h
    refine ⟨rb, ?_, ?_⟩
    · simp only [countLoop]; rw [h.1]
    · rw [← h.2]; exact hs
  | succ n ih =>
    intro ra rb ra1 acc vs hs h hM
    rw [countLoop] at h ⊢
    cases hq : f ra with
    | none => rw [hq] at h; exact absurd h (by simp)
    | some x =>
      rw [hq] at h
      obtain ⟨o, r2⟩ := x
      cases o with
      | panic => simp at h
      | ret v err =>
        cases err with
        | some e1 => simp at h
        | none =>
          simp only [] at h
          have hle : r2.offset ≤ ra1.offset := countLoop_offset f hmono _ _ _ _ h
          obtain ⟨rb2, g, hs2⟩ := hf ra rb v r2 hs hq (by omega)
          rw [g]
          exact ih _ _ _ _ _ hs2 h hM

theorem agree_lengthLoop (M : Int) (f : bitReader → Option (Outcome × bitReader))
    (hf : AgreeStep M f) (hmono : ∀ r o r1, f r = some (o, r1) → r.offset ≤ r1.offset) :
    ∀ (fuel : Nat) (limit : Int) (ra rb ra1 : bitReader) (acc vs : List Int), Agree M ra rb →
      lengthLoop f fuel limit ra acc = some (.done vs ra1) → ra1.offset ≤ M →
        ∃ rb1, lengthLoop f fuel limit rb acc = some (.done vs rb1) ∧ Agree M ra1 rb1 := by
  intro fuel
  induction fuel with
  | zero =>
    intro limit ra rb ra1 acc vs hs h _
    simp only [lengthLoop] at h ⊢
    rw [← hs.1]
    split at h
    · exact absurd h (by simp)
    · next hc =>
      simp only [Option.some.injEq, LoopEnd.done.injEq] at h
      refine ⟨rb, ?_, ?_⟩
      · rw [if_neg hc, h.1]
      · rw [← h.2]; exact hs
  | succ fuel ih =>
    intro limit ra rb ra1 acc vs hs h hM
    rw [lengthLoop] at h ⊢
    rw [← hs.1]
    by_cases hc : ra.offset < limit
    · rw [if_pos hc] at h ⊢
      cases hq : f ra with
      | none => rw [hq] at h; exact absurd h (by simp)
      | some x =>
        rw [hq] at h
        obtain ⟨o, r2⟩ := x
        cases o with
        | panic => simp at h
        | ret v err =>
          cases err with
          | some e1 => simp at h
          | none =>
            simp only [] at h
            have hle : r2.offset ≤ ra1.offset := lengthLoop_offset f hmono _ _ _ _ _ h
            obtain ⟨rb2, g, hs2⟩ := hf ra rb v r2 hs hq (by omega)
            rw [g]
            exact ih _ _ _ _ _ _ hs2 h hM
    · rw [if_neg hc] at h ⊢
      simp only [Option.some.injEq, LoopEnd.done.injEq] at h
      refine ⟨rb, ?_, ?_⟩
      · rw [h.1]
      · rw [← h.2]; exact hs

theorem agree_finish (M : Int) (packetType : Int) (l lp : Option LoopEnd)
    (v : Int) (r1 : bitReader) (h : finish packetType l = some (.ret v none, r1))
    (hleave : ∀ o r, l = some (.leave o r) → ∀ w, o ≠ .ret w none)
    (hsim : ∀ vs r2, l = some (.done vs r2) → r2 = r1 →
      ∃ rb1, lp = some (.done vs rb1) ∧ Agree M r2 rb1) :
    ∃ rb1, finish packetType lp = some (.ret v none, rb1) ∧ Agree M r1 rb1 := by
  cases l with
  | none => simp [finish] at h
  | some e =>
    cases e with
    | leave o r2 =>
      simp only [finish, Option.some.injEq, Prod.mk.injEq] at h
      exact absurd h.1 (hleave o r2 rfl v)
    | done vs r2 =>
      simp only [finish, Option.some.injEq, Prod.mk.injEq] at h
      obtain ⟨h1, rfl⟩ := h
      obtain ⟨rb1, g, hs⟩ := hsim vs r2 rfl rfl
      refine ⟨rb1, ?_, hs⟩
      rw [g, finish, h1]

/-- A successful run of `readPacket` that stays below position `M` is the
same on every reader that agrees up to `M`. -/
theorem agree_readPacket (M : Int) : ∀ fuel, AgreeStep M (readPacket fuel) := by
  intro fuel
  induction fuel with
  | zero => intro ra rb v ra1 _ h; simp [readPacket] at h
  | succ fuel ih =>
    intro r rb v r1 hs h hM
    have hoff := (readPacket_offset _ _ _ _ h).2 v rfl
    have hmono : ∀ r o r1, readPacket fuel r = some (o, r1) → r.offset ≤ r1.offset :=
      fun r o r1 hh => (readPacket_offset fuel r r1 o hh).1
    rw [readPacket] at h ⊢
    rcases readBits_cases 3 r with ⟨ra, ha, _, _, hoa⟩ | ⟨ra, ha, _, _, _⟩
    swap
    · rw [ha] at h; simp at h
    obtain ⟨pa, ga, hsa⟩ := agree_readBits M r rb ra 3 _ hs ha (by omega)
    rw [ha] at h
    rw [ga]
    simp only [] at h ⊢
    rcases readBits_cases 3 ra with ⟨rb2, hb, _, _, hob⟩ | ⟨rb2, hb, _, _, _⟩
    swap
    · rw [hb] at h; simp at h
    obtain ⟨pb, gb, hsb⟩ := agree_readBits M ra pa rb2 3 _ hsa hb (by omega)
    rw [hb] at h
    rw [gb]
    simp only [] at h ⊢
    split
    · next ht =>
      rw [if_pos ht] at h
      cases hq : readLiteral fuel rb2 with
      | none => rw [hq] at h; exact absurd h (by simp)
      | some x =>
        rw [hq] at h
        obtain ⟨o, r2⟩ := x
        cases o with
        | panic => simp at h
        | ret w err =>
          cases err with
          | some e1 => simp at h
          | none =>
            simp only [Option.some.injEq, Prod.mk.injEq, Outcome.ret.injEq, and_true] at h
            obtain ⟨rfl, rfl⟩ := h
            obtain ⟨p1, g, hs1⟩ := agree_readLiteralLoop M fuel 0 rb2 pb r2 w hsb hq hM
            refine ⟨p1, ?_, hs1⟩
            unfold readLiteral
            rw [g]
    · next ht =>
      rw [if_neg ht] at h
      rcases readBits_cases 1 rb2 with ⟨rc, hc, _, _, hoc⟩ | ⟨rc, hc, _, _, _⟩
      swap
      · rw [hc] at h; simp at h
      obtain ⟨pc, gc, hsc⟩ := agree_readBits M rb2 pb rc 1 _ hsb hc (by omega)
      rw [hc] at h
      rw [gc]
      simp only [] at h ⊢
      split
      · next h1 =>
        rw [if_pos h1] at h
        rcases readBits_cases 11 rc with ⟨rd, hd, _, _, _⟩ | ⟨rd, hd, _, _, _⟩
        swap
        · rw [hd] at h; simp at h
        rw [hd] at h
        simp only [] at h
        have hle : rd.offset ≤ r1.offset :=
          finish_offset _ rd _ (countLoop_offset _ hmono _ _ _) _ _ h
        obtain ⟨pd, gd, hsd⟩ := agree_readBits M rc pc rd 11 _ hsc hd (by omega)
        rw [gd]
        simp only []
        exact agree_finish M _ _ _ v r1 h
          (fun o r2 hl => countLoop_leave _ _ _ _ _ _ hl)
          (fun vs r2 hl hr => agree_countLoop M _ ih hmono _ _ _ _ _ _ hsd hl
            (by rw [hr]; exact hM))
      · next h1 =>
        rw [if_neg h1] at h
        split
        · next h0 =>
          rw [if_pos h0] at h
          rcases readBits_cases 15 rc with ⟨rd, hd, _, _, _⟩ | ⟨rd, hd, _, _, _⟩
          swap
          · rw [hd] at h; simp at h
          rw [hd] at h
          simp only [] at h
          have hle : rd.offset ≤ r1.offset :=
            finish_offset _ rd _ (lengthLoop_offset _ hmono _ _ _ _) _ _ h
          obtain ⟨pd, gd, hsd⟩ := agree_readBits M rc pc rd 15 _ hsc hd (by omega)
          rw [gd]
          simp only []
          rw [← hsd.1]
          exact agree_finish M _ _ _ v r1 h
            (fun o r2 hl => lengthLoop_leave _ _ _ _ _ _ _ hl)
            (fun vs r2 hl hr => agree_lengthLoop M _ ih hmono _ _ _ _ _ _ _ hsd hl
              (by rw [hr]; exact hM))
        · next h0 =>
          rw [if_neg h0] at h
          simp only [Option.some.injEq, Prod.mk.injEq] at h
          refine ⟨pc, ?_, ?_⟩
          · rw [h.1]
          · rw [← h.2]; exact hsc

/-- C20: trailing bytes do not affect the result. If `readPacket` on a fresh
reader over `bs` succeeds with value `v` having consumed `n` bits, then on
`bs ++ t`, for every `t`, and more generally on every input whose first `n`
bits are those of `bs`, it succeeds with the same value and the same number of
consumed bits. -/
theorem readPacket_trailing :
    (∀ (bs t : List Byte) (fuel : Nat) (v : Int) (r1 : bitReader),
      readPacket fuel (fresh bs) = some (.ret v none, r1) →
        ∃ r2, readPacket fuel (fresh (bs ++ t)) = some (.ret v none, r2) ∧
          r2.offset = r1.offset) ∧
    (∀ (bs1 bs2 : List Byte) (fuel : Nat) (v : Int) (r1 : bitReader),
      readPacket fuel (fresh bs1) = some (.ret v none, r1) →
      (streamBits bs1).take r1.offset.toNat = (streamBits bs2).take r1.offset.toNat →
        ∃ r2, readPacket fuel (fresh bs2) = some (.ret v none, r2) ∧
          r2.offset = r1.offset) := by
  have gen : ∀ (bs1 bs2 : List Byte) (fuel : Nat) (v : Int) (r1 : bitReader),
      readPacket fuel (fresh bs1) = some (.ret v none, r1) →
      (streamBits bs1).take r1.offset.toNat = (streamBits bs2).take r1.offset.toNat →
        ∃ r2, readPacket fuel (fresh bs2) = some (.ret v none, r2) ∧
          r2.offset = r1.offset := by
    intro bs1 bs2 fuel v r1 h hbits
    have hs : Agree r1.offset (fresh bs1) (fresh bs2) := by
      refine ⟨rfl, ?_⟩
      simpa [fresh, unread, lowBits] using hbits
    obtain ⟨r2, g, hs2⟩ := agree_readPacket r1.offset fuel _ _ _ _ hs h (le_refl _)
    exact ⟨r2, g, hs2.1.symm⟩
  refine ⟨?_, gen⟩
  intro bs t fuel v r1 h
  apply gen bs (bs ++ t) fuel v r1 h
  have ht := readPacket_total fuel _ _ _ h
  have hl : r1.offset.toNat ≤ (streamBits bs).length := by
    rw [length_streamBits]
    simp only [fresh, unread, lowBits, List.nil_append, length_streamBits] at ht
    have : (0 : Int) ≤ ((unread r1).length : Int) := Int.ofNat_nonneg _
    push_cast at ht
    omega
  rw [streamBits_append, List.take_append_of_le_length hl]

/-! ## What a literal returns -/

/-- Five bits are a continuation bit followed by the four bits of a digit. -/
theorem five_bits : ∀ b0 b1 b2 b3 b4 : Bool,
    [b0, b1, b2, b3, b4] = decide (16 ≤ ofBits [b0, b1, b2, b3, b4]) ::
      nibbleBits (ofBits [b0, b1, b2, b3, b4] % 16) := by decide

/-- The first five bits of a stream, as a literal group. -/
theorem take_five_group (l : List Bool) (h : 5 ≤ l.length) :
    l.take 5 = decide (16 ≤ ofBits (l.take 5)) :: nibbleBits (ofBits (l.take 5) % 16) := by
  match l, h with
  | b0 :: b1 :: b2 :: b3 :: b4 :: t, _ =>
    simp only [List.take_succ_cons, List.take_zero]
    exact five_bits b0 b1 b2 b3 b4

/-- The `k` groups of a literal encode only the `k` low digits. -/
theorem encLiteral_add (x y : Nat) : ∀ (k m : Nat), k ≤ m →
    encLiteral k (x + y * 16 ^ m) = encLiteral k x := by
  intro k
  induction k with
  | zero => intro m _; rfl
  | succ k ih =>
    intro m hm
    obtain ⟨j, rfl⟩ : ∃ j, m = k + 1 + j := ⟨m - (k + 1), by omega⟩
    rw [encLiteral, encLiteral, ih (k + 1 + j) (by omega)]
    have h1 : x + y * 16 ^ (k + 1 + j) = x + 16 ^ k * (16 * (y * 16 ^ j)) := by
      rw [pow_add, pow_succ]; ring
    rw [h1, Nat.add_mul_div_left _ _ (pow_pos (by norm_num) _), Nat.add_mul_mod_self_left]

/-- What a successful `readLiteral` loop has read and what it returns: the
bits consumed are the encoding in `k ≥ 1` groups of a `4k`-bit number `U`,
and the result is the accumulator extended by `U`, reduced modulo `2^64`. -/
theorem readLiteralLoop_decoded : ∀ (fuel : Nat) (V : Int) (r r1 : bitReader) (v : Int),
    readLiteralLoop fuel (wrap64 V) r = some (.ret v none, r1) →
    ∃ (k U : Nat), 1 ≤ k ∧ U < 16 ^ k ∧ unread r = encLiteral k U ++ unread r1 ∧
      r1.offset = r.offset + 5 * (k : Int) ∧ v = wrap64 (V * 16 ^ k + (U : Int)) := by
  intro fuel
  induction fuel with
  | zero => intro V r r1 v h; simp [readLiteralLoop] at h
  | succ fuel ih =>
    intro V r r1 v h
    rw [readLiteralLoop] at h
    rcases readBits_cases 5 r with ⟨ra, ha, hn, hua, hoa⟩ | ⟨ra, ha, _, _, _⟩
    swap
    · rw [ha] at h; simp at h
    have hlen : ((unread r).take 5).length = 5 := by rw [List.length_take]; omega
    have hlt := ofBits_lt ((unread r).take 5)
    rw [hlen] at hlt
    rw [wrap64_ofBits _ (by omega)] at ha
    have hw := word_split (ofBits ((unread r).take 5)) (by simpa using hlt)
    have hd : ofBits ((unread r).take 5) % 16 < 16 := Nat.mod_lt _ (by norm_num)
    have hg := take_five_group (unread r) hn
    have hsplit : unread r = (unread r).take 5 ++ unread ra := by
      rw [hua, List.take_append_drop]
    rw [hw] at ha
    rw [ha] at h
    simp only [] at h
    rw [(group_land _ ⟨_, hd⟩).1, literal_step_wrap V _ _ hd] at h
    split at h
    next hc =>
      obtain ⟨k, U, hk, hU, hu, ho, hv⟩ := ih _ _ _ _ h
      refine ⟨k + 1, ofBits ((unread r).take 5) % 16 * 16 ^ k + U, by omega, ?_, ?_, ?_, ?_⟩
      · have : ofBits ((unread r).take 5) % 16 * 16 ^ k ≤ 15 * 16 ^ k :=
          Nat.mul_le_mul_right _ (by omega)
        rw [pow_succ]; omega
      · have hdig : (ofBits ((unread r).take 5) % 16 * 16 ^ k + U) / 16 ^ k % 16 =
            ofBits ((unread r).take 5) % 16 := by
          rw [Nat.add_comm, Nat.add_mul_div_right _ _ (pow_pos (by norm_num) _),
            Nat.div_eq_of_lt hU, Nat.zero_add, Nat.mod_mod]
        have henc : encLiteral k (ofBits ((unread r).take 5) % 16 * 16 ^ k + U) =
            encLiteral k U := by
          rw [Nat.add_comm]; exact encLiteral_add U _ k k (le_refl _)
        have hk0 : decide (k ≠ 0) = true := by simp; omega
        rw [encLiteral, hdig, henc, hk0]
        conv_lhs => rw [hsplit, hg, hc, hu]
        simp
      · rw [ho, hoa]; push_cast; ring
      · rw [hv]; congr 1; push_cast; ring
    next hc =>
      simp only [Option.some.injEq, Prod.mk.injEq, Outcome.ret.injEq, and_true] at h
      obtain ⟨hv, hr⟩ := h
      have hc0 : decide (16 ≤ ofBits ((unread r).take 5)) = false := by
        simpa using hc
      refine ⟨1, ofBits ((unread r).take 5) % 16, le_refl _, by simpa using hd, ?_, ?_, ?_⟩
      · rw [encLiteral, encLiteral, pow_zero, Nat.div_one, Nat.mod_mod, ← hr]
        conv_lhs => rw [hsplit, hg, hc0]
        simp
      · rw [← hr, hoa]; simp
      · rw [← hv]; simp

/-- C17 (amended): a successful `readLiteral` has consumed exactly the
encoding, in `k ≥ 1` groups, of a `4k`-bit number `U`, the payload of the
groups read, and returns `U` reduced modulo `2^64` into the range of `int`;
the result is `U` itself, hence non-negative, when the literal has at most 15
groups (and whenever `U < 2^63`). -/
theorem readLiteral_nonneg (fuel : Nat) (r r1 : bitReader) (v : Int)
    (h : readLiteral fuel r = some (.ret v none, r1)) :
    ∃ (k U : Nat), 1 ≤ k ∧ U < 16 ^ k ∧ unread r = encLiteral k U ++ unread r1 ∧
      r1.offset = r.offset + 5 * (k : Int) ∧
      v = wrap64 (U : Int) ∧ (k ≤ 15 → v = (U : Int) ∧ 0 ≤ v) ∧
      (U < 2 ^ 63 → v = (U : Int) ∧ 0 ≤ v) := by
  have h0 : (0 : Int) = wrap64 0 := by decide
  unfold readLiteral at h
  rw [h0] at h
  obtain ⟨k, U, hk, hU, hu, ho, hv⟩ := readLiteralLoop_decoded fuel 0 r r1 v h
  rw [zero_mul, zero_add] at hv
  have hsmall : U < 2 ^ 63 → v = (U : Int) ∧ 0 ≤ v := by
    intro hlt
    have hi : (U : Int) < 2 ^ 63 := by exact_mod_cast hlt
    have hn : (0 : Int) ≤ (U : Int) := Int.ofNat_nonneg _
    rw [hv, wrap64_of_range _ (by omega) hi]
    exact ⟨rfl, hn⟩
  refine ⟨k, U, hk, hU, hu, ho, hv, ?_, hsmall⟩
  intro hk15
  apply hsmall
  have h1 : 16 ^ k ≤ 16 ^ 15 := Nat.pow_le_pow_right (by norm_num) hk15
  have h2 : (16 : Nat) ^ 15 < 2 ^ 63 := by norm_num
  omega

set_option maxRecDepth 100000 in
/-- C17, at a concrete input: the three groups of `2021` in `D2 FE 28`. -/
theorem readLiteral_nonneg_witness :
    readLiteral 3 afterHeader = some (.ret 2021 none, ⟨[], 0x28, 3, 21⟩) ∧
    ∃ (k U : Nat), 1 ≤ k ∧ U < 16 ^ k ∧
      unread afterHeader = encLiteral k U ++ unread ⟨[], 0x28, 3, 21⟩ ∧
      (⟨[], 0x28, 3, 21⟩ : bitReader).offset = afterHeader.offset + 5 * (k : Int) ∧
      (2021 : Int) = wrap64 (U : Int) ∧ (k ≤ 15 → (2021 : Int) = (U : Int) ∧ (0 : Int) ≤ 2021) ∧
      (U < 2 ^ 63 → (2021 : Int) = (U : Int) ∧ (0 : Int) ≤ 2021) :=
  ⟨by decide, readLiteral_nonneg 3 afterHeader ⟨[], 0x28, 3, 21⟩ 2021 (by decide)⟩

/-! ## Runs of the sub-packet loops -/

/-- One more turn at the end of a run. -/
theorem Steps.snoc {rp : bitReader → Option (Outcome × bitReader)} {guard : bitReader → Prop}
    {r r0 r1 : bitReader} {vs : List Int} {w : Int} (h : Steps rp guard r vs r0)
    (hg : guard r0) (hr : rp r0 = some (.ret w none, r1)) : Steps rp guard r (vs ++ [w]) r1 := by
  induction h with
  | nil r => exact Steps.cons _ _ _ _ _ hg hr (Steps.nil _)
  | cons r r2 r3 v vs g1 g2 _ ih => exact Steps.cons _ _ _ _ _ g1 g2 (ih hg hr)

/-- A run is empty or ends with a last turn. -/
theorem Steps.last {rp : bitReader → Option (Outcome × bitReader)} {guard : bitReader → Prop}
    {r r1 : bitReader} {vs : List Int} (h : Steps rp guard r vs r1) :
    (vs = [] ∧ r1 = r) ∨ ∃ r0 ws w, vs = ws ++ [w] ∧ Steps rp guard r ws r0 ∧ guard r0 ∧
      rp r0 = some (.ret w none, r1) := by
  induction h with
  | nil r => exact Or.inl ⟨rfl, rfl⟩
  | cons r r2 r3 v vs g1 g2 _ ih =>
    right
    rcases ih with ⟨rfl, rfl⟩ | ⟨r0, ws, w, rfl, hs, hg, hr⟩
    · exact ⟨r, [], v, rfl, Steps.nil _, g1, g2⟩
    · exact ⟨r0, v :: ws, w, rfl, Steps.cons _ _ _ _ _ g1 g2 hs, hg, hr⟩

/-- A run under a guard is a run under any weaker guard. -/
theorem Steps.weaken {rp : bitReader → Option (Outcome × bitReader)}
    {guard guard2 : bitReader → Prop} {r r1 : bitReader} {vs : List Int}
    (h : Steps rp guard r vs r1) (hg : ∀ s, guard s → guard2 s) : Steps rp guard2 r vs r1 := by
  induction h with
  | nil r => exact Steps.nil _
  | cons r r2 r3 v vs g1 g2 _ ih => exact Steps.cons _ _ _ _ _ (hg _ g1) g2 ih

/-- A length-mode loop that falls through has made a run of successful turns,
each entered before the limit, and ends at or after the limit. -/
theorem lengthLoop_steps (rp : bitReader → Option (Outcome × bitReader)) :
    ∀ (fuel : Nat) (limit : Int) (r : bitReader) (acc vs : List Int) (r1 : bitReader),
      lengthLoop rp fuel limit r acc = some (.done vs r1) →
        ∃ ws, vs = acc ++ ws ∧ Steps rp (fun s => s.offset < limit) r ws r1 ∧
          limit ≤ r1.offset := by
  intro fuel
  induction fuel with
  | zero =>
    intro limit r acc vs r1 h
    simp only [lengthLoop] at h
    split at h
    · exact absurd h (by simp)
    · next hc =>
      simp only [Option.some.injEq, LoopEnd.done.injEq] at h
      obtain ⟨rfl, rfl⟩ := h
      exact ⟨[], by simp, Steps.nil _, by omega⟩
  | succ fuel ih =>
    intro limit r acc vs r1 h
    simp only [lengthLoop] at h
    split at h
    · next hc =>
      cases hq : rp r with
      | none => rw [hq] at h; exact absurd h (by simp)
      | some x =>
        rw [hq] at h
        obtain ⟨o, r2⟩ := x
        cases o with
        | panic => simp at h
        | ret w err =>
          cases err with
          | some e => simp at h
          | none =>
            simp only [] at h
            obtain ⟨ws, rfl, hs, hl⟩ := ih _ _ _ _ _ h
            exact ⟨w :: ws, by simp, Steps.cons _ _ _ _ _ hc hq hs, hl⟩
    · next hc =>
      simp only [Option.some.injEq, LoopEnd.done.injEq] at h
      obtain ⟨rfl, rfl⟩ := h
      exact ⟨[], by simp, Steps.nil _, by omega⟩

/-- A length-mode loop that is left by a panic: a run of successful turns and
then a recursive call, entered before the limit, that panics. -/
theorem lengthLoop_steps_panic (rp : bitReader → Option (Outcome × bitReader)) :
    ∀ (fuel : Nat) (limit : Int) (r : bitReader) (acc : List Int) (r1 : bitReader),
      lengthLoop rp fuel limit r acc = some (.leave .panic r1) →
        ∃ ws r0, Steps rp (fun s => s.offset < limit) r ws r0 ∧ r0.offset < limit ∧
          rp r0 = some (.panic, r1) := by
  intro fuel
  induction fuel with
  | zero =>
    intro limit r acc r1 h
    simp only [lengthLoop] at h
    split at h <;> simp at h
  | succ fuel ih =>
    intro limit r acc r1 h
    simp only [lengthLoop] at h
    split at h
    · next hc =>
      cases hq : rp r with
      | none => rw [hq] at h; exact absurd h (by simp)
      | some x =>
        rw [hq] at h
        obtain ⟨o, r2⟩ := x
        cases o with
        | panic =>
          simp only [Option.some.injEq, LoopEnd.leave.injEq, true_and] at h
          subst h
          exact ⟨[], r, Steps.nil _, hc, hq⟩
        | ret w err =>
          cases err with
          | some e => simp at h
          | none =>
            simp only [] at h
            obtain ⟨ws, r0, hs, hl, hp⟩ := ih _ _ _ _ h
            exact ⟨w :: ws, r0, Steps.cons _ _ _ _ _ hc hq hs, hl, hp⟩
    · simp at h

/-- A count-mode loop that falls through has made a run of `n` successful
turns. -/
theorem countLoop_steps (rp : bitReader → Option (Outcome × bitReader)) :
    ∀ (n : Nat) (r : bitReader) (acc vs : List Int) (r1 : bitReader),
      countLoop rp n r acc = some (.done vs r1) →
        ∃ ws, vs = acc ++ ws ∧ ws.length = n ∧ Steps rp (fun _ => True) r ws r1 := by
  intro n
  induction n with
  | zero =>
    intro r acc vs r1 h
    simp only [countLoop, Option.some.injEq, LoopEnd.done.injEq] at h
    obtain ⟨rfl, rfl⟩ := h
    exact ⟨[], by simp, rfl, Steps.nil _⟩
  | succ n ih =>
    intro r acc vs r1 h
    rw [countLoop] at h
    cases hq : rp r with
    | none => rw [hq] at h; exact absurd h (by simp)
    | some x =>
      rw [hq] at h
      obtain ⟨o, r2⟩ := x
      cases o with
      | panic => simp at h
      | ret w err =>
        cases err with
        | some e => simp at h
        | none =>
          simp only [] at h
          obtain ⟨ws, rfl, hlen, hs⟩ := ih _ _ _ _ h
          exact ⟨w :: ws, by simp, by simp [hlen], Steps.cons _ _ _ _ _ True.intro hq hs⟩

/-- A count-mode loop that is left by a panic: a run of fewer than `n`
successful turns and then a recursive call that panics. -/
theorem countLoop_steps_panic (rp : bitReader → Option (Outcome × bitReader)) :
    ∀ (n : Nat) (r : bitReader) (acc : List Int) (r1 : bitReader),
      countLoop rp n r acc = some (.leave .panic r1) →
        ∃ ws r0, ws.length < n ∧ Steps rp (fun _ => True) r ws r0 ∧
          rp r0 = some (.panic, r1) := by
  intro n
  induction n with
  | zero => intro r acc r1 h; simp [countLoop] at h
  | succ n ih =>
    intro r acc r1 h
    rw [countLoop] at h
    cases hq : rp r with
    | none => rw [hq] at h; exact absurd h (by simp)
    | some x =>
      rw [hq] at h
      obtain ⟨o, r2⟩ := x
      cases o with
      | panic =>
        simp only [Option.some.injEq, LoopEnd.leave.injEq, true_and] at h
        subst h
        exact ⟨[], r, by simp, Steps.nil _, hq⟩
      | ret w err =>
        cases err with
        | some e => simp at h
        | none =>
          simp only [] at h
          obtain ⟨ws, r0, hlen, hs, hp⟩ := ih _ _ _ h
          exact ⟨w :: ws, r0, by simp [hlen], Steps.cons _ _ _ _ _ True.intro hq hs, hp⟩

/-- C8 (amended): when `readPacket` succeeds on an operator packet in length
mode with length field `L`, the sub-packet loop, entered at bit position
`start` (22 bits after the packet start), makes a run of successful
sub-packet decodes, each begun at a bit position before `start + L`, and
falls through at the first sub-packet boundary at or after `start + L`: the
call consumes at least `22 + L` bits, and the last sub-packet of the run, if
any, started before `start + L`. -/
theorem readPacket_length_stop (fuel : Nat) (r r1 : bitReader) (ver tail : List Bool)
    (t L : Nat) (v : Int) (hver : ver.length = 3) (ht : t < 8) (h4 : t ≠ 4) (hL : L < 2 ^ 15)
    (hu : unread r = ver ++ (natBits 3 t ++ ([false] ++ (natBits 15 L ++ tail))))
    (h : readPacket (fuel + 1) r = some (.ret v none, r1)) :
    ∃ r4 subvalues, r4.offset = r.offset + 22 ∧ unread r4 = tail ∧
      lengthLoop (readPacket fuel) fuel (r4.offset + (L : Int)) r4 [] =
        some (.done subvalues r1) ∧
      Steps (readPacket fuel) (fun s => s.offset < r.offset + 22 + (L : Int)) r4 subvalues r1 ∧
      applyOp (t : Int) subvalues = .ret v none ∧
      r.offset + 22 + (L : Int) ≤ r1.offset ∧
      ((subvalues = [] ∧ r1 = r4) ∨ ∃ r0 ws w, subvalues = ws ++ [w] ∧
        Steps (readPacket fuel) (fun s => s.offset < r.offset + 22 + (L : Int)) r4 ws r0 ∧
        r0.offset < r.offset + 22 + (L : Int) ∧
        readPacket fuel r0 = some (.ret w none, r1)) := by
  obtain ⟨r4, ho4, hu4, heq⟩ := readPacket_length_header r ver tail t L hver ht h4 hL hu
  rw [heq fuel] at h
  cases hq : lengthLoop (readPacket fuel) fuel (r4.offset + (L : Int)) r4 [] with
  | none => rw [hq] at h; simp [finish] at h
  | some e =>
    rw [hq] at h
    cases e with
    | leave o r2 =>
      simp only [finish, Option.some.injEq, Prod.mk.injEq] at h
      exact absurd h.1 (lengthLoop_leave _ _ _ _ _ _ _ hq v)
    | done vs r2 =>
      simp only [finish, Option.some.injEq, Prod.mk.injEq] at h
      obtain ⟨hv, rfl⟩ := h
      obtain ⟨ws, hws, hs, hl⟩ := lengthLoop_steps _ _ _ _ _ _ _ hq
      rw [List.nil_append] at hws
      subst hws
      rw [ho4] at hs hl
      exact ⟨r4, vs, ho4, hu4, hq, hs, hv, hl, hs.last⟩

set_option maxRecDepth 100000 in
/-- C8, at a concrete input: `04005AC33890` is in length mode with `L = 22`
and two sub-packets of 11 bits. -/
theorem readPacket_length_stop_witness :
    [false, false, false].length = 3 ∧ 1 < 8 ∧ 1 ≠ 4 ∧ 22 < 2 ^ 15 ∧
    unread (fresh hex04005AC33890) = [false, false, false] ++ (natBits 3 1 ++ ([false] ++
      (natBits 15 22 ++ (unread ⟨[0xC3, 0x38, 0x90], 0x5A, 2, 22⟩)))) ∧
    readPacket (2 + 1) (fresh hex04005AC33890) = some (.ret 54 none, ⟨[], 0x90, 4, 44⟩) ∧
    ∃ r4 subvalues, r4.offset = (fresh hex04005AC33890).offset + 22 ∧
      unread r4 = unread ⟨[0xC3, 0x38, 0x90], 0x5A, 2, 22⟩ ∧
      lengthLoop (readPacket 2) 2 (r4.offset + ((22 : Nat) : Int)) r4 [] =
        some (.done subvalues ⟨[], 0x90, 4, 44⟩) ∧
      Steps (readPacket 2)
        (fun s => s.offset < (fresh hex04005AC33890).offset + 22 + ((22 : Nat) : Int))
        r4 subvalues ⟨[], 0x90, 4, 44⟩ ∧
      applyOp ((1 : Nat) : Int) subvalues = .ret 54 none ∧
      (fresh hex04005AC33890).offset + 22 + ((22 : Nat) : Int) ≤
        (⟨[], 0x90, 4, 44⟩ : bitReader).offset ∧
      ((subvalues = [] ∧ (⟨[], 0x90, 4, 44⟩ : bitReader) = r4) ∨
        ∃ r0 ws w, subvalues = ws ++ [w] ∧
          Steps (readPacket 2)
            (fun s => s.offset < (fresh hex04005AC33890).offset + 22 + ((22 : Nat) : Int))
            r4 ws r0 ∧
          r0.offset < (fresh hex04005AC33890).offset + 22 + ((22 : Nat) : Int) ∧
          readPacket 2 r0 = some (.ret w none, ⟨[], 0x90, 4, 44⟩)) :=
  ⟨by decide, by decide, by decide, by decide, by decide, by decide,
    readPacket_length_stop 2 (fresh hex04005AC33890) ⟨[], 0x90, 4, 44⟩ [false, false, false]
      (unread ⟨[0xC3, 0x38, 0x90], 0x5A, 2, 22⟩) 1 22 54 (by decide) (by decide) (by decide)
      (by decide) (by decide) (by decide)⟩

/-! ## Where a panic comes from -/

/-- A panic of `readPacket` is the panic of a comparison applied to fewer than
two values, in the packet itself or in a sub-packet of the run. -/
theorem readPacket_panic : ∀ (fuel : Nat) (r r1 : bitReader),
    readPacket fuel r = some (.panic, r1) → PanicAt fuel r r1 := by
  intro fuel
  induction fuel with
  | zero => intro r r1 h; simp [readPacket] at h
  | succ fuel ih =>
    intro r r1 h
    rw [readPacket] at h
    rcases readBits_cases 3 r with ⟨ra, ha, _, _, _⟩ | ⟨ra, ha, _, _, _⟩
    swap
    · rw [ha] at h; simp at h
    have ha0 := ha
    rw [ha] at h
    simp only [] at h
    rcases readBits_cases 3 ra with ⟨rb, hb, _, _, _⟩ | ⟨rb, hb, _, _, _⟩
    swap
    · rw [hb] at h; simp at h
    obtain ⟨ht0, ht8⟩ := readBits_range 3 ra rb _ (by omega) hb
    have hb0 := hb
    rw [hb] at h
    simp only [] at h
    split at h
    · cases hq : readLiteral fuel rb with
      | none => rw [hq] at h; exact absurd h (by simp)
      | some x =>
        rw [hq] at h
        obtain ⟨o, r2⟩ := x
        rcases readLiteralLoop_outcome fuel 0 rb r2 o hq with ⟨w, rfl⟩ | rfl
        · simp at h
        · simp at h
    · next ht =>
      rcases readBits_cases 1 rb with ⟨rc, hc, hc1, _, _⟩ | ⟨rc, hc, _, _, _⟩
      swap
      · rw [hc] at h; simp at h
      have hc0 := hc
      rw [hc] at h
      simp only [] at h
      split at h
      · next hf =>
        rcases readBits_cases 11 rc with ⟨rd, hd, _, _, _⟩ | ⟨rd, hd, _, _, _⟩
        swap
        · rw [hd] at h; simp at h
        have hd0 := hd
        rw [hd] at h
        simp only [] at h
        have hdr : OperatorHeader r _ _ _ rd :=
          ⟨_, ra, rb, rc, ha0, hb0, ht, hc0, Or.inl ⟨hf, hd0⟩⟩
        cases hq : countLoop (readPacket fuel)
            (wrap64 (ofBits ((unread rc).take 11))).toNat rd [] with
        | none => rw [hq] at h; simp [finish] at h
        | some e =>
          rw [hq] at h
          cases e with
          | done vs r2 =>
            simp only [finish, Option.some.injEq, Prod.mk.injEq] at h
            obtain ⟨hp, rfl⟩ := h
            obtain ⟨ws, hws, hlen, hs⟩ := countLoop_steps _ _ _ _ _ _ hq
            rw [List.nil_append] at hws
            subst hws
            rcases applyOp_cases _ vs ht0 (by simpa using ht8) ht with ⟨w, hw⟩ | ⟨_, h5, h2⟩
            · rw [hw] at hp; simp at hp
            · exact PanicAt.here fuel r rd r2 _ _ _ vs hdr (hs.weaken (fun _ _ => by omega))
                (fun _ => hlen) (fun hz => by omega) h5 (by simpa using ht8) h2 hp
          | leave o r2 =>
            simp only [finish, Option.some.injEq, Prod.mk.injEq] at h
            obtain ⟨rfl, rfl⟩ := h
            obtain ⟨ws, r0, hlen, hs, hp⟩ := countLoop_steps_panic _ _ _ _ _ hq
            exact PanicAt.sub fuel r rd r0 r2 _ _ _ ws hdr (hs.weaken (fun _ _ => by omega))
              (fun _ => hlen) (fun hz => by omega) (ih _ _ hp)
      · next hf1 =>
        split at h
        · next hf =>
          rcases readBits_cases 15 rc with ⟨rd, hd, _, _, _⟩ | ⟨rd, hd, _, _, _⟩
          swap
          · rw [hd] at h; simp at h
          have hd0 := hd
          rw [hd] at h
          simp only [] at h
          have hdr : OperatorHeader r _ _ _ rd :=
            ⟨_, ra, rb, rc, ha0, hb0, ht, hc0, Or.inr ⟨hf, hd0⟩⟩
          cases hq : lengthLoop (readPacket fuel) fuel
              (rd.offset + wrap64 (ofBits ((unread rc).take 15))) rd [] with
          | none => rw [hq] at h; simp [finish] at h
          | some e =>
            rw [hq] at h
            cases e with
            | done vs r2 =>
              simp only [finish, Option.some.injEq, Prod.mk.injEq] at h
              obtain ⟨hp, rfl⟩ := h
              obtain ⟨ws, hws, hs, hl⟩ := lengthLoop_steps _ _ _ _ _ _ _ hq
              rw [List.nil_append] at hws
              subst hws
              rcases applyOp_cases _ vs ht0 (by simpa using ht8) ht with ⟨w, hw⟩ | ⟨_, h5, h2⟩
              · rw [hw] at hp; simp at hp
              · exact PanicAt.here fuel r rd r2 _ _ _ vs hdr (hs.weaken (fun _ hg _ => hg))
                  (fun h1 => absurd h1 hf1) (fun _ => hl) h5 (by simpa using ht8) h2 hp
            | leave o r2 =>
              simp only [finish, Option.some.injEq, Prod.mk.injEq] at h
              obtain ⟨rfl, rfl⟩ := h
              obtain ⟨ws, r0, hs, hl, hp⟩ := lengthLoop_steps_panic _ _ _ _ _ _ hq
              exact PanicAt.sub fuel r rd r0 r2 _ _ _ ws hdr (hs.weaken (fun _ hg _ => hg))
                (fun h1 => absurd h1 hf1) (fun _ => hl) (ih _ _ hp)
        · next n0 =>
          rcases wrap64_ofBits_take_one _ hc1 with h0 | h1
          · exact absurd h0 n0
          · exact absurd h1 hf1

/-- A run of sub-packet decodes is a run of every recursive call that
extends the one it was made with. -/
theorem Steps.mono {rp rp2 : bitReader → Option (Outcome × bitReader)}
    {guard : bitReader → Prop} {r r1 : bitReader} {vs : List Int}
    (h : Steps rp guard r vs r1) (hrp : ∀ s x, rp s = some x → rp2 s = some x) :
    Steps rp2 guard r vs r1 := by
  induction h with
  | nil r => exact Steps.nil _
  | cons r r2 r3 v vs g1 g2 _ ih => exact Steps.cons _ _ _ _ _ g1 (hrp _ _ g2) ih

/-- A run of `n` turns makes the count-mode loop fall through. -/
theorem Steps.countLoop {rp : bitReader → Option (Outcome × bitReader)}
    {guard : bitReader → Prop} {r r1 : bitReader} {vs : List Int}
    (h : Steps rp guard r vs r1) (acc : List Int) :
    countLoop rp vs.length r acc = some (.done (acc ++ vs) r1) := by
  induction h generalizing acc with
  | nil r => simp [Part16.countLoop]
  | cons r r2 r3 v vs g1 g2 _ ih =>
    rw [List.length_cons, Part16.countLoop, g2]
    simp only []
    rw [ih (acc ++ [v])]
    simp

/-- A run of fewer than `n` turns followed by a panic of the recursive call
makes the count-mode loop leave with the panic. -/
theorem Steps.countLoop_panic {rp : bitReader → Option (Outcome × bitReader)}
    {guard : bitReader → Prop} {r r0 r1 : bitReader} {vs : List Int}
    (h : Steps rp guard r vs r0) (hp : rp r0 = some (.panic, r1)) (n : Nat)
    (hn : vs.length < n) (acc : List Int) :
    Part16.countLoop rp n r acc = some (.leave .panic r1) := by
  induction h generalizing acc n with
  | nil r =>
    obtain ⟨m, rfl⟩ : ∃ m, n = m + 1 := ⟨n - 1, by simp at hn; omega⟩
    rw [Part16.countLoop, hp]
  | cons r r2 r3 v vs g1 g2 _ ih =>
    obtain ⟨m, rfl⟩ : ∃ m, n = m + 1 := ⟨n - 1, by simp at hn; omega⟩
    rw [Part16.countLoop, g2]
    simp only []
    exact ih hp m (by simp at hn; omega) _

/-- A run whose turns all start before the limit and which ends at or after
it makes the length-mode loop fall through. -/
theorem Steps.lengthLoop {rp : bitReader → Option (Outcome × bitReader)} {limit : Int}
    {r r1 : bitReader} {vs : List Int}
    (h : Steps rp (fun s => s.offset < limit) r vs r1) (hl : limit ≤ r1.offset) (fuel : Nat)
    (hf : vs.length ≤ fuel) (acc : List Int) :
    Part16.lengthLoop rp fuel limit r acc = some (.done (acc ++ vs) r1) := by
  induction h generalizing acc fuel with
  | nil r =>
    have hn : ¬ r.offset < limit := by omega
    cases fuel with
    | zero => simp only [Part16.lengthLoop]; rw [if_neg hn]; simp
    | succ f => simp only [Part16.lengthLoop]; rw [if_neg hn]; simp
  | cons r r2 r3 v vs g1 g2 _ ih =>
    obtain ⟨m, rfl⟩ : ∃ m, fuel = m + 1 := ⟨fuel - 1, by simp at hf; omega⟩
    simp only [Part16.lengthLoop]
    rw [if_pos g1, g2]
    simp only []
    rw [ih hl m (by simp at hf; omega) (acc ++ [v])]
    simp

/-- A run whose turns all start before the limit, followed by a recursive
call, started before the limit, that panics, makes the length-mode loop leave
with the panic. -/
theorem Steps.lengthLoop_panic {rp : bitReader → Option (Outcome × bitReader)} {limit : Int}
    {r r0 r1 : bitReader} {vs : List Int}
    (h : Steps rp (fun s => s.offset < limit) r vs r0) (hg : r0.offset < limit)
    (hp : rp r0 = some (.panic, r1)) (fuel : Nat) (hf : vs.length < fuel) (acc : List Int) :
    Part16.lengthLoop rp fuel limit r acc = some (.leave .panic r1) := by
  induction h generalizing acc fuel with
  | nil r =>
    obtain ⟨m, rfl⟩ : ∃ m, fuel = m + 1 := ⟨fuel - 1, by simp at hf; omega⟩
    simp only [Part16.lengthLoop]
    rw [if_pos hg, hp]
  | cons r r2 r3 v vs g1 g2 _ ih =>
    obtain ⟨m, rfl⟩ : ∃ m, fuel = m + 1 := ⟨fuel - 1, by simp at hf; omega⟩
    simp only [Part16.lengthLoop]
    rw [if_pos g1, g2]
    simp only []
    exact ih hg hp m (by simp at hf; omega) _

/-- After an operator header `readPacket` runs the sub-packet loop of the
mode. -/
theorem OperatorHeader.readPacket {r rd : bitReader} {t flag n : Int}
    (h : OperatorHeader r t flag n rd) (fuel : Nat) :
    Part16.readPacket (fuel + 1) r =
      if flag = 1 then finish t (countLoop (Part16.readPacket fuel) n.toNat rd [])
      else finish t (lengthLoop (Part16.readPacket fuel) fuel (rd.offset + n) rd []) := by
  obtain ⟨ver, ra, rb, rc, ha, hb, ht, hc, hm⟩ := h
  rw [Part16.readPacket, ha]
  simp only []
  rw [hb]
  simp only []
  rw [if_neg ht, hc]
  simp only []
  rcases hm with ⟨hf, hd⟩ | ⟨hf, hd⟩
  · subst hf
    rw [if_pos rfl, if_pos rfl, hd]
  · subst hf
    rw [if_neg (by decide), if_pos rfl, if_neg (by decide), hd]

/-- What `PanicAt` describes is a panic: with enough fuel, `readPacket` ends
in the panic, in the state given. -/
theorem PanicAt.panics {fuel : Nat} {r r1 : bitReader} (h : PanicAt fuel r r1) :
    ∃ fuel0, ∀ f, fuel0 ≤ f → Part16.readPacket f r = some (.panic, r1) := by
  induction h with
  | here fuel r rd r1 t flag n vs hdr hs hc hl h5 h8 h2 hp =>
    refine ⟨max fuel vs.length + 1, ?_⟩
    intro f hf
    obtain ⟨F, rfl⟩ : ∃ F, f = F + 1 := ⟨f - 1, by omega⟩
    have hF : fuel ≤ F := by have := le_max_left fuel vs.length; omega
    have hV : vs.length ≤ F := by have := le_max_right fuel vs.length; omega
    have hs2 := hs.mono (fun s x hx => readPacket_mono_le fuel F s x hF hx)
    rw [hdr.readPacket F]
    have hflag : flag = 1 ∨ flag = 0 := by
      obtain ⟨_, _, _, _, _, _, _, _, hm⟩ := hdr
      rcases hm with ⟨hf, _⟩ | ⟨hf, _⟩
      · exact Or.inl hf
      · exact Or.inr hf
    rcases hflag with hf1 | hf0
    · rw [if_pos hf1, ← hc hf1, hs2.countLoop []]
      simp only [finish, List.nil_append]
      rw [hp]
    · have hne : ¬ flag = 1 := by omega
      have hs3 : Steps (Part16.readPacket F) (fun s => s.offset < rd.offset + n) rd vs r1 :=
        hs2.weaken (fun s hg => hg hf0)
      rw [if_neg hne, hs3.lengthLoop (hl hf0) F hV []]
      simp only [finish, List.nil_append]
      rw [hp]
  | sub fuel r rd r0 r1 t flag n vs hdr hs hc hl _ ih =>
    obtain ⟨F1, hF1⟩ := ih
    refine ⟨max (max fuel F1) (vs.length + 1) + 1, ?_⟩
    intro f hf
    obtain ⟨F, rfl⟩ : ∃ F, f = F + 1 := ⟨f - 1, by omega⟩
    have hF : fuel ≤ F := by
      have := le_max_left (max fuel F1) (vs.length + 1)
      have := le_max_left fuel F1
      omega
    have hFF : F1 ≤ F := by
      have := le_max_left (max fuel F1) (vs.length + 1)
      have := le_max_right fuel F1
      omega
    have hV : vs.length < F := by
      have := le_max_right (max fuel F1) (vs.length + 1)
      omega
    have hs2 := hs.mono (fun s x hx => readPacket_mono_le fuel F s x hF hx)
    have hp := hF1 F hFF
    rw [hdr.readPacket F]
    have hflag : flag = 1 ∨ flag = 0 := by
      obtain ⟨_, _, _, _, _, _, _, _, hm⟩ := hdr
      rcases hm with ⟨hf, _⟩ | ⟨hf, _⟩
      · exact Or.inl hf
      · exact Or.inr hf
    rcases hflag with hf1 | hf0
    · rw [if_pos hf1, hs2.countLoop_panic hp n.toNat (hc hf1) []]
      rfl
    · have hne : ¬ flag = 1 := by omega
      have hs3 : Steps (Part16.readPacket F) (fun s => s.offset < rd.offset + n) rd vs r0 :=
        hs2.weaken (fun s hg => hg hf0)
      rw [if_neg hne, hs3.lengthLoop_panic (hl hf0) hp F hV []]
      rfl

/-- C18 (amended): for every finite byte sequence `readPacket` on a fresh
reader terminates: with any fuel above the number of input bits it ends in
one and the same way. A run ends in a value, in an error rooted in `io.EOF`,
or in the index-out-of-range panic, and then a comparison (type code 5, 6 or
7), the packet itself or a sub-packet of the run, has been applied to fewer
than two sub-packet values (`PanicAt`, which in turn always ends in the
panic). A successful decode consumes at least
11 bits, the count read from 11 bits is at most `2^11 - 1`, `readLiteral`
consumes 5 bits per iteration, and the sub-packet loops, where every
recursive call is made, start 18 bits (count mode) or 22 bits (length mode)
after the start of the packet. -/
theorem readPacket_terminates :
    (∀ bs : List Byte, ∃ o r1, ∀ fuel, 8 * bs.length < fuel →
      readPacket fuel (fresh bs) = some (o, r1)) ∧
    (∀ (fuel : Nat) (r r1 : bitReader) (o : Outcome), readPacket fuel r = some (o, r1) →
      (∃ v, o = .ret v none) ∨ (∃ e, o = .ret 0 (some e) ∧ e.rootCause = .eof) ∨
        (o = .panic ∧ PanicAt fuel r r1)) ∧
    (∀ (fuel : Nat) (r r1 : bitReader), PanicAt fuel r r1 →
      ∃ fuel0, ∀ f, fuel0 ≤ f → readPacket f r = some (.panic, r1)) ∧
    (∀ (fuel : Nat) (r r1 : bitReader) (v : Int),
      readPacket fuel r = some (.ret v none, r1) → r.offset + 11 ≤ r1.offset) ∧
    (∀ (r r1 : bitReader) (v : Int),
      readBits 11 r = (.ret v none, r1) → 0 ≤ v ∧ v ≤ 2 ^ 11 - 1) ∧
    (∀ (fuel : Nat) (r r1 : bitReader) (v : Int),
      readLiteral fuel r = some (.ret v none, r1) →
        ∃ k : Nat, 1 ≤ k ∧ r1.offset = r.offset + 5 * (k : Int)) ∧
    (∀ (r : bitReader) (ver tail : List Bool) (t k : Nat), ver.length = 3 → t < 8 → t ≠ 4 →
      k < 2 ^ 11 → unread r = ver ++ (natBits 3 t ++ ([true] ++ (natBits 11 k ++ tail))) →
      ∃ r4, r4.offset = r.offset + 18 ∧ ∀ fuel, readPacket (fuel + 1) r =
        finish (t : Int) (countLoop (readPacket fuel) k r4 [])) ∧
    (∀ (r : bitReader) (ver tail : List Bool) (t L : Nat), ver.length = 3 → t < 8 → t ≠ 4 →
      L < 2 ^ 15 → unread r = ver ++ (natBits 3 t ++ ([false] ++ (natBits 15 L ++ tail))) →
      ∃ r4, r4.offset = r.offset + 22 ∧ ∀ fuel, readPacket (fuel + 1) r =
        finish (t : Int) (lengthLoop (readPacket fuel) fuel (r4.offset + (L : Int)) r4 [])) := by
  refine ⟨?_, ?_, fun _ _ _ h => h.panics, ?_, ?_, ?_, ?_, ?_⟩
  · intro bs
    obtain ⟨o, r1, h⟩ := readPacket_terminates_aux (fresh bs)
    refine ⟨o, r1, ?_⟩
    intro fuel hf
    apply h
    rw [length_unread]
    simpa [fresh] using hf
  · intro fuel r r1 o h
    cases o with
    | panic => right; right; exact ⟨rfl, readPacket_panic fuel r r1 h⟩
    | ret v err =>
      cases err with
      | none => left; exact ⟨v, rfl⟩
      | some e =>
        obtain ⟨hv, he⟩ := readPacket_error_eof fuel r r1 v e h
        right; left
        exact ⟨e, by rw [hv], he⟩
  · intro fuel r r1 v h
    exact (readPacket_offset fuel r r1 _ h).2 v rfl
  · intro r r1 v h
    have := readBits_range 11 r r1 v (by omega) h
    omega
  · intro fuel r r1 v h
    have h0 : (0 : Int) = wrap64 0 := by decide
    unfold readLiteral at h
    rw [h0] at h
    obtain ⟨k, U, hk, _, ho, _⟩ := readLiteralLoop_value fuel 0 r r1 v h
    exact ⟨k, hk, ho⟩
  · intro r ver tail t k hver ht h4 hk hu
    obtain ⟨r4, h1, _, h3⟩ := readPacket_count_header r ver tail t k hver ht h4 hk hu
    exact ⟨r4, h1, h3⟩
  · intro r ver tail t L hver ht h4 hL hu
    obtain ⟨r4, h1, _, h3⟩ := readPacket_length_header r ver tail t L hver ht h4 hL hu
    exact ⟨r4, h1, h3⟩

/-! ## The bit position as a Go `int` -/

/-- The increment `r.offset++` on the Go field. -/
theorem goOffset_step (ret : Int) (r : bitReader) :
    goOffset (readBitsStep ret r).2 = wrap64 (goOffset r + 1) := by
  unfold goOffset readBitsStep
  simp only []
  unfold wrap64
  omega

/-- In a state without overflow the Go field is the bit count. -/
theorem goOffset_eq (r : bitReader) (h : NoOverflow r) : goOffset r = r.offset := by
  obtain ⟨h1, h2⟩ := h
  have : (0 : Int) ≤ ((unread r).length : Int) := Int.ofNat_nonneg _
  exact wrap64_of_range _ h1 (by omega)

/-- A call that conserves the position of the end of the input and does not
move the bit position back leads from a state without overflow to a state
without overflow. -/
theorem NoOverflow.step {r r1 : bitReader} (h : NoOverflow r) (hle : r.offset ≤ r1.offset)
    (ht : r1.offset + ((unread r1).length : Int) = r.offset + ((unread r).length : Int)) :
    NoOverflow r1 := by
  obtain ⟨h1, h2⟩ := h
  exact ⟨by omega, by omega⟩

set_option maxRecDepth 100000 in
/-- C2 (as stated, refuted): in the reader state with `offset = math.MaxInt`
a successful `readBits(1)` leaves the field `offset` at `-2^63`: not at its
previous value plus 1, and below its previous value. -/
theorem readBits_offset_counterexample :
    readBits 1 atMaxInt = (.ret 1 none, ⟨[], 0x01, 0, MaxInt + 1⟩) ∧
    goOffset atMaxInt = MaxInt ∧
    goOffset ⟨[], 0x01, 0, MaxInt + 1⟩ = -2 ^ 63 ∧
    goOffset ⟨[], 0x01, 0, MaxInt + 1⟩ ≠ goOffset atMaxInt + 1 ∧
    goOffset ⟨[], 0x01, 0, MaxInt + 1⟩ < goOffset atMaxInt := by
  refine ⟨by decide, by decide, by decide, by decide, by decide⟩

/-- C2 (amended): the increment of `readBits` is `offset++` on a 64-bit
`int`; in every reader state whose `offset` is an `int` with
`offset + n ≤ math.MaxInt`, a successful `readBits(n)` leaves `offset` at its
previous value plus `n`; and from every state in which the counter cannot
overflow (`NoOverflow`), no call of `readBits`, `readLiteral` or `readPacket`,
successful or not, decreases `offset`, each leads to such a state again, a
successful `readPacket` strictly increases `offset`, and the length-mode
guard `r.offset < begin+length` compares the bit counts themselves. -/
theorem readBits_offset :
    (∀ (ret : Int) (r : bitReader),
      goOffset (readBitsStep ret r).2 = wrap64 (goOffset r + 1)) ∧
    (∀ (n : Nat) (r r1 : bitReader) (v : Int), -2 ^ 63 ≤ r.offset → r.offset + n < 2 ^ 63 →
      readBits n r = (.ret v none, r1) → goOffset r1 = goOffset r + n) ∧
    (∀ (n : Nat) (r : bitReader), NoOverflow r →
      goOffset r ≤ goOffset (readBits n r).2 ∧ NoOverflow (readBits n r).2) ∧
    (∀ (fuel : Nat) (r r1 : bitReader) (o : Outcome), NoOverflow r →
      readLiteral fuel r = some (o, r1) → goOffset r ≤ goOffset r1 ∧ NoOverflow r1) ∧
    (∀ (fuel : Nat) (r r1 : bitReader) (o : Outcome), NoOverflow r →
      readPacket fuel r = some (o, r1) → goOffset r ≤ goOffset r1 ∧ NoOverflow r1) ∧
    (∀ (fuel : Nat) (r r1 : bitReader) (v : Int), NoOverflow r →
      readPacket fuel r = some (.ret v none, r1) → goOffset r < goOffset r1) ∧
    (∀ (begin s : bitReader) (length : Int), NoOverflow begin → NoOverflow s →
      0 ≤ length → length < 2 ^ 15 →
      (goOffset s < wrap64 (goOffset begin + length) ↔ s.offset < begin.offset + length)) := by
  refine ⟨goOffset_step, ?_, ?_, ?_, ?_, ?_, ?_⟩
  · intro n r r1 v h0 h1 h
    have ho := (readBits_success n r r1 v h).2.2.2
    have hn : (0 : Int) ≤ (n : Int) := Int.ofNat_nonneg _
    unfold goOffset
    rw [ho, wrap64_of_range _ (by omega) h1, wrap64_of_range _ h0 (by omega)]
  · intro n r hr
    have hle := readBits_offset_le n r
    have ht := readBits_total n r (readBits n r).2 (readBits n r).1 rfl
    have h1 := NoOverflow.step hr hle ht
    rw [goOffset_eq _ hr, goOffset_eq _ h1]
    exact ⟨hle, h1⟩
  · intro fuel r r1 o hr h
    have hle := (readLiteral_offset fuel r r1 o h).1
    have ht := readLiteralLoop_total fuel 0 r r1 o h
    have h1 := NoOverflow.step hr hle ht
    rw [goOffset_eq _ hr, goOffset_eq _ h1]
    exact ⟨hle, h1⟩
  · intro fuel r r1 o hr h
    have hle := (readPacket_offset fuel r r1 o h).1
    have ht := readPacket_total fuel r r1 o h
    have h1 := NoOverflow.step hr hle ht
    rw [goOffset_eq _ hr, goOffset_eq _ h1]
    exact ⟨hle, h1⟩
  · intro fuel r r1 v hr h
    have hle := readPacket_offset fuel r r1 _ h
    have ht := readPacket_total fuel r r1 _ h
    have h1 := NoOverflow.step hr hle.1 ht
    have h11 := hle.2 v rfl
    rw [goOffset_eq _ hr, goOffset_eq _ h1]
    omega
  · intro b s L hb hs h0 h1
    rw [goOffset_eq _ hb, goOffset_eq _ hs]
    obtain ⟨hb1, hb2⟩ := hb
    have : (0 : Int) ≤ ((unread b).length : Int) := Int.ofNat_nonneg _
    rw [wrap64_of_range _ (by omega) (by omega)]

set_option maxRecDepth 100000 in
/-- C2, at a concrete input: the six header bits of `D2 FE 28`, read from the
fresh reader. -/
theorem readBits_offset_witness :
    NoOverflow (fresh hexD2FE28) ∧ readBits 6 (fresh hexD2FE28) = (.ret 52 none, afterHeader) ∧
    goOffset afterHeader = goOffset (fresh hexD2FE28) + ((6 : Nat) : Int) :=
  ⟨⟨by decide, by decide⟩, by decide,
    readBits_offset.2.1 6 (fresh hexD2FE28) afterHeader 52 (by decide) (by decide) (by decide)⟩

end Part16
